import Mathlib

/-!
Shallow embedding of the `XmlNode` module (src/src/xmlNode.ts) of the
easy-template-x repository, together with proofs checking the claims of the
natural-language specification against it.

The TypeScript module mutates a graph of node objects that point at each other
through `parentNode`, `childNodes` and `nextSibling`.  We embed this object
graph as a heap: node identities are natural numbers, the heap maps every
identity to a record of the node's fields, and every mutating operation is a
function `Heap → Heap × Except XmlError α`.  JavaScript exceptions leave the
mutations performed so far in place, so an error result carries the heap at
the moment of the throw.  `null` and `undefined` are both embedded as `none`.
The unbounded `while` loops of the source are given a fuel parameter; the
theorems supply enough fuel and `XmlError.outOfFuel` is never reached there.
-/

namespace XN

/-- Mirrors `enum XmlNodeType` (src/src/xmlNode.ts, lines 4-7). -/
inductive XmlNodeType where
  | Text
  | General
deriving DecidableEq, Repr

/-- Mirrors `interface XmlAttribute` (lines 32-35). -/
structure XmlAttribute where
  name : String
  value : String
deriving DecidableEq, Repr

/--
One node record of the object graph: the fields of `XmlNodeBase`,
`XmlTextNode` and `XmlGeneralNode` (lines 11-30) merged into one record, with
`Option` marking the fields that may be `null`/`undefined` at run time
(`textContent` is typed `string` in the source but holds `undefined` when
`createTextNode` is called without an argument).
-/
structure NodeData where
  nodeType : XmlNodeType
  nodeName : String
  textContent : Option String
  attributes : Option (List XmlAttribute)
  parentNode : Option Nat
  childNodes : Option (List Nat)
  nextSibling : Option Nat
deriving DecidableEq, Repr

/-- A node object with every field absent (used for fresh allocations). -/
def blankNode : NodeData :=
  { nodeType := XmlNodeType.General, nodeName := "", textContent := none,
    attributes := none, parentNode := none, childNodes := none,
    nextSibling := none }

/--
The object heap: node identities are naturals, `data` gives each identity its
current record, and identities `≥ nextId` are unallocated (they read as
`blankNode` in well-formed heaps; allocation hands out `nextId`).
-/
structure Heap where
  data : Nat → NodeData
  nextId : Nat

def Heap.get (h : Heap) (i : Nat) : NodeData := h.data i

/-- Assignment `node.nextSibling = v`. -/
def Heap.setNS (h : Heap) (i : Nat) (v : Option Nat) : Heap :=
  ⟨fun j => if j = i then { h.data i with nextSibling := v } else h.data j, h.nextId⟩

/-- Assignment `node.parentNode = v`. -/
def Heap.setPN (h : Heap) (i : Nat) (v : Option Nat) : Heap :=
  ⟨fun j => if j = i then { h.data i with parentNode := v } else h.data j, h.nextId⟩

/-- Assignment `node.childNodes = v` (also models in-place array mutation,
since the child array is only ever reachable through its owner). -/
def Heap.setCN (h : Heap) (i : Nat) (v : Option (List Nat)) : Heap :=
  ⟨fun j => if j = i then { h.data i with childNodes := v } else h.data j, h.nextId⟩

/-- Assignment `node.textContent = v`. -/
def Heap.setTX (h : Heap) (i : Nat) (v : Option String) : Heap :=
  ⟨fun j => if j = i then { h.data i with textContent := v } else h.data j, h.nextId⟩

/-- Assignment `node.attributes = v`. -/
def Heap.setAT (h : Heap) (i : Nat) (v : Option (List XmlAttribute)) : Heap :=
  ⟨fun j => if j = i then { h.data i with attributes := v } else h.data j, h.nextId⟩

/-- Allocation of a fresh object (`{...}` literals in the source). -/
def Heap.alloc (h : Heap) (d : NodeData) : Heap × Nat :=
  (⟨fun j => if j = h.nextId then d else h.data j, h.nextId + 1⟩, h.nextId)

/-- Field accessor shorthands used throughout the statements. -/
def Heap.ns (h : Heap) (i : Nat) : Option Nat := (h.get i).nextSibling

def Heap.pn (h : Heap) (i : Nat) : Option Nat := (h.get i).parentNode

def Heap.cn (h : Heap) (i : Nat) : Option (List Nat) := (h.get i).childNodes

/-- The child sequence of a node: the `childNodes` array, reading an absent
container as the empty sequence (`node.childNodes || []`). -/
def childList (h : Heap) (i : Nat) : List Nat := (h.cn i).getD []

/-- Build a heap from an explicit list of records, identity `i` holding the
`i`-th record; used for the concrete witness heaps. -/
def heapOf (l : List NodeData) : Heap :=
  ⟨fun i => (l.get? i).getD blankNode, l.length⟩

/--
The error values the module can raise, one constructor per error class met in
the source.  `missingArgument` is the `MissingArgumentError` of the (absent
from src/) `./errors` module; the spec's §7 describes it as "any required
parameter is absent/null", which is exactly how the source uses it.
`invalid` is a plain `Error (msg)`, `rangeError` a `RangeError`, and
`typeError` a JavaScript `TypeError` (raised when a property of
`undefined`/`null` is accessed, or by `encodeValue` on a non-string).
`outOfFuel` is an artifact of the embedding of unbounded loops.
-/
inductive XmlError where
  | missingArgument (argName : String)
  | invalid (msg : String)
  | rangeError
  | typeError
  | outOfFuel
deriving DecidableEq, Repr

instance {ε α : Type} [DecidableEq ε] [DecidableEq α] : DecidableEq (Except ε α) :=
  fun a b =>
    match a, b with
    | .ok x, .ok y =>
      match decEq x y with
      | isTrue h => isTrue (by rw [h])
      | isFalse h => isFalse (fun he => h (Except.ok.inj he))
    | .error x, .error y =>
      match decEq x y with
      | isTrue h => isTrue (by rw [h])
      | isFalse h => isFalse (fun he => h (Except.error.inj he))
    | .ok _, .error _ => isFalse (fun he => Except.noConfusion he)
    | .error _, .ok _ => isFalse (fun he => Except.noConfusion he)

/-- `TEXT_NODE_NAME` (lines 19 and 44). -/
def TEXT_NODE_NAME : String := "#text"

/-- `createTextNode(text?)` (lines 50-56) as the record it returns. -/
def createTextNode (text : Option String) : NodeData :=
  { blankNode with
    nodeType := XmlNodeType.Text
    nodeName := TEXT_NODE_NAME
    textContent := text }

/-- `createGeneralNode(name)` (lines 58-63) as the record it returns. -/
def createGeneralNode (name : String) : NodeData :=
  { blankNode with nodeType := XmlNodeType.General, nodeName := name }

/-- The replacement performed for one character by the callback of
`str.replace(/[<>&'"]/g, ...)` (lines 80-89); characters the regex does not
match are kept unchanged (the `return ''` fallback of the switch is
unreachable, the regex only matches the five cases). -/
def encodeChar (c : Char) : String :=
  if c = '<' then "&lt;"
  else if c = '>' then "&gt;"
  else if c = '&' then "&amp;"
  else if c = '\'' then "&apos;"
  else if c = '"' then "&quot;"
  else String.singleton c

/-- The pure string transformation of `encodeValue` (line 80-89). -/
def encodeValue (s : String) : String :=
  String.join (s.data.map encodeChar)

/-- A JavaScript value as it can reach `encodeValue`'s dynamic checks. -/
inductive JsValue where
  | nullV
  | undefinedV
  | str (s : String)
  | num (n : Int)
  | boolean (b : Bool)
deriving DecidableEq, Repr

/-- `encodeValue(str)` with its dynamic argument checks (lines 74-90):
`null`/`undefined` raise `MissingArgumentError('str')`, non-strings raise a
`TypeError`, strings are escaped. -/
def encodeValueJs : JsValue → Except XmlError String
  | JsValue.nullV => .error (.missingArgument "str")
  | JsValue.undefinedV => .error (.missingArgument "str")
  | JsValue.str s => .ok (encodeValue s)
  | JsValue.num _ => .error .typeError
  | JsValue.boolean _ => .error .typeError

/-- `encodeValue(node.textContent)` as called by `serialize` (line 94): the
argument is a possibly-absent string field. -/
def encodeValueOpt : Option String → Except XmlError String
  | none => .error (.missingArgument "str")
  | some s => .ok (encodeValue s)

/-- `x || ''` on a string `x`. -/
def orEmpty (s : String) : String := if s = "" then "" else s

/-- `isTextNode(node)` (lines 187-195): discriminates on type/name and throws
on an inconsistent pairing. -/
def isTextNode (d : NodeData) : Except XmlError Bool :=
  if d.nodeType = XmlNodeType.Text ∨ d.nodeName = TEXT_NODE_NAME then
    if ¬ (d.nodeType = XmlNodeType.Text ∧ d.nodeName = TEXT_NODE_NAME) then
      .error (.invalid "Invalid text node")
    else .ok true
  else .ok false

/-- `attr.name + '="' + attr.value + '"'` joined by spaces (lines 98-102). -/
def attrsString (attrs : List XmlAttribute) : String :=
  String.intercalate " " (attrs.map (fun a => a.name ++ "=\"" ++ a.value ++ "\""))

/-- Sequence the serializations of the children and concatenate them
(`childNodes.map(serialize).join('')`, lines 114-116): the first child that
throws aborts the whole map. -/
def seqStrings : List (Except XmlError String) → Except XmlError String
  | [] => .ok ""
  | e :: rest =>
    match e with
    | .error err => .error err
    | .ok s =>
      match seqStrings rest with
      | .error err => .error err
      | .ok ss => .ok (s ++ ss)

/-- `serialize(node)` (lines 92-127).  The recursion over the tree is
bounded by fuel; the per-level structure mirrors the source: text nodes go
through `encodeValue(textContent) || ''`, general nodes emit attributes, a
self-closing tag when there are no children, and open/children/close tags
otherwise. -/
def serializeH : Nat → Heap → Nat → Except XmlError String
  | 0, _, _ => .error .outOfFuel
  | fuel+1, h, id =>
    let d := h.get id
    match isTextNode d with
    | .error e => .error e
    | .ok true =>
      match encodeValueOpt d.textContent with
      | .error e => .error e
      | .ok s => .ok (orEmpty s)
    | .ok false =>
      let attrs :=
        match d.attributes with
        | some as => if as.length ≠ 0 then " " ++ attrsString as else ""
        | none => ""
      let cs := d.childNodes.getD []
      if cs.length ≠ 0 then
        match seqStrings (cs.map (fun c => serializeH fuel h c)) with
        | .error e => .error e
        | .ok inner =>
          .ok ("<" ++ d.nodeName ++ attrs ++ ">" ++ inner ++ "</" ++ d.nodeName ++ ">")
      else .ok ("<" ++ d.nodeName ++ attrs ++ "/>")

/-! ### JavaScript array primitives

The source manipulates `childNodes` with `push`, `splice`, `indexOf` and
subscripting; these are the corresponding list operations, with the
JavaScript edge behaviors (out-of-range reads yield `undefined` = `none`,
`indexOf` yields `-1`). -/

/-- `arr[i]` for a natural index. -/
def nth {α : Type} : List α → Nat → Option α
  | [], _ => none
  | a :: _, 0 => some a
  | _ :: l, i+1 => nth l i

/-- `arr[i]` for a possibly negative index. -/
def jsGetI (l : List Nat) (i : Int) : Option Nat :=
  if i < 0 then none else nth l i.toNat

/-- `arr.splice(i, 0, c)` — insert `c` at index `i` (the source always calls
it with `i ≤ length`; beyond the length JavaScript clamps to an append). -/
def insertAt {α : Type} : List α → Nat → α → List α
  | l, 0, c => c :: l
  | [], _+1, c => [c]
  | a :: l, i+1, c => a :: insertAt l i c

/-- `arr.splice(i, 1)` — remove the element at index `i` (no-op beyond the
length, as in JavaScript). -/
def eraseAt {α : Type} : List α → Nat → List α
  | [], _ => []
  | _ :: l, 0 => l
  | a :: l, i+1 => a :: eraseAt l i

/-- `arr.indexOf(x)`: index of the first occurrence, `-1` if absent. -/
def idxOfAux (x : Nat) : List Nat → Nat → Int
  | [], _ => -1
  | a :: l, acc => if a = x then (acc : Int) else idxOfAux x l (acc + 1)

def idxOfI (l : List Nat) (x : Nat) : Int := idxOfAux x l 0

/-- `last(arr)` from the (absent from src/) `./utils` module.
Modelled from the spec: §4.4 has `splitByChild` "removing the marker's own
top-level ancestor afterward", which after the move loop is the last element
of `root.childNodes`; so `last` is `arr[arr.length - 1]`, `undefined` on an
empty array. -/
def jsLast (l : List Nat) : Option Nat := l.getLast?

/-! ### Tree mutation operations -/

/-- `appendChild(parent, child)` (lines 269-290). -/
def appendChild (h : Heap) (parent child : Option Nat) : Heap × Except XmlError Unit :=
  match parent with
  | none => (h, .error (.missingArgument "parent"))
  | some p =>
    match isTextNode (h.get p) with
    | .error e => (h, .error e)
    | .ok true => (h, .error (.invalid "Appending children to text nodes is forbidden"))
    | .ok false =>
      match child with
      | none => (h, .error (.missingArgument "child"))
      | some c =>
        let h1 := if (h.get p).childNodes = none then h.setCN p (some []) else h
        let cs := ((h1.get p).childNodes).getD []
        let h2 :=
          if cs.length ≠ 0 then
            match nth cs (cs.length - 1) with
            | some lastChild => h1.setNS lastChild (some c)
            | none => h1
          else h1
        let h3 := h2.setNS c none
        let h4 := h3.setPN c (some p)
        let cs2 := ((h4.get p).childNodes).getD []
        (h4.setCN p (some (cs2 ++ [c])), .ok ())

/-- `insertChild(parent, child, childIndex)` (lines 234-267).  The index is a
natural (the source's callers pass non-negative indices).  Note the source
allocates the empty `childNodes` container before the range check, so the
out-of-range error can leave that allocation behind. -/
def insertChild (h : Heap) (parent child : Option Nat) (childIndex : Nat) :
    Heap × Except XmlError Unit :=
  match parent with
  | none => (h, .error (.missingArgument "parent"))
  | some p =>
    match isTextNode (h.get p) with
    | .error e => (h, .error e)
    | .ok true => (h, .error (.invalid "Appending children to text nodes is forbidden"))
    | .ok false =>
      match child with
      | none => (h, .error (.missingArgument "child"))
      | some c =>
        let h1 := if (h.get p).childNodes = none then h.setCN p (some []) else h
        let cs := ((h1.get p).childNodes).getD []
        if childIndex = cs.length then appendChild h1 (some p) (some c)
        else if childIndex > cs.length then (h1, .error .rangeError)
        else
          let h2 := h1.setPN c (some p)
          let childAfter := nth (((h2.get p).childNodes).getD []) childIndex
          let h3 := h2.setNS c childAfter
          let h4 :=
            if 0 < childIndex then
              match nth (((h3.get p).childNodes).getD []) (childIndex - 1) with
              | some childBefore => h3.setNS childBefore (some c)
              | none => h3
            else h3
          (h4.setCN p (some (insertAt (((h4.get p).childNodes).getD []) childIndex c)), .ok ())

/-- The node-or-index argument of `removeChild`'s dual signature. -/
inductive ChildSel where
  | byNode (node : Nat)
  | byIndex (index : Nat)
deriving DecidableEq, Repr

/-- `removeChild(parent, childOrIndex)` (lines 310-345).  Returns the removed
node (`splice(childIndex, 1)[0]`, `none` standing for `undefined`). -/
def removeChild (h : Heap) (parent : Option Nat) (childOrIndex : Option ChildSel) :
    Heap × Except XmlError (Option Nat) :=
  match parent with
  | none => (h, .error (.missingArgument "parent"))
  | some p =>
    match childOrIndex with
    | none => (h, .error (.missingArgument "childOrIndex"))
    | some sel =>
      match (h.get p).childNodes with
      | none => (h, .error (.invalid "Parent node has node children"))
      | some cs =>
        if cs.length = 0 then (h, .error (.invalid "Parent node has node children"))
        else
          match (match sel with
                 | ChildSel.byIndex i => Except.ok ((i : Nat) : Int)
                 | ChildSel.byNode n =>
                   let i := idxOfI cs n
                   if i = -1 then
                     Except.error (XmlError.invalid
                       "Specified child node is not a child of the specified parent")
                   else Except.ok i) with
          | .error e => (h, .error e)
          | .ok childIndex =>
            if (cs.length : Int) ≤ childIndex then (h, .error .rangeError)
            else
              match jsGetI cs childIndex with
              | none => (h, .error .typeError)
              | some child =>
                let h1 :=
                  if 0 < childIndex then
                    match jsGetI cs (childIndex - 1) with
                    | some beforeChild => h.setNS beforeChild ((h.get child).nextSibling)
                    | none => h
                  else h
                let h2 := h1.setPN child none
                let h3 := h2.setNS child none
                let cs2 := ((h3.get p).childNodes).getD []
                (h3.setCN p (some (eraseAt cs2 childIndex.toNat)), .ok (nth cs2 childIndex.toNat))

/-- `remove(node)` (lines 297-305): delegates to `removeChild` with the
node's parent. -/
def remove (h : Heap) (node : Option Nat) : Heap × Except XmlError Unit :=
  match node with
  | none => (h, .error (.missingArgument "node"))
  | some n =>
    match (h.get n).parentNode with
    | none => (h, .error (.invalid "Node has no parent"))
    | some p =>
      match removeChild h (some p) (some (ChildSel.byNode n)) with
      | (h1, .error e) => (h1, .error e)
      | (h1, .ok _) => (h1, .ok ())

/-! ### Cloning -/

/-- The body of the `for (const child of original.childNodes)` loop of
`cloneNodeDeep` (lines 476-492): clone each child, push it, set its parent
link, link the previous sibling.  The recursive cloning function is passed in
so the list recursion stays structural. -/
def cloneKidsLoop (cloneFn : Heap → Nat → Heap × Except XmlError Nat) (clone : Nat) :
    Heap → Option Nat → List Nat → Heap × Except XmlError Unit
  | h, _, [] => (h, .ok ())
  | h, prev, c :: rest =>
    match cloneFn h c with
    | (h1, .error e) => (h1, .error e)
    | (h1, .ok childClone) =>
      let h2 := h1.setCN clone (some (((h1.get clone).childNodes).getD [] ++ [childClone]))
      let h3 := h2.setPN childClone (some clone)
      let h4 :=
        match prev with
        | some prevClone => h3.setNS prevClone (some childClone)
        | none => h3
      cloneKidsLoop cloneFn clone h4 (some childClone) rest

/-- `cloneNodeDeep(original)` (lines 459-495), fuel-bounded in depth: allocate
the fresh object with the basic properties, copy `textContent` or the
attribute pairs depending on `isTextNode`, then clone the children in order. -/
def cloneNodeDeep : Nat → Heap → Nat → Heap × Except XmlError Nat
  | 0, h, _ => (h, .error .outOfFuel)
  | fuel+1, h, original =>
    let od := h.get original
    let (h1, clone) := h.alloc { blankNode with
      nodeType := od.nodeType
      nodeName := od.nodeName }
    match isTextNode od with
    | .error e => (h1, .error e)
    | .ok isTxt =>
      let h2 :=
        if isTxt then h1.setTX clone od.textContent
        else
          match od.attributes with
          | some attrs =>
            h1.setAT clone (some (attrs.map (fun a => { name := a.name, value := a.value })))
          | none => h1
      match od.childNodes with
      | none => (h2, .ok clone)
      | some cs =>
        let h3 := h2.setCN clone (some [])
        match cloneKidsLoop (fun hh nn => cloneNodeDeep fuel hh nn) clone h3 none cs with
        | (h4, .error e) => (h4, .error e)
        | (h4, .ok _) => (h4, .ok clone)

/-- `cloneNode(node, deep)` (lines 197-212). -/
def cloneNode (h : Heap) (node : Option Nat) (deep : Bool) (fuel : Nat) :
    Heap × Except XmlError Nat :=
  match node with
  | none => (h, .error (.missingArgument "node"))
  | some n =>
    if !deep then
      let (h1, c) := h.alloc { h.get n with
        parentNode := none
        childNodes := none
        nextSibling := none }
      (h1, .ok c)
    else
      match cloneNodeDeep fuel h n with
      | (h1, .error e) => (h1, .error e)
      | (h1, .ok c) => (h1.setPN c none, .ok c)

/-! ### Paths, sibling removal, splitting -/

/-- The `while (node !== root)` loop of `getDescendantPath` (lines 501-510):
walk the parent links, recording `indexOf` at each step with `path.push`
(appending, deepest index first; the wrapper reverses at the end).  Accessing
`childNodes.indexOf` on an absent container is a `TypeError`, as in
JavaScript. -/
def getDescendantPathLoop : Nat → Heap → Nat → Nat → List Int → Except XmlError (List Int)
  | 0, _, _, _, _ => .error .outOfFuel
  | fuel+1, h, root, node, path =>
    if node = root then .ok path.reverse
    else
      match (h.get node).parentNode with
      | none => .error (.invalid "Argument descendant is not a descendant of root")
      | some parent =>
        match (h.get parent).childNodes with
        | none => .error .typeError
        | some cs => getDescendantPathLoop fuel h root parent (path ++ [idxOfI cs node])

/-- `getDescendantPath(root, descendant)` (lines 497-513). -/
def getDescendantPath (fuel : Nat) (h : Heap) (root descendant : Nat) :
    Except XmlError (List Int) :=
  getDescendantPathLoop fuel h root descendant []

/-- The `while (from !== to)` loop of `removeSiblings` (lines 397-403): the
next pointer is captured before the node is detached; iterating past the end
of the sibling chain reads `nextSibling` of `undefined`, a `TypeError`. -/
def removeSiblingsLoop : Nat → Heap → Option Nat → Nat → List Nat →
    Heap × Except XmlError (List Nat)
  | 0, h, _, _, _ => (h, .error .outOfFuel)
  | fuel+1, h, cur, stop, removed =>
    if cur = some stop then (h, .ok removed)
    else
      match cur with
      | none => (h, .error .typeError)
      | some removeMe =>
        let next := (h.get removeMe).nextSibling
        match remove h (some removeMe) with
        | (h1, .error e) => (h1, .error e)
        | (h1, .ok _) => removeSiblingsLoop fuel h1 next stop (removed ++ [removeMe])

/-- `removeSiblings(from, to)` (lines 390-406). -/
def removeSiblings (h : Heap) (a b : Nat) (fuel : Nat) : Heap × Except XmlError (List Nat) :=
  if a = b then (h, .ok [])
  else removeSiblingsLoop fuel h ((h.get a).nextSibling) b []

/-- The `while (childIndex < root.childNodes.length)` loop of the
`afterMarker` branch of `splitByChild` (lines 426-430): detach the child at
the (fixed) index and append it to the clone. -/
def splitAfterLoop : Nat → Heap → Nat → Nat → Int → Heap × Except XmlError Unit
  | 0, h, _, _, _ => (h, .error .outOfFuel)
  | fuel+1, h, root, clone, childIndex =>
    match (h.get root).childNodes with
    | none => (h, .error .typeError)
    | some cs =>
      if childIndex < (cs.length : Int) then
        let curChild := jsGetI cs childIndex
        match remove h curChild with
        | (h1, .error e) => (h1, .error e)
        | (h1, .ok _) =>
          match appendChild h1 (some clone) curChild with
          | (h2, .error e) => (h2, .error e)
          | (h2, .ok _) => splitAfterLoop fuel h2 root clone childIndex
      else (h, .ok ())

/-- The `do ... while (curChild !== stopChild)` loop of the before-marker
branch of `splitByChild` (lines 440-445): detach the first child and append
it to the clone, until the just-moved child was the stop child.  When the
stop child is `undefined` (marker at index 0) the loop only stops by crashing
in `remove(undefined)` once the children run out. -/
def splitBeforeLoop : Nat → Heap → Nat → Nat → Option Nat → Heap × Except XmlError Unit
  | 0, h, _, _, _ => (h, .error .outOfFuel)
  | fuel+1, h, root, clone, stopChild =>
    match (h.get root).childNodes with
    | none => (h, .error .typeError)
    | some cs =>
      let curChild := cs.head?
      match remove h curChild with
      | (h1, .error e) => (h1, .error e)
      | (h1, .ok _) =>
        match appendChild h1 (some clone) curChild with
        | (h2, .error e) => (h2, .error e)
        | (h2, .ok _) =>
          if curChild = stopChild then (h2, .ok ())
          else splitBeforeLoop fuel h2 root clone stopChild

/-- `splitByChild(root, markerNode, afterMarker, removeMarkerNode)`
(lines 417-453).  `path.head?` is `none` only when the marker IS the root;
there the source computes `undefined + 1 = NaN` and both loops misbehave —
none of the claims reach that case, it is embedded as an error. -/
def splitByChild (h : Heap) (root markerNode : Nat) (afterMarker removeMarkerNode : Bool)
    (fuel : Nat) : Heap × Except XmlError Nat :=
  match getDescendantPath fuel h root markerNode with
  | .error e => (h, .error e)
  | .ok path =>
    match cloneNode h (some root) false fuel with
    | (h1, .error e) => (h1, .error e)
    | (h1, .ok clone) =>
      match path.head? with
      | none => (h1, .error (.invalid "marker equals root"))
      | some p0 =>
        let childIndex : Int := p0 + (if afterMarker then 1 else -1)
        if afterMarker then
          match splitAfterLoop fuel h1 root clone childIndex with
          | (h2, .error e) => (h2, .error e)
          | (h2, .ok _) =>
            if removeMarkerNode then
              match (h2.get root).childNodes with
              | none => (h2, .error .typeError)
              | some cs2 =>
                match remove h2 (jsLast cs2) with
                | (h3, .error e) => (h3, .error e)
                | (h3, .ok _) => (h3, .ok clone)
            else (h2, .ok clone)
        else
          match (h1.get root).childNodes with
          | none => (h1, .error .typeError)
          | some cs1 =>
            let stopChild := jsGetI cs1 childIndex
            match splitBeforeLoop fuel h1 root clone stopChild with
            | (h2, .error e) => (h2, .error e)
            | (h2, .ok _) =>
              if removeMarkerNode then
                match (h2.get root).childNodes with
                | none => (h2, .error .typeError)
                | some cs2 =>
                  match remove h2 cs2.head? with
                  | (h3, .error e) => (h3, .error e)
                  | (h3, .ok _) => (h3, .ok clone)
              else (h2, .ok clone)

/-! ### Invariants -/

/-- The sibling-link invariant of spec §3 (invariant 3) on a child sequence:
each element's `nextSibling` is the next element, the last one's is absent.
Parameterized by the next-sibling assignment so the list lemmas stay
heap-independent. -/
def chainF (ns : Nat → Option Nat) : List Nat → Bool
  | [] => true
  | x :: rest => decide (ns x = rest.head?) && chainF ns rest

/-- The sibling-link invariant of a parent's child sequence in a heap. -/
def SibInv (h : Heap) (p : Nat) : Prop :=
  chainF (fun x => h.ns x) (childList h p) = true

instance sibInvDecidable (h : Heap) (p : Nat) : Decidable (SibInv h p) :=
  inferInstanceAs (Decidable (chainF (fun x => h.ns x) (childList h p) = true))

/-! ### Pure tree views (used to verify `cloneNode(…, deep)`)

`readTree` extracts the subtree under a node into a pure tree, recording node
identities, the serialization-relevant shell fields (normalized the way
`cloneNodeDeep` copies them: text content only for text nodes, attributes
only for general nodes), and the child order.  `stripIds` erases identities;
two nodes with the same stripped tree serialize identically.  `linkedTree`
checks, to bounded depth, that every identity lies in `[lo, hi)` and that the
parent/sibling links inside the subtree satisfy spec §3 invariants 3–4. -/

/-- Identity-carrying pure view of a subtree. -/
inductive PTree where
  | mk (id : Nat) (ty : XmlNodeType) (nm : String) (tx : Option String)
      (ats : Option (List XmlAttribute)) (kids : List PTree)

/-- Identity-free pure view of a subtree. -/
inductive STree where
  | mk (ty : XmlNodeType) (nm : String) (tx : Option String)
      (ats : Option (List XmlAttribute)) (kids : List STree)

def ptRoot : PTree → Nat
  | PTree.mk id _ _ _ _ _ => id

mutual

/-- All node identities of a pure subtree, root first. -/
def ptIds : PTree → List Nat
  | PTree.mk id _ _ _ _ kids => id :: ptIdsL kids

def ptIdsL : List PTree → List Nat
  | [] => []
  | t :: ts => ptIds t ++ ptIdsL ts

end

mutual

/-- Erase the identities of a pure subtree. -/
def stripIds : PTree → STree
  | PTree.mk _ ty nm tx ats kids => STree.mk ty nm tx ats (stripIdsL kids)

def stripIdsL : List PTree → List STree
  | [] => []
  | t :: ts => stripIds t :: stripIdsL ts

end

/-- Sequence an option-producing map over a list. -/
def optList {α β : Type} (f : α → Option β) : List α → Option (List β)
  | [] => some []
  | x :: xs =>
    match f x, optList f xs with
    | some y, some ys => some (y :: ys)
    | _, _ => none

/-- The serialization-relevant fields of a node record (everything except the
`parentNode`/`nextSibling` back references). -/
def sdata (d : NodeData) :
    XmlNodeType × String × Option String × Option (List XmlAttribute) × Option (List Nat) :=
  (d.nodeType, d.nodeName, d.textContent, d.attributes, d.childNodes)

/-- Extract the subtree under `id` as a pure tree, to bounded depth; fails on
an inconsistently paired node (where `isTextNode` throws).  The text/attrs
fields are normalized by node kind, matching both what `serialize` reads and
what `cloneNodeDeep` copies. -/
def readTree : Nat → Heap → Nat → Option PTree
  | 0, _, _ => none
  | fuel+1, h, id =>
    match isTextNode (h.get id) with
    | .error _ => none
    | .ok isTxt =>
      match optList (fun c => readTree fuel h c) (((h.get id).childNodes).getD []) with
      | none => none
      | some ks =>
        some (PTree.mk id (h.get id).nodeType (h.get id).nodeName
          (if isTxt then (h.get id).textContent else none)
          (if isTxt then none else (h.get id).attributes) ks)

/-- Check, to bounded depth, that the subtree under `n` has all identities in
`[lo, hi)` and correctly rebuilt links: the children of each node are chained
by `nextSibling` (spec §3 invariant 3) and point back to it through
`parentNode` (invariant 4). -/
def linkedTree : Nat → Nat → Nat → Heap → Nat → Bool
  | 0, _, _, _, _ => false
  | fuel+1, lo, hi, h, n =>
    decide (lo ≤ n) && decide (n < hi) &&
      (match (h.get n).childNodes with
       | none => true
       | some ds =>
         chainF (fun x => (h.get x).nextSibling) ds &&
         ds.all (fun d_ => decide ((h.get d_).parentNode = some n)) &&
         ds.all (fun d_ => linkedTree fuel lo hi h d_))

mutual

/-- Serialization of an identity-free pure tree, mirroring `serializeH`
level by level. -/
def serP : STree → Except XmlError String
  | STree.mk ty nm tx ats kids =>
    match isTextNode { blankNode with
      nodeType := ty
      nodeName := nm
      textContent := tx
      attributes := ats } with
    | .error e => .error e
    | .ok true =>
      match encodeValueOpt tx with
      | .error e => .error e
      | .ok s => .ok (orEmpty s)
    | .ok false =>
      let attrs :=
        match ats with
        | some as => if as.length ≠ 0 then " " ++ attrsString as else ""
        | none => ""
      if kids.length ≠ 0 then
        match serPL kids with
        | .error e => .error e
        | .ok inner => .ok ("<" ++ nm ++ attrs ++ ">" ++ inner ++ "</" ++ nm ++ ">")
      else .ok ("<" ++ nm ++ attrs ++ "/>")

def serPL : List STree → Except XmlError String
  | [] => .ok ""
  | t :: ts =>
    match serP t with
    | .error e => .error e
    | .ok s =>
      match serPL ts with
      | .error e => .error e
      | .ok ss => .ok (s ++ ss)

end

/-! ### Concrete heaps for witnesses and counterexamples -/

/-- A text node created by `createTextNode()` (no argument) and one created
with content. -/
def hC2 : Heap := heapOf [createTextNode none, createTextNode (some "a<b")]

/-- A parent with two chained children `1, 2`; used for `removeSiblings`. -/
def hC9 : Heap :=
  heapOf [ { createGeneralNode "p" with childNodes := some [1, 2] },
           { createGeneralNode "a" with parentNode := some 0, nextSibling := some 2 },
           { createGeneralNode "b" with parentNode := some 0 } ]

/-- A childless parent (no container allocated) and a loose node. -/
def hC5 : Heap := heapOf [createGeneralNode "p", createGeneralNode "c"]

/-- A root `0` named `"r"` with two chained children `1, 2`; used for the
`splitByChild` claims (either child serves as a direct-child marker). -/
def hSplit : Heap :=
  heapOf [ { createGeneralNode "r" with childNodes := some [1, 2] },
           { createGeneralNode "a" with parentNode := some 0, nextSibling := some 2 },
           { createGeneralNode "b" with parentNode := some 0 } ]

/-- A two-level tree for the split witnesses: root `0` has children `[1, 2]`,
child `1` has children `[4, 3]`; the nested marker `3` sits at index 1 of its
immediate parent while its top-level ancestor `1` sits at index 0 of the
root, so the descendant path `[0, 1]` records the top-level ancestor index
first, then the deeper index. -/
def hNest : Heap :=
  heapOf [ { createGeneralNode "r" with childNodes := some [1, 2] },
           { createGeneralNode "a" with
             parentNode := some 0
             nextSibling := some 2
             childNodes := some [4, 3] },
           { createGeneralNode "b" with parentNode := some 0 },
           { createGeneralNode "m" with parentNode := some 1 },
           { createGeneralNode "x" with
             parentNode := some 1
             nextSibling := some 3 } ]

/-! ## Heap access lemmas -/

@[simp] theorem ns_def (h : Heap) (i : Nat) : h.ns i = (h.get i).nextSibling := rfl

@[simp] theorem pn_def (h : Heap) (i : Nat) : h.pn i = (h.get i).parentNode := rfl

@[simp] theorem cn_def (h : Heap) (i : Nat) : h.cn i = (h.get i).childNodes := rfl

@[simp] theorem childList_def (h : Heap) (i : Nat) :
    childList h i = ((h.get i).childNodes).getD [] := rfl

@[simp] theorem setNS_get_nodeType (h : Heap) (i j : Nat) (v : Option Nat) :
    ((h.setNS i v).get j).nodeType = (h.get j).nodeType := by
  unfold Heap.setNS Heap.get; by_cases hj : j = i <;> simp [hj]

@[simp] theorem setNS_get_nodeName (h : Heap) (i j : Nat) (v : Option Nat) :
    ((h.setNS i v).get j).nodeName = (h.get j).nodeName := by
  unfold Heap.setNS Heap.get; by_cases hj : j = i <;> simp [hj]

@[simp] theorem setNS_get_textContent (h : Heap) (i j : Nat) (v : Option Nat) :
    ((h.setNS i v).get j).textContent = (h.get j).textContent := by
  unfold Heap.setNS Heap.get; by_cases hj : j = i <;> simp [hj]

@[simp] theorem setNS_get_attributes (h : Heap) (i j : Nat) (v : Option Nat) :
    ((h.setNS i v).get j).attributes = (h.get j).attributes := by
  unfold Heap.setNS Heap.get; by_cases hj : j = i <;> simp [hj]

@[simp] theorem setNS_get_parentNode (h : Heap) (i j : Nat) (v : Option Nat) :
    ((h.setNS i v).get j).parentNode = (h.get j).parentNode := by
  unfold Heap.setNS Heap.get; by_cases hj : j = i <;> simp [hj]

@[simp] theorem setNS_get_childNodes (h : Heap) (i j : Nat) (v : Option Nat) :
    ((h.setNS i v).get j).childNodes = (h.get j).childNodes := by
  unfold Heap.setNS Heap.get; by_cases hj : j = i <;> simp [hj]

@[simp] theorem setNS_get_nextSibling (h : Heap) (i j : Nat) (v : Option Nat) :
    ((h.setNS i v).get j).nextSibling = if j = i then v else (h.get j).nextSibling := by
  unfold Heap.setNS Heap.get; by_cases hj : j = i <;> simp [hj]

@[simp] theorem setNS_nextId (h : Heap) (i : Nat) (v : Option Nat) :
    (h.setNS i v).nextId = h.nextId := rfl

@[simp] theorem setPN_get_nodeType (h : Heap) (i j : Nat) (v : Option Nat) :
    ((h.setPN i v).get j).nodeType = (h.get j).nodeType := by
  unfold Heap.setPN Heap.get; by_cases hj : j = i <;> simp [hj]

@[simp] theorem setPN_get_nodeName (h : Heap) (i j : Nat) (v : Option Nat) :
    ((h.setPN i v).get j).nodeName = (h.get j).nodeName := by
  unfold Heap.setPN Heap.get; by_cases hj : j = i <;> simp [hj]

@[simp] theorem setPN_get_textContent (h : Heap) (i j : Nat) (v : Option Nat) :
    ((h.setPN i v).get j).textContent = (h.get j).textContent := by
  unfold Heap.setPN Heap.get; by_cases hj : j = i <;> simp [hj]

@[simp] theorem setPN_get_attributes (h : Heap) (i j : Nat) (v : Option Nat) :
    ((h.setPN i v).get j).attributes = (h.get j).attributes := by
  unfold Heap.setPN Heap.get; by_cases hj : j = i <;> simp [hj]

@[simp] theorem setPN_get_parentNode (h : Heap) (i j : Nat) (v : Option Nat) :
    ((h.setPN i v).get j).parentNode = if j = i then v else (h.get j).parentNode := by
  unfold Heap.setPN Heap.get; by_cases hj : j = i <;> simp [hj]

@[simp] theorem setPN_get_childNodes (h : Heap) (i j : Nat) (v : Option Nat) :
    ((h.setPN i v).get j).childNodes = (h.get j).childNodes := by
  unfold Heap.setPN Heap.get; by_cases hj : j = i <;> simp [hj]

@[simp] theorem setPN_get_nextSibling (h : Heap) (i j : Nat) (v : Option Nat) :
    ((h.setPN i v).get j).nextSibling = (h.get j).nextSibling := by
  unfold Heap.setPN Heap.get; by_cases hj : j = i <;> simp [hj]

@[simp] theorem setPN_nextId (h : Heap) (i : Nat) (v : Option Nat) :
    (h.setPN i v).nextId = h.nextId := rfl

@[simp] theorem setCN_get_nodeType (h : Heap) (i j : Nat) (v : Option (List Nat)) :
    ((h.setCN i v).get j).nodeType = (h.get j).nodeType := by
  unfold Heap.setCN Heap.get; by_cases hj : j = i <;> simp [hj]

@[simp] theorem setCN_get_nodeName (h : Heap) (i j : Nat) (v : Option (List Nat)) :
    ((h.setCN i v).get j).nodeName = (h.get j).nodeName := by
  unfold Heap.setCN Heap.get; by_cases hj : j = i <;> simp [hj]

@[simp] theorem setCN_get_textContent (h : Heap) (i j : Nat) (v : Option (List Nat)) :
    ((h.setCN i v).get j).textContent = (h.get j).textContent := by
  unfold Heap.setCN Heap.get; by_cases hj : j = i <;> simp [hj]

@[simp] theorem setCN_get_attributes (h : Heap) (i j : Nat) (v : Option (List Nat)) :
    ((h.setCN i v).get j).attributes = (h.get j).attributes := by
  unfold Heap.setCN Heap.get; by_cases hj : j = i <;> simp [hj]

@[simp] theorem setCN_get_parentNode (h : Heap) (i j : Nat) (v : Option (List Nat)) :
    ((h.setCN i v).get j).parentNode = (h.get j).parentNode := by
  unfold Heap.setCN Heap.get; by_cases hj : j = i <;> simp [hj]

@[simp] theorem setCN_get_childNodes (h : Heap) (i j : Nat) (v : Option (List Nat)) :
    ((h.setCN i v).get j).childNodes = if j = i then v else (h.get j).childNodes := by
  unfold Heap.setCN Heap.get; by_cases hj : j = i <;> simp [hj]

@[simp] theorem setCN_get_nextSibling (h : Heap) (i j : Nat) (v : Option (List Nat)) :
    ((h.setCN i v).get j).nextSibling = (h.get j).nextSibling := by
  unfold Heap.setCN Heap.get; by_cases hj : j = i <;> simp [hj]

@[simp] theorem setCN_nextId (h : Heap) (i : Nat) (v : Option (List Nat)) :
    (h.setCN i v).nextId = h.nextId := rfl

@[simp] theorem setTX_get_nodeType (h : Heap) (i j : Nat) (v : Option String) :
    ((h.setTX i v).get j).nodeType = (h.get j).nodeType := by
  unfold Heap.setTX Heap.get; by_cases hj : j = i <;> simp [hj]

@[simp] theorem setTX_get_nodeName (h : Heap) (i j : Nat) (v : Option String) :
    ((h.setTX i v).get j).nodeName = (h.get j).nodeName := by
  unfold Heap.setTX Heap.get; by_cases hj : j = i <;> simp [hj]

@[simp] theorem setTX_get_textContent (h : Heap) (i j : Nat) (v : Option String) :
    ((h.setTX i v).get j).textContent = if j = i then v else (h.get j).textContent := by
  unfold Heap.setTX Heap.get; by_cases hj : j = i <;> simp [hj]

@[simp] theorem setTX_get_attributes (h : Heap) (i j : Nat) (v : Option String) :
    ((h.setTX i v).get j).attributes = (h.get j).attributes := by
  unfold Heap.setTX Heap.get; by_cases hj : j = i <;> simp [hj]

@[simp] theorem setTX_get_parentNode (h : Heap) (i j : Nat) (v : Option String) :
    ((h.setTX i v).get j).parentNode = (h.get j).parentNode := by
  unfold Heap.setTX Heap.get; by_cases hj : j = i <;> simp [hj]

@[simp] theorem setTX_get_childNodes (h : Heap) (i j : Nat) (v : Option String) :
    ((h.setTX i v).get j).childNodes = (h.get j).childNodes := by
  unfold Heap.setTX Heap.get; by_cases hj : j = i <;> simp [hj]

@[simp] theorem setTX_get_nextSibling (h : Heap) (i j : Nat) (v : Option String) :
    ((h.setTX i v).get j).nextSibling = (h.get j).nextSibling := by
  unfold Heap.setTX Heap.get; by_cases hj : j = i <;> simp [hj]

@[simp] theorem setTX_nextId (h : Heap) (i : Nat) (v : Option String) :
    (h.setTX i v).nextId = h.nextId := rfl

@[simp] theorem setAT_get_nodeType (h : Heap) (i j : Nat) (v : Option (List XmlAttribute)) :
    ((h.setAT i v).get j).nodeType = (h.get j).nodeType := by
  unfold Heap.setAT Heap.get; by_cases hj : j = i <;> simp [hj]

@[simp] theorem setAT_get_nodeName (h : Heap) (i j : Nat) (v : Option (List XmlAttribute)) :
    ((h.setAT i v).get j).nodeName = (h.get j).nodeName := by
  unfold Heap.setAT Heap.get; by_cases hj : j = i <;> simp [hj]

@[simp] theorem setAT_get_textContent (h : Heap) (i j : Nat) (v : Option (List XmlAttribute)) :
    ((h.setAT i v).get j).textContent = (h.get j).textContent := by
  unfold Heap.setAT Heap.get; by_cases hj : j = i <;> simp [hj]

@[simp] theorem setAT_get_attributes (h : Heap) (i j : Nat) (v : Option (List XmlAttribute)) :
    ((h.setAT i v).get j).attributes = if j = i then v else (h.get j).attributes := by
  unfold Heap.setAT Heap.get; by_cases hj : j = i <;> simp [hj]

@[simp] theorem setAT_get_parentNode (h : Heap) (i j : Nat) (v : Option (List XmlAttribute)) :
    ((h.setAT i v).get j).parentNode = (h.get j).parentNode := by
  unfold Heap.setAT Heap.get; by_cases hj : j = i <;> simp [hj]

@[simp] theorem setAT_get_childNodes (h : Heap) (i j : Nat) (v : Option (List XmlAttribute)) :
    ((h.setAT i v).get j).childNodes = (h.get j).childNodes := by
  unfold Heap.setAT Heap.get; by_cases hj : j = i <;> simp [hj]

@[simp] theorem setAT_get_nextSibling (h : Heap) (i j : Nat) (v : Option (List XmlAttribute)) :
    ((h.setAT i v).get j).nextSibling = (h.get j).nextSibling := by
  unfold Heap.setAT Heap.get; by_cases hj : j = i <;> simp [hj]

@[simp] theorem setAT_nextId (h : Heap) (i : Nat) (v : Option (List XmlAttribute)) :
    (h.setAT i v).nextId = h.nextId := rfl

@[simp] theorem alloc_fst_get (h : Heap) (d : NodeData) (j : Nat) :
    ((h.alloc d).1).get j = if j = h.nextId then d else h.get j := by
  unfold Heap.alloc Heap.get; by_cases hj : j = h.nextId <;> simp [hj]

@[simp] theorem alloc_snd (h : Heap) (d : NodeData) : (h.alloc d).2 = h.nextId := rfl

@[simp] theorem alloc_fst_nextId (h : Heap) (d : NodeData) :
    ((h.alloc d).1).nextId = h.nextId + 1 := rfl

/-! ## List primitive lemmas -/

theorem nth_append_left {α : Type} (l r : List α) (i : Nat) (hi : i < l.length) :
    nth (l ++ r) i = nth l i := by
  induction l generalizing i with
  | nil => simp at hi
  | cons a l ih =>
    cases i with
    | zero => rfl
    | succ i => exact ih i (by simpa using Nat.lt_of_succ_lt_succ hi)

theorem nth_append_cons {α : Type} (l r : List α) (x : α) :
    nth (l ++ x :: r) l.length = some x := by
  induction l with
  | nil => rfl
  | cons a l ih => simpa using ih

theorem nth_mem {α : Type} {l : List α} {i : Nat} {x : α} (h : nth l i = some x) : x ∈ l := by
  induction l generalizing i with
  | nil => exact Option.noConfusion h
  | cons a l ih =>
    cases i with
    | zero =>
      have hx : a = x := by injection h
      rw [← hx]
      exact List.mem_cons_self a l
    | succ i => exact List.mem_cons_of_mem a (ih h)

theorem nth_lt_length {α : Type} {l : List α} {i : Nat} {x : α} (h : nth l i = some x) :
    i < l.length := by
  induction l generalizing i with
  | nil => exact Option.noConfusion h
  | cons a l ih =>
    cases i with
    | zero => simp
    | succ i => simpa using Nat.succ_lt_succ (ih h)

theorem nth_of_lt {α : Type} {l : List α} {i : Nat} (h : i < l.length) :
    ∃ x, nth l i = some x := by
  induction l generalizing i with
  | nil => simp at h
  | cons a l ih =>
    cases i with
    | zero => exact ⟨a, rfl⟩
    | succ i => exact ih (by simpa using Nat.lt_of_succ_lt_succ h)

theorem nth_last {α : Type} (l : List α) (x : α) :
    nth (x :: l) l.length = (x :: l).getLast? := by
  induction l generalizing x with
  | nil => rfl
  | cons b l ih => rw [List.getLast?_cons_cons]; exact ih b

theorem eraseAt_append_cons {α : Type} (l r : List α) (x : α) :
    eraseAt (l ++ x :: r) l.length = l ++ r := by
  induction l with
  | nil => rfl
  | cons a l ih => simpa [eraseAt] using ih

theorem eraseAt_cons_zero {α : Type} (l : List α) (x : α) : eraseAt (x :: l) 0 = l := rfl

theorem insertAt_zero {α : Type} (l : List α) (c : α) : insertAt l 0 c = c :: l := by
  cases l <;> rfl

theorem insertAt_cons_succ {α : Type} (a : α) (l : List α) (i : Nat) (c : α) :
    insertAt (a :: l) (i + 1) c = a :: insertAt l i c := rfl

theorem idxOfAux_neg (x : Nat) (l : List Nat) (acc : Nat) (h : x ∉ l) :
    idxOfAux x l acc = -1 := by
  induction l generalizing acc with
  | nil => rfl
  | cons a l ih =>
    show (if a = x then (acc : Int) else idxOfAux x l (acc + 1)) = -1
    rw [if_neg (by rintro rfl; exact h (List.mem_cons_self a l))]
    exact ih (acc + 1) (fun hm => h (List.mem_cons_of_mem a hm))

theorem idxOfAux_first (x : Nat) (pre suf : List Nat) (acc : Nat) (h : x ∉ pre) :
    idxOfAux x (pre ++ x :: suf) acc = ((acc + pre.length : Nat) : Int) := by
  induction pre generalizing acc with
  | nil =>
    show (if x = x then (acc : Int) else _) = ((acc + ([] : List Nat).length : Nat) : Int)
    rw [if_pos rfl]
    simp
  | cons a pre ih =>
    show (if a = x then (acc : Int) else idxOfAux x (pre ++ x :: suf) (acc + 1)) = _
    rw [if_neg (by rintro rfl; exact h (List.mem_cons_self a pre))]
    rw [ih (acc + 1) (fun hm => h (List.mem_cons_of_mem a hm))]
    simp
    omega

theorem idxOfI_first (x : Nat) (pre suf : List Nat) (h : x ∉ pre) :
    idxOfI (pre ++ x :: suf) x = (pre.length : Int) := by
  unfold idxOfI
  rw [idxOfAux_first x pre suf 0 h]
  simp

theorem idxOfI_neg (x : Nat) (l : List Nat) (h : x ∉ l) : idxOfI l x = -1 :=
  idxOfAux_neg x l 0 h

theorem jsGetI_natCast (l : List Nat) (i : Nat) : jsGetI l ((i : Nat) : Int) = nth l i := by
  unfold jsGetI
  rw [if_neg (by omega)]
  simp

theorem nth_pred_last {α : Type} (l : List α) (hne : l ≠ []) :
    nth l (l.length - 1) = l.getLast? := by
  cases l with
  | nil => exact absurd rfl hne
  | cons a rest => simpa using nth_last rest a

theorem nodup_nth_ne {l : List Nat} {a b : Nat} {x y : Nat} (hnd : l.Nodup)
    (hx : nth l a = some x) (hy : nth l b = some y) (hab : a ≠ b) : x ≠ y := by
  induction l generalizing a b with
  | nil => exact Option.noConfusion hx
  | cons c rest ih =>
    obtain ⟨hcr, hrest⟩ := List.nodup_cons.mp hnd
    cases a with
    | zero =>
      cases b with
      | zero => exact absurd rfl hab
      | succ b =>
        have hxc : x = c := by injection hx with h2; exact h2.symm
        subst hxc
        intro hxy
        exact hcr (hxy ▸ nth_mem hy)
    | succ a =>
      cases b with
      | zero =>
        have hyc : y = c := by injection hy with h2; exact h2.symm
        subst hyc
        intro hxy
        exact hcr (hxy ▸ nth_mem hx)
      | succ b => exact ih hrest hx hy (fun he => hab (by rw [he]))

theorem nth_split {α : Type} {l : List α} {i : Nat} {x : α} (h : nth l i = some x) :
    ∃ pre suf, l = pre ++ x :: suf ∧ pre.length = i := by
  induction l generalizing i with
  | nil => exact Option.noConfusion h
  | cons a rest ih =>
    cases i with
    | zero =>
      have hx : a = x := by injection h
      exact ⟨[], rest, by rw [hx]; rfl, rfl⟩
    | succ i =>
      obtain ⟨pre, suf, hl, hlen⟩ := ih h
      exact ⟨a :: pre, suf, by rw [hl]; rfl, by simp [hlen]⟩

/-- On a duplicate-free list, `indexOf` of the element at position `i` is
`i`. -/
theorem idxOfI_of_nth {cs : List Nat} {i n : Nat} (hnd : cs.Nodup)
    (hn : nth cs i = some n) : idxOfI cs n = ((i : Nat) : Int) := by
  obtain ⟨pre, suf, rfl, hlen⟩ := nth_split hn
  have hpre : n ∉ pre := by
    intro hmem
    obtain ⟨-, -, hdisj⟩ := List.nodup_append.mp hnd
    exact hdisj hmem (List.mem_cons_self n suf)
  rw [idxOfI_first n pre suf hpre, hlen]

/-! ## Sibling chain lemmas -/

theorem chainF_nil (ns : Nat → Option Nat) : chainF ns [] = true := rfl

theorem chainF_cons (ns : Nat → Option Nat) (x : Nat) (rest : List Nat) :
    chainF ns (x :: rest) = true ↔ ns x = rest.head? ∧ chainF ns rest = true := by
  show (decide (ns x = rest.head?) && chainF ns rest) = true ↔ _
  simp

theorem chainF_congr (ns1 ns2 : Nat → Option Nat) (l : List Nat)
    (h : ∀ x ∈ l, ns1 x = ns2 x) : chainF ns1 l = chainF ns2 l := by
  induction l with
  | nil => rfl
  | cons a l ih =>
    unfold chainF
    rw [h a (List.mem_cons_self a l), ih (fun x hx => h x (List.mem_cons_of_mem a hx))]

theorem chainF_suffix (ns : Nat → Option Nat) (u v : List Nat)
    (h : chainF ns (u ++ v) = true) : chainF ns v = true := by
  induction u with
  | nil => exact h
  | cons a u ih => exact ih ((chainF_cons ns a (u ++ v)).mp h).2

theorem chainF_last (ns : Nat → Option Nat) (l : List Nat) (x : Nat)
    (hc : chainF ns l = true) (hl : l.getLast? = some x) : ns x = none := by
  induction l with
  | nil => exact Option.noConfusion hl
  | cons a l ih =>
    obtain ⟨hns, hrest⟩ := (chainF_cons ns a l).mp hc
    cases l with
    | nil =>
      cases hl
      simpa using hns
    | cons b l' => exact ih hrest (by rwa [List.getLast?_cons_cons] at hl)

theorem chainF_determines (ns : Nat → Option Nat) (s1 : List Nat) :
    ∀ (x : Nat) (s2 : List Nat), chainF ns (x :: s1) = true → chainF ns (x :: s2) = true →
      s1.length ≤ s2.length → (x :: s1) <+: (x :: s2) := by
  induction s1 with
  | nil => exact fun x s2 _ _ _ => ⟨s2, rfl⟩
  | cons b s1 ih =>
    intro x s2 h1 h2 hlen
    obtain ⟨hns1, hc1⟩ := (chainF_cons ns x (b :: s1)).mp h1
    obtain ⟨hns2, hc2⟩ := (chainF_cons ns x s2).mp h2
    cases s2 with
    | nil => simp at hlen
    | cons b' s2' =>
      have hb : b' = b := by
        rw [hns1] at hns2
        simpa using hns2.symm
      rw [hb] at hc2 ⊢
      obtain ⟨u, hu⟩ := ih b s2' hc1 hc2 (by simpa using hlen)
      exact ⟨u, by rw [List.cons_append, hu]⟩

theorem chainF_nth_succ (ns : Nat → Option Nat) (l : List Nat) :
    ∀ (i : Nat) (x : Nat), chainF ns l = true → nth l i = some x → i + 1 < l.length →
      ∃ y, nth l (i + 1) = some y ∧ ns x = some y := by
  induction l with
  | nil => intro i x _ h _; exact Option.noConfusion h
  | cons a l ih =>
    intro i x hc hn hi
    obtain ⟨hns, hrest⟩ := (chainF_cons ns a l).mp hc
    cases i with
    | zero =>
      cases hn
      cases l with
      | nil => simp at hi
      | cons b l' => exact ⟨b, rfl, by simpa using hns⟩
    | succ i =>
      obtain ⟨y, hy1, hy2⟩ := ih i x hrest hn (by simpa using Nat.lt_of_succ_lt_succ hi)
      exact ⟨y, hy1, hy2⟩

/-- A child sequence satisfying the sibling-link invariant has no duplicate
entries: a duplicated node would need its single `nextSibling` value to close
a cycle inside the sequence, which the absent `nextSibling` of the last
element forbids. -/
theorem chainF_nodup (ns : Nat → Option Nat) (l : List Nat) (hc : chainF ns l = true) :
    l.Nodup := by
  induction l with
  | nil => exact List.nodup_nil
  | cons a rest ih =>
    obtain ⟨hns, hrest⟩ := (chainF_cons ns a rest).mp hc
    refine List.nodup_cons.mpr ⟨?_, ih hrest⟩
    intro ha
    obtain ⟨t, s, rfl⟩ := List.append_of_mem ha
    have hs : chainF ns (a :: s) = true := chainF_suffix ns t (a :: s) hrest
    have hlen : s.length ≤ (t ++ a :: s).length := by simp; omega
    have hpre : (a :: s) <+: (a :: (t ++ a :: s)) := chainF_determines ns s a _ hs hc hlen
    cases hlast : (a :: s).getLast? with
    | none => simp at hlast
    | some z =>
      have hz : ns z = none := chainF_last ns (a :: s) z hs hlast
      have hnth : nth (a :: s) s.length = some z := by rw [nth_last]; exact hlast
      have hnth2 : nth (a :: (t ++ a :: s)) s.length = some z := by
        obtain ⟨u, hu⟩ := hpre
        rw [← hu, nth_append_left]
        · exact hnth
        · exact nth_lt_length hnth
      have hlt : s.length + 1 < (a :: (t ++ a :: s)).length := by simp; omega
      obtain ⟨y, -, hy⟩ := chainF_nth_succ ns _ s.length z hc hnth2 hlt
      rw [hz] at hy
      exact Option.noConfusion hy

theorem mem_of_getLast? {l : List Nat} {x : Nat} (h : l.getLast? = some x) : x ∈ l := by
  cases l with
  | nil => exact Option.noConfusion h
  | cons a rest =>
    refine nth_mem (i := (a :: rest).length - 1) ?_
    rw [nth_pred_last _ (by simp)]
    exact h

/-- Appending a node: if the old chain holds, the appended node is fresh, the
old last element is re-pointed at it and its own pointer is cleared, the new
chain holds. -/
theorem chainF_snoc (ns ns' : Nat → Option Nat) (l : List Nat) (c : Nat)
    (hc : chainF ns l = true) (hcl : c ∉ l)
    (hns' : ∀ x ∈ l, ns' x = if l.getLast? = some x then some c else ns x)
    (hc' : ns' c = none) :
    chainF ns' (l ++ [c]) = true := by
  induction l with
  | nil =>
    rw [List.nil_append]
    exact (chainF_cons ns' c []).mpr ⟨by simpa using hc', rfl⟩
  | cons a rest ih =>
    obtain ⟨hns, hrest⟩ := (chainF_cons ns a rest).mp hc
    obtain ⟨hanr, -⟩ := List.nodup_cons.mp (chainF_nodup ns (a :: rest) hc)
    rw [List.cons_append]
    refine (chainF_cons ns' a (rest ++ [c])).mpr ⟨?_, ?_⟩
    · cases rest with
      | nil =>
        have ha := hns' a (List.mem_cons_self a [])
        rw [if_pos (by simp)] at ha
        simpa using ha
      | cons b rest' =>
        have hga : ¬ ((a :: b :: rest').getLast? = some a) := by
          rw [List.getLast?_cons_cons]
          intro hg
          exact hanr (mem_of_getLast? hg)
        have ha := hns' a (List.mem_cons_self a (b :: rest'))
        rw [if_neg hga] at ha
        rw [ha, hns]
        simp
    · refine ih hrest (fun hm => hcl (List.mem_cons_of_mem a hm)) ?_
      intro x hx
      cases rest with
      | nil => cases hx
      | cons b rest' =>
        have h2 := hns' x (List.mem_cons_of_mem a hx)
        rwa [List.getLast?_cons_cons] at h2

/-- Inserting a node at index `i < length`: the inserted node points at the
old occupant of `i`, the predecessor (when `0 < i`) is re-pointed at the
inserted node, everything else keeps its pointer; the new chain holds. -/
theorem chainF_insertAt (ns ns' : Nat → Option Nat) (l : List Nat) (c : Nat) :
    ∀ (i : Nat) (aft : Nat), chainF ns l = true → c ∉ l →
      nth l i = some aft →
      (∀ x ∈ l, ns' x = if 0 < i ∧ nth l (i - 1) = some x then some c else ns x) →
      ns' c = some aft →
      chainF ns' (insertAt l i c) = true := by
  induction l with
  | nil => intro i aft _ _ haft _ _; exact Option.noConfusion haft
  | cons a rest ih =>
    intro i aft hc hcl haft hns' hc'
    obtain ⟨hns, hrest⟩ := (chainF_cons ns a rest).mp hc
    obtain ⟨hanr, -⟩ := List.nodup_cons.mp (chainF_nodup ns (a :: rest) hc)
    have hca : c ≠ a := fun he => hcl (he ▸ List.mem_cons_self a rest)
    have hcr : c ∉ rest := fun hm => hcl (List.mem_cons_of_mem a hm)
    cases i with
    | zero =>
      have haa : aft = a := by injection haft with h2; exact h2.symm
      rw [insertAt_zero]
      refine (chainF_cons ns' c (a :: rest)).mpr ⟨by rw [hc', haa]; simp, ?_⟩
      rw [chainF_congr ns' ns (a :: rest) ?_]
      · exact hc
      · intro x hx
        have := hns' x hx
        simpa using this
    | succ j =>
      rw [insertAt_cons_succ]
      refine (chainF_cons ns' a (insertAt rest j c)).mpr ⟨?_, ?_⟩
      · cases j with
        | zero =>
          have ha := hns' a (List.mem_cons_self a rest)
          rw [if_pos ⟨Nat.zero_lt_one, rfl⟩] at ha
          rw [ha, insertAt_zero]
          simp
        | succ j' =>
          have hcond : ¬ (0 < j' + 1 + 1 ∧ nth (a :: rest) (j' + 1 + 1 - 1) = some a) := by
            rintro ⟨-, hn⟩
            exact hanr (nth_mem (l := rest) (i := j') hn)
          have ha := hns' a (List.mem_cons_self a rest)
          rw [if_neg hcond] at ha
          rw [ha, hns]
          cases rest with
          | nil => exact Option.noConfusion haft
          | cons b rest' =>
            rw [insertAt_cons_succ]
            simp
      · refine ih j aft hrest hcr haft ?_ hc'
        intro x hx
        have hxa : x ≠ a := fun he => hanr (he ▸ hx)
        have h2 := hns' x (List.mem_cons_of_mem a hx)
        cases j with
        | zero =>
          rw [if_neg (by rintro ⟨-, hn⟩; exact hxa (by injection hn with h3; exact h3.symm))] at h2
          rw [if_neg (by rintro ⟨h3, -⟩; exact absurd h3 (lt_irrefl 0))]
          exact h2
        | succ j' =>
          rw [h2]
          have hsh : nth (a :: rest) (j' + 1 + 1 - 1) = nth rest (j' + 1 - 1) := rfl
          rw [hsh]
          simp [Nat.succ_pos]

/-- Removing the node at index `i`: the predecessor (when `0 < i`) takes over
the removed node's old pointer, everything else keeps its pointer; the
remaining chain holds. -/
theorem chainF_eraseAt (ns ns' : Nat → Option Nat) (l : List Nat) :
    ∀ (i : Nat) (ch : Nat), chainF ns l = true →
      nth l i = some ch →
      (∀ x ∈ l, x ≠ ch →
        ns' x = if 0 < i ∧ nth l (i - 1) = some x then ns ch else ns x) →
      chainF ns' (eraseAt l i) = true := by
  induction l with
  | nil => intro i ch _ hch _; exact Option.noConfusion hch
  | cons a rest ih =>
    intro i ch hc hch hns'
    obtain ⟨hns, hrest⟩ := (chainF_cons ns a rest).mp hc
    obtain ⟨hanr, -⟩ := List.nodup_cons.mp (chainF_nodup ns (a :: rest) hc)
    cases i with
    | zero =>
      have hcha : ch = a := by injection hch with h2; exact h2.symm
      subst hcha
      show chainF ns' rest = true
      rw [chainF_congr ns' ns rest ?_]
      · exact hrest
      · intro x hx
        have := hns' x (List.mem_cons_of_mem ch hx) (fun he => hanr (he ▸ hx))
        simpa using this
    | succ j =>
      have hchr : ch ∈ rest := nth_mem hch
      have hach : a ≠ ch := fun he => hanr (he ▸ hchr)
      show chainF ns' (a :: eraseAt rest j) = true
      refine (chainF_cons ns' a (eraseAt rest j)).mpr ⟨?_, ?_⟩
      · cases j with
        | zero =>
          have ha := hns' a (List.mem_cons_self a rest) hach
          rw [if_pos ⟨Nat.zero_lt_one, rfl⟩] at ha
          cases rest with
          | nil => exact Option.noConfusion hch
          | cons b rest' =>
            have hbch : b = ch := by injection hch with h2
            subst hbch
            obtain ⟨hns2, -⟩ := (chainF_cons ns b rest').mp hrest
            rw [ha, hns2]
            rfl
        | succ j' =>
          have hcond : ¬ (0 < j' + 1 + 1 ∧ nth (a :: rest) (j' + 1 + 1 - 1) = some a) := by
            rintro ⟨-, hn⟩
            exact hanr (nth_mem (l := rest) (i := j') hn)
          have ha := hns' a (List.mem_cons_self a rest) hach
          rw [if_neg hcond] at ha
          rw [ha, hns]
          cases rest with
          | nil => exact Option.noConfusion hch
          | cons b rest' =>
            show (b :: rest').head? = (b :: eraseAt rest' j').head?
            rfl
      · refine ih j ch hrest hch ?_
        intro x hx hxch
        have hxa : x ≠ a := fun he => hanr (he ▸ hx)
        have h2 := hns' x (List.mem_cons_of_mem a hx) hxch
        cases j with
        | zero =>
          rw [if_neg (by rintro ⟨-, hn⟩; exact hxa (by injection hn with h3; exact h3.symm))] at h2
          rw [if_neg (by rintro ⟨h3, -⟩; exact absurd h3 (lt_irrefl 0))]
          exact h2
        | succ j' =>
          rw [h2]
          have hsh : nth (a :: rest) (j' + 1 + 1 - 1) = nth rest (j' + 1 - 1) := rfl
          rw [hsh]
          simp [Nat.succ_pos]

/-! ## Small auxiliary lemmas -/

theorem orEmpty_eq (s : String) : orEmpty s = s := by
  unfold orEmpty; split <;> simp_all

/-- A consistently typed text node passes `isTextNode`. -/
theorem isTextNode_text {d : NodeData} (hty : d.nodeType = XmlNodeType.Text)
    (hnm : d.nodeName = TEXT_NODE_NAME) : isTextNode d = .ok true := by
  unfold isTextNode
  rw [if_pos (Or.inl hty), if_neg]
  simp [hty, hnm]

/-- A consistently typed general node fails `isTextNode`. -/
theorem isTextNode_general {d : NodeData} (hty : d.nodeType = XmlNodeType.General)
    (hnm : d.nodeName ≠ TEXT_NODE_NAME) : isTextNode d = .ok false := by
  unfold isTextNode
  rw [if_neg]
  intro hor
  rcases hor with hor | hor
  · rw [hty] at hor; exact XmlNodeType.noConfusion hor
  · exact hnm hor

/-- `isTextNode` only reads the type/name pairing. -/
theorem isTextNode_congr {d1 d2 : NodeData} (hty : d1.nodeType = d2.nodeType)
    (hnm : d1.nodeName = d2.nodeName) : isTextNode d1 = isTextNode d2 := by
  unfold isTextNode
  rw [hty, hnm]

/-! ## Closed forms of the mutation operations -/

theorem appendChild_none (h : Heap) (p c : Nat)
    (htext : isTextNode (h.get p) = .ok false)
    (hcn : (h.get p).childNodes = none) :
    appendChild h (some p) (some c) =
      ((((h.setCN p (some [])).setNS c none).setPN c (some p)).setCN p (some [c]), .ok ()) := by
  simp [appendChild, htext, hcn]

theorem appendChild_nil (h : Heap) (p c : Nat)
    (htext : isTextNode (h.get p) = .ok false)
    (hcn : (h.get p).childNodes = some []) :
    appendChild h (some p) (some c) =
      (((h.setNS c none).setPN c (some p)).setCN p (some [c]), .ok ()) := by
  simp [appendChild, htext, hcn]

theorem appendChild_cons (h : Heap) (p c : Nat) (cs : List Nat) (lst : Nat)
    (htext : isTextNode (h.get p) = .ok false)
    (hcn : (h.get p).childNodes = some cs)
    (hne : cs ≠ [])
    (hlast : nth cs (cs.length - 1) = some lst) :
    appendChild h (some p) (some c) =
      ((((h.setNS lst (some c)).setNS c none).setPN c (some p)).setCN p (some (cs ++ [c])),
        .ok ()) := by
  have hlen : cs.length ≠ 0 := fun h0 => hne (List.length_eq_zero.mp h0)
  simp [appendChild, htext, hcn, hlen, hlast]

/-- `insertChild` at the current child count is literally a delegation to
`appendChild` (after the lazy container allocation, which `appendChild`
performs identically). -/
theorem insertChild_eq_append (h : Heap) (p : Nat) (c : Option Nat) :
    insertChild h (some p) c (((h.get p).childNodes).getD []).length =
      appendChild h (some p) c := by
  rcases htext : isTextNode (h.get p) with e | b
  · simp [insertChild, appendChild, htext]
  · cases b with
    | true => simp [insertChild, appendChild, htext]
    | false =>
      cases c with
      | none => simp [insertChild, appendChild, htext]
      | some c =>
        rcases hcn : (h.get p).childNodes with _ | cs
        · have htext2 : isTextNode ((h.setCN p (some [])).get p) = .ok false := by
            rw [@isTextNode_congr ((h.setCN p (some [])).get p) (h.get p) (by simp) (by simp)]
            exact htext
          simp only [insertChild, htext, hcn]
          simp only [Option.getD_none, List.length_nil, if_pos rfl, if_true]
          simp [appendChild, htext, htext2, hcn]
        · simp only [Option.getD_some]
          simp [insertChild, htext, hcn]

theorem insertChild_oob (h : Heap) (p c : Nat) (i : Nat)
    (htext : isTextNode (h.get p) = .ok false)
    (hgt : i > (((h.get p).childNodes).getD []).length) :
    insertChild h (some p) (some c) i =
      (if (h.get p).childNodes = none then h.setCN p (some []) else h, .error .rangeError) := by
  rcases hcn : (h.get p).childNodes with _ | cs
  · rw [hcn] at hgt
    simp only [Option.getD_none, List.length_nil] at hgt
    simp [insertChild, htext, hcn, Nat.pos_iff_ne_zero.mp hgt, hgt]
  · rw [hcn] at hgt
    simp only [Option.getD_some] at hgt
    simp [insertChild, htext, hcn, Nat.ne_of_gt hgt, hgt]

theorem insertChild_mid_zero (h : Heap) (p c : Nat) (cs : List Nat) (aft : Nat)
    (htext : isTextNode (h.get p) = .ok false)
    (hcn : (h.get p).childNodes = some cs)
    (haft : nth cs 0 = some aft) :
    insertChild h (some p) (some c) 0 =
      (((h.setPN c (some p)).setNS c (some aft)).setCN p (some (c :: cs)), .ok ()) := by
  have hne : cs.length ≠ 0 := fun h0 => by
    rw [List.length_eq_zero.mp h0] at haft
    exact Option.noConfusion haft
  have hne2 : ¬(0 = cs.length) := fun h0 => hne h0.symm
  simp [insertChild, htext, hcn, hne, hne2, Nat.pos_of_ne_zero hne, haft, insertAt_zero]

theorem insertChild_mid_pos (h : Heap) (p c : Nat) (cs : List Nat) (i : Nat) (aft bef : Nat)
    (htext : isTextNode (h.get p) = .ok false)
    (hcn : (h.get p).childNodes = some cs)
    (hi : 0 < i) (hlt : i < cs.length)
    (haft : nth cs i = some aft)
    (hbef : nth cs (i - 1) = some bef) :
    insertChild h (some p) (some c) i =
      ((((h.setPN c (some p)).setNS c (some aft)).setNS bef (some c)).setCN
        p (some (insertAt cs i c)), .ok ()) := by
  simp [insertChild, htext, hcn, Nat.ne_of_lt hlt, Nat.not_lt.mpr (Nat.le_of_lt hlt),
    hi, haft, hbef, Nat.lt_irrefl]

theorem removeChild_noChildren (h : Heap) (p : Nat) (sel : ChildSel)
    (hcn : (h.get p).childNodes = none ∨ (h.get p).childNodes = some []) :
    removeChild h (some p) (some sel) =
      (h, .error (.invalid "Parent node has node children")) := by
  rcases hcn with hcn | hcn <;> simp [removeChild, hcn]

theorem removeChild_byIndex_oob (h : Heap) (p : Nat) (cs : List Nat) (i : Nat)
    (hcn : (h.get p).childNodes = some cs) (hne : cs ≠ [])
    (hge : cs.length ≤ i) :
    removeChild h (some p) (some (ChildSel.byIndex i)) = (h, .error .rangeError) := by
  have hlen : cs.length ≠ 0 := fun h0 => hne (List.length_eq_zero.mp h0)
  have hle : (cs.length : Int) ≤ ((i : Nat) : Int) := by exact_mod_cast hge
  simp [removeChild, hcn, hlen, hle]

theorem removeChild_byNode_notChild (h : Heap) (p n : Nat) (cs : List Nat)
    (hcn : (h.get p).childNodes = some cs) (hne : cs ≠ [])
    (hn : n ∉ cs) :
    removeChild h (some p) (some (ChildSel.byNode n)) =
      (h, .error (.invalid "Specified child node is not a child of the specified parent")) := by
  have hlen : cs.length ≠ 0 := fun h0 => hne (List.length_eq_zero.mp h0)
  simp [removeChild, hcn, hlen, idxOfI_neg n cs hn]

/-- The node form of `removeChild` reduces to the index form at the
`indexOf` of the node. -/
theorem removeChild_byNode_eq_byIndex (h : Heap) (p n : Nat) (cs : List Nat) (i : Nat)
    (hcn : (h.get p).childNodes = some cs)
    (hidx : idxOfI cs n = ((i : Nat) : Int)) :
    removeChild h (some p) (some (ChildSel.byNode n)) =
      removeChild h (some p) (some (ChildSel.byIndex i)) := by
  by_cases hlen : cs.length = 0
  · simp [removeChild, hcn, hlen]
  · have hne : ¬(idxOfI cs n = -1) := by rw [hidx]; omega
    simp [removeChild, hcn, hlen, hidx, hne]

theorem removeChild_byIndex_zero (h : Heap) (p : Nat) (cs : List Nat) (ch : Nat)
    (hcn : (h.get p).childNodes = some cs)
    (hch : nth cs 0 = some ch) :
    removeChild h (some p) (some (ChildSel.byIndex 0)) =
      (((h.setPN ch none).setNS ch none).setCN p (some (eraseAt cs 0)), .ok (some ch)) := by
  have hlen : cs.length ≠ 0 := fun h0 => by
    rw [List.length_eq_zero.mp h0] at hch
    exact Option.noConfusion hch
  have hgt : ¬((cs.length : Int) ≤ ((0 : Nat) : Int)) := by
    omega
  have h0 : jsGetI cs (0 : Int) = nth cs 0 := rfl
  simp [removeChild, hcn, hlen, hgt, h0, hch]

theorem removeChild_byIndex_pos (h : Heap) (p : Nat) (cs : List Nat) (i : Nat) (ch bef : Nat)
    (hcn : (h.get p).childNodes = some cs)
    (hi : 0 < i) (hlt : i < cs.length)
    (hch : nth cs i = some ch)
    (hbef : nth cs (i - 1) = some bef) :
    removeChild h (some p) (some (ChildSel.byIndex i)) =
      ((((h.setNS bef ((h.get ch).nextSibling)).setPN ch none).setNS ch none).setCN
        p (some (eraseAt cs i)), .ok (some ch)) := by
  have hlen : cs.length ≠ 0 := Nat.pos_iff_ne_zero.mp (Nat.lt_of_le_of_lt (Nat.zero_le i) hlt)
  have hgt : ¬((cs.length : Int) ≤ ((i : Nat) : Int)) := by
    omega
  have hig : (0 : Int) < ((i : Nat) : Int) := by exact_mod_cast hi
  have hji : jsGetI cs ((i : Nat) : Int) = some ch := by rw [jsGetI_natCast]; exact hch
  have hjm : jsGetI cs (((i : Nat) : Int) - 1) = some bef := by
    rw [show (((i : Nat) : Int) - 1) = ((i - 1 : Nat) : Int) by push_cast [hi]; omega, jsGetI_natCast]
    exact hbef
  simp [removeChild, hcn, hlen, hgt, hig, hji, hjm, hch]

theorem remove_eq (h : Heap) (n p : Nat) (hpn : (h.get n).parentNode = some p) :
    remove h (some n) =
      ((removeChild h (some p) (some (ChildSel.byNode n))).1,
        match (removeChild h (some p) (some (ChildSel.byNode n))).2 with
        | .error e => .error e
        | .ok _ => .ok ()) := by
  simp only [remove, hpn]
  rcases hrc : removeChild h (some p) (some (ChildSel.byNode n)) with ⟨h1, r⟩
  cases r <;> simp

/-- Summary of a successful `appendChild`: result, the parent's new child
array, the child's links, and the frame (what is untouched). -/
theorem append_spec (h : Heap) (p c : Nat)
    (htext : isTextNode (h.get p) = .ok false) :
    (appendChild h (some p) (some c)).2 = .ok () ∧
    ((appendChild h (some p) (some c)).1.get p).childNodes =
      some (((h.get p).childNodes).getD [] ++ [c]) ∧
    ((appendChild h (some p) (some c)).1.get c).parentNode = some p ∧
    ((appendChild h (some p) (some c)).1.get c).nextSibling = none ∧
    (∀ x, x ≠ c → ((appendChild h (some p) (some c)).1.get x).parentNode =
      (h.get x).parentNode) ∧
    (∀ x, x ≠ p → ((appendChild h (some p) (some c)).1.get x).childNodes =
      (h.get x).childNodes) ∧
    (∀ x, ((appendChild h (some p) (some c)).1.get x).nodeType = (h.get x).nodeType ∧
      ((appendChild h (some p) (some c)).1.get x).nodeName = (h.get x).nodeName ∧
      ((appendChild h (some p) (some c)).1.get x).textContent = (h.get x).textContent ∧
      ((appendChild h (some p) (some c)).1.get x).attributes = (h.get x).attributes) ∧
    (appendChild h (some p) (some c)).1.nextId = h.nextId := by
  rcases hcn : (h.get p).childNodes with _ | cs
  · rw [appendChild_none h p c htext hcn]
    refine ⟨rfl, by simp, by simp, by simp, ?_, ?_, ?_, rfl⟩
    · intro x hx; simp [hx]
    · intro x hx; simp [hx]
    · intro x; simp
  · rcases hcs : cs with _ | ⟨a, rest⟩
    · rw [hcs] at hcn
      rw [appendChild_nil h p c htext hcn]
      refine ⟨rfl, by simp [hcn], by simp, by simp, ?_, ?_, ?_, rfl⟩
      · intro x hx; simp [hx]
      · intro x hx; simp [hx]
      · intro x; simp
    · rw [hcs] at hcn
      obtain ⟨lst, hlst⟩ := nth_of_lt (l := a :: rest) (i := (a :: rest).length - 1) (by simp)
      rw [appendChild_cons h p c (a :: rest) lst htext hcn (by simp) hlst]
      refine ⟨rfl, by simp [hcn], by simp, by simp, ?_, ?_, ?_, rfl⟩
      · intro x hx; simp [hx]
      · intro x hx; simp [hx]
      · intro x; simp

/-- Summary of a successful `removeChild(parent, node)` where the node sits
at a known position in the child array (first occurrence): result value,
the parent's new child array, the cleared links of the removed node, and the
frame. -/
theorem removeChild_byNode_spec (h : Heap) (p x : Nat) (pre suf : List Nat)
    (hcn : (h.get p).childNodes = some (pre ++ x :: suf))
    (hxp : x ∉ pre) :
    (removeChild h (some p) (some (ChildSel.byNode x))).2 = .ok (some x) ∧
    ((removeChild h (some p) (some (ChildSel.byNode x))).1.get p).childNodes =
      some (pre ++ suf) ∧
    ((removeChild h (some p) (some (ChildSel.byNode x))).1.get x).parentNode = none ∧
    ((removeChild h (some p) (some (ChildSel.byNode x))).1.get x).nextSibling = none ∧
    (∀ y, y ≠ x → ((removeChild h (some p) (some (ChildSel.byNode x))).1.get y).parentNode =
      (h.get y).parentNode) ∧
    (∀ y, y ≠ p → ((removeChild h (some p) (some (ChildSel.byNode x))).1.get y).childNodes =
      (h.get y).childNodes) ∧
    (∀ y, ((removeChild h (some p) (some (ChildSel.byNode x))).1.get y).nodeType =
        (h.get y).nodeType ∧
      ((removeChild h (some p) (some (ChildSel.byNode x))).1.get y).nodeName =
        (h.get y).nodeName ∧
      ((removeChild h (some p) (some (ChildSel.byNode x))).1.get y).textContent =
        (h.get y).textContent ∧
      ((removeChild h (some p) (some (ChildSel.byNode x))).1.get y).attributes =
        (h.get y).attributes) ∧
    (removeChild h (some p) (some (ChildSel.byNode x))).1.nextId = h.nextId := by
  have hidx : idxOfI (pre ++ x :: suf) x = ((pre.length : Nat) : Int) :=
    idxOfI_first x pre suf hxp
  have hnth : nth (pre ++ x :: suf) pre.length = some x := nth_append_cons pre suf x
  rw [removeChild_byNode_eq_byIndex h p x (pre ++ x :: suf) pre.length hcn hidx]
  have herase : eraseAt (pre ++ x :: suf) pre.length = pre ++ suf :=
    eraseAt_append_cons pre suf x
  clear hidx
  cases pre with
  | nil =>
    simp only [List.length_nil, List.nil_append] at hcn hnth herase
    simp only [List.length_nil, List.nil_append]
    rw [removeChild_byIndex_zero h p (x :: suf) x hcn hnth]
    refine ⟨rfl, by simp [eraseAt], by simp, by simp, ?_, ?_, ?_, rfl⟩
    · intro y hy; simp [hy]
    · intro y hy; simp [hy]
    · intro y; simp
  | cons b pre' =>
    have hpos : 0 < (b :: pre').length := by simp
    have hlt : (b :: pre').length < ((b :: pre') ++ x :: suf).length := by simp
    obtain ⟨bef, hbef⟩ :=
      nth_of_lt (l := (b :: pre') ++ x :: suf) (i := (b :: pre').length - 1) (by simp; omega)
    have hbefpre : bef ∈ (b :: pre') := by
      have := nth_mem (l := (b :: pre')) (i := (b :: pre').length - 1) (x := bef) ?_
      · exact this
      · rw [← nth_append_left (b :: pre') (x :: suf) ((b :: pre').length - 1) (by simp)]
        exact hbef
    have hbx : bef ≠ x := fun he => hxp (he ▸ hbefpre)
    rw [removeChild_byIndex_pos h p ((b :: pre') ++ x :: suf) (b :: pre').length x bef
      hcn hpos hlt hnth hbef]
    refine ⟨rfl, ?_, by simp, by simp, ?_, ?_, ?_, rfl⟩
    · have herase2 : eraseAt (b :: (pre' ++ x :: suf)) (pre'.length + 1) = b :: (pre' ++ suf) := by
        simpa using herase
      simp [herase2]
    · intro y hy; simp [hy]
    · intro y hy; simp [hy]
    · intro y; simp

/-! ## Claim C4 -/

/-- C4: `removeChild` fails on a childless parent, on an out-of-range index,
and on a node that is not a child; on success (on a duplicate-free child
array, per spec §3 invariant 5/tree-shapedness) the predecessor's
`nextSibling` is re-pointed at the removed node's former `nextSibling`, the
removed node's `parentNode` and `nextSibling` are cleared, and the detached
node is returned; the node form behaves as the index form at the node's
index. -/
theorem C4_removeChild :
    (∀ (h : Heap) (p : Nat) (sel : ChildSel),
      ((h.get p).childNodes = none ∨ (h.get p).childNodes = some []) →
      removeChild h (some p) (some sel) =
        (h, .error (.invalid "Parent node has node children"))) ∧
    (∀ (h : Heap) (p i : Nat) (cs : List Nat),
      (h.get p).childNodes = some cs → cs ≠ [] → cs.length ≤ i →
      removeChild h (some p) (some (ChildSel.byIndex i)) = (h, .error .rangeError)) ∧
    (∀ (h : Heap) (p n : Nat) (cs : List Nat),
      (h.get p).childNodes = some cs → cs ≠ [] → n ∉ cs →
      removeChild h (some p) (some (ChildSel.byNode n)) =
        (h, .error (.invalid "Specified child node is not a child of the specified parent"))) ∧
    (∀ (h : Heap) (p i ch : Nat) (cs : List Nat),
      (h.get p).childNodes = some cs → cs.Nodup → nth cs i = some ch →
      (removeChild h (some p) (some (ChildSel.byIndex i))).2 = .ok (some ch) ∧
      ((removeChild h (some p) (some (ChildSel.byIndex i))).1.get p).childNodes =
        some (eraseAt cs i) ∧
      ((removeChild h (some p) (some (ChildSel.byIndex i))).1.get ch).parentNode = none ∧
      ((removeChild h (some p) (some (ChildSel.byIndex i))).1.get ch).nextSibling = none ∧
      (∀ bef, 0 < i → nth cs (i - 1) = some bef →
        ((removeChild h (some p) (some (ChildSel.byIndex i))).1.get bef).nextSibling =
          (h.get ch).nextSibling)) ∧
    (∀ (h : Heap) (p n i : Nat) (cs : List Nat),
      (h.get p).childNodes = some cs → cs.Nodup → nth cs i = some n →
      removeChild h (some p) (some (ChildSel.byNode n)) =
        removeChild h (some p) (some (ChildSel.byIndex i))) := by
  refine ⟨removeChild_noChildren,
    fun h p i cs hcn hne hge => removeChild_byIndex_oob h p cs i hcn hne hge,
    fun h p n cs hcn hne hn => removeChild_byNode_notChild h p n cs hcn hne hn,
    ?_,
    fun h p n i cs hcn hnd hn =>
      removeChild_byNode_eq_byIndex h p n cs i hcn (idxOfI_of_nth hnd hn)⟩
  intro h p i ch cs hcn hnd hch
  have hlt : i < cs.length := nth_lt_length hch
  rcases Nat.eq_zero_or_pos i with h0 | hpos
  · subst h0
    rw [removeChild_byIndex_zero h p cs ch hcn hch]
    refine ⟨rfl, by simp, by simp, by simp, ?_⟩
    intro bef hb _
    exact absurd hb (lt_irrefl 0)
  · obtain ⟨bef0, hbef0⟩ := nth_of_lt (l := cs) (i := i - 1) (by omega)
    have hbc : bef0 ≠ ch := nodup_nth_ne hnd hbef0 hch (by omega)
    rw [removeChild_byIndex_pos h p cs i ch bef0 hcn hpos hlt hch hbef0]
    refine ⟨rfl, by simp, by simp, by simp, ?_⟩
    intro bef hb hbef
    have hbb : bef = bef0 := by
      rw [hbef0] at hbef
      injection hbef with he
      exact he.symm
    rw [hbb]
    simp [hbc]

/-- Witness for C4: the success clause and node-form clause evaluated on the
concrete parent `0` of `hC9` with children `[1, 2]`, removing index 1. -/
theorem C4_removeChild_witness :
    (hC9.get 0).childNodes = some [1, 2] ∧ ([1, 2] : List Nat).Nodup ∧
    nth [1, 2] 1 = some 2 ∧
    (removeChild hC9 (some 0) (some (ChildSel.byIndex 1))).2 = .ok (some 2) ∧
    ((removeChild hC9 (some 0) (some (ChildSel.byIndex 1))).1.get 0).childNodes = some [1] ∧
    removeChild hC9 (some 0) (some (ChildSel.byNode 2)) =
      removeChild hC9 (some 0) (some (ChildSel.byIndex 1)) := by
  obtain ⟨-, -, -, h4, h5⟩ := C4_removeChild
  have hcn : (hC9.get 0).childNodes = some [1, 2] := rfl
  have hnd : ([1, 2] : List Nat).Nodup := by decide
  have hnth : nth [1, 2] 1 = some 2 := rfl
  obtain ⟨ha, hb, -, -, -⟩ := h4 hC9 0 1 2 [1, 2] hcn hnd hnth
  exact ⟨hcn, hnd, hnth, ha, hb, h5 hC9 0 2 1 [1, 2] hcn hnd hnth⟩

/-! ## Claim C5 -/

/-- C5 (amended): at an index equal to the current child count `insertChild`
behaves exactly as `appendChild`; at a strictly greater index it raises the
out-of-range error and mutates nothing EXCEPT that, when the parent had no
children container, the empty container has already been allocated before
the range check. -/
theorem C5_insertChild_amended :
    (∀ (h : Heap) (p : Nat) (c : Option Nat),
      insertChild h (some p) c (((h.get p).childNodes).getD []).length =
        appendChild h (some p) c) ∧
    (∀ (h : Heap) (p c i : Nat),
      isTextNode (h.get p) = .ok false →
      i > (((h.get p).childNodes).getD []).length →
      insertChild h (some p) (some c) i =
        (if (h.get p).childNodes = none then h.setCN p (some []) else h,
          .error .rangeError)) :=
  ⟨insertChild_eq_append, insertChild_oob⟩

/-- Counterexample for C5 as stated: on a parent whose children container is
absent, an out-of-range `insertChild` DOES mutate the tree — the failed call
leaves an (empty, but allocated) children container behind, and the spec's
data model (§3) distinguishes an absent container from an empty one. -/
theorem C5_insertChild_cex :
    (insertChild hC5 (some 0) (some 1) 1).2 = .error .rangeError ∧
    (hC5.get 0).childNodes = none ∧
    ((insertChild hC5 (some 0) (some 1) 1).1.get 0).childNodes = some [] :=
  ⟨rfl, rfl, rfl⟩

/-- Witness for C5: both clauses evaluated on the concrete heap `hC5`. -/
theorem C5_insertChild_witness :
    insertChild hC5 (some 0) (some 1) 0 = appendChild hC5 (some 0) (some 1) ∧
    isTextNode (hC5.get 0) = .ok false ∧
    (1 : Nat) > (((hC5.get 0).childNodes).getD []).length ∧
    insertChild hC5 (some 0) (some 1) 1 =
      (if (hC5.get 0).childNodes = none then hC5.setCN 0 (some []) else hC5,
        .error .rangeError) := by
  obtain ⟨h1, h2⟩ := C5_insertChild_amended
  exact ⟨h1 hC5 0 (some 1), rfl, by decide, h2 hC5 0 1 1 rfl (by decide)⟩

/-! ## Claim C6 -/

/-- C6: on a non-text parent and a parentless child (with the parent's
existing children correctly back-linked, spec §3 invariant 4),
`appendChild` followed by `removeChild` by node restores the parent's child
sequence, and the removed child has no parent and no sibling. -/
theorem C6_append_then_remove (h : Heap) (p c : Nat)
    (htext : isTextNode (h.get p) = .ok false)
    (hcpn : (h.get c).parentNode = none)
    (hinv : ∀ x ∈ ((h.get p).childNodes).getD [], (h.get x).parentNode = some p) :
    (appendChild h (some p) (some c)).2 = .ok () ∧
    (removeChild (appendChild h (some p) (some c)).1 (some p)
      (some (ChildSel.byNode c))).2 = .ok (some c) ∧
    (((removeChild (appendChild h (some p) (some c)).1 (some p)
      (some (ChildSel.byNode c))).1.get p).childNodes).getD [] =
      ((h.get p).childNodes).getD [] ∧
    ((removeChild (appendChild h (some p) (some c)).1 (some p)
      (some (ChildSel.byNode c))).1.get c).parentNode = none ∧
    ((removeChild (appendChild h (some p) (some c)).1 (some p)
      (some (ChildSel.byNode c))).1.get c).nextSibling = none := by
  have hnotin : c ∉ ((h.get p).childNodes).getD [] := fun hm => by
    rw [hinv c hm] at hcpn
    exact Option.noConfusion hcpn
  obtain ⟨ha1, ha2, -, -, -, -, -, -⟩ := append_spec h p c htext
  obtain ⟨hr1, hr2, hr3, hr4, -, -, -, -⟩ :=
    removeChild_byNode_spec (appendChild h (some p) (some c)).1 p c
      (((h.get p).childNodes).getD []) [] (by simpa using ha2) hnotin
  exact ⟨ha1, hr1, by simp [hr2], hr3, hr4⟩

/-- Witness for C6: the round trip evaluated on the childless parent `0` of
`hC5` and the loose node `1`. -/
theorem C6_append_then_remove_witness :
    isTextNode (hC5.get 0) = .ok false ∧
    (hC5.get 1).parentNode = none ∧
    ((appendChild hC5 (some 0) (some 1)).2 = .ok () ∧
      (removeChild (appendChild hC5 (some 0) (some 1)).1 (some 0)
        (some (ChildSel.byNode 1))).2 = .ok (some 1) ∧
      (((removeChild (appendChild hC5 (some 0) (some 1)).1 (some 0)
        (some (ChildSel.byNode 1))).1.get 0).childNodes).getD [] =
        ((hC5.get 0).childNodes).getD [] ∧
      ((removeChild (appendChild hC5 (some 0) (some 1)).1 (some 0)
        (some (ChildSel.byNode 1))).1.get 1).parentNode = none ∧
      ((removeChild (appendChild hC5 (some 0) (some 1)).1 (some 0)
        (some (ChildSel.byNode 1))).1.get 1).nextSibling = none) :=
  ⟨rfl, rfl, C6_append_then_remove hC5 0 1 rfl rfl
    (fun x hx => absurd hx (List.not_mem_nil x))⟩

/-! ## Claim C8 -/

/-- C8: `encodeValue` maps each of `<`, `>`, `&`, `'`, `"` to its named
entity, leaves every other character unchanged, returns the documented
escapings of `"<a&b>'\""` and of the empty string, and raises a
missing-argument error on `null`/`undefined` input and a type error on
non-string input. -/
theorem C8_encodeValue :
    encodeValueJs (JsValue.str "<a&b>'\"") = .ok "&lt;a&amp;b&gt;&apos;&quot;" ∧
    encodeValueJs (JsValue.str "") = .ok "" ∧
    encodeChar '<' = "&lt;" ∧
    encodeChar '>' = "&gt;" ∧
    encodeChar '&' = "&amp;" ∧
    encodeChar '\'' = "&apos;" ∧
    encodeChar '"' = "&quot;" ∧
    (∀ c : Char, c ≠ '<' → c ≠ '>' → c ≠ '&' → c ≠ '\'' → c ≠ '"' →
      encodeChar c = String.singleton c) ∧
    encodeValueJs JsValue.nullV = .error (.missingArgument "str") ∧
    encodeValueJs JsValue.undefinedV = .error (.missingArgument "str") ∧
    (∀ n : Int, encodeValueJs (JsValue.num n) = .error .typeError) ∧
    (∀ b : Bool, encodeValueJs (JsValue.boolean b) = .error .typeError) := by
  refine ⟨rfl, rfl, rfl, rfl, rfl, rfl, rfl, ?_, rfl, rfl, fun _ => rfl, fun _ => rfl⟩
  intro c h1 h2 h3 h4 h5
  unfold encodeChar
  simp [h1, h2, h3, h4, h5]

/-- Witness for C8: the unchanged-character clause evaluated at `'x'`. -/
theorem C8_encodeValue_witness :
    encodeChar 'x' = String.singleton 'x' ∧
    encodeValueJs (JsValue.num 0) = .error .typeError := by
  obtain ⟨-, -, -, -, -, -, -, h8, -, -, h11, -⟩ := C8_encodeValue
  exact ⟨h8 'x' (by decide) (by decide) (by decide) (by decide) (by decide), h11 0⟩

/-! ## Claim C9 -/

/-- C9: `removeSiblings(from, to)` returns an empty sequence and leaves the
heap untouched both when `from = to` and when `to` is `from`'s
`nextSibling`. -/
theorem C9_removeSiblings (h : Heap) (a b : Nat) (fuel : Nat) :
    removeSiblings h a a fuel = (h, .ok []) ∧
    ((h.get a).nextSibling = some b → removeSiblings h a b (fuel + 1) = (h, .ok [])) := by
  constructor
  · unfold removeSiblings; simp
  · intro hns
    unfold removeSiblings
    by_cases hab : a = b
    · simp [hab]
    · rw [if_neg hab]
      unfold removeSiblingsLoop
      rw [hns, if_pos rfl]

/-- Witness for C9: both cases on the concrete heap `hC9` (`1` and `2` are
adjacent siblings). -/
theorem C9_removeSiblings_witness :
    removeSiblings hC9 1 1 7 = (hC9, .ok []) ∧
    (hC9.get 1).nextSibling = some 2 ∧
    removeSiblings hC9 1 2 7 = (hC9, .ok []) :=
  ⟨(C9_removeSiblings hC9 1 2 7).1, rfl, (C9_removeSiblings hC9 1 2 6).2 rfl⟩

/-! ## Claim C2 -/

/-- C2 (code divergence): on a well-paired text node, `serialize` returns the
escaped `textContent` when the content is present, but when the content is
absent (as for `createTextNode()` with no argument) it does NOT return the
empty string — `encodeValue` throws `MissingArgumentError('str')` before the
`|| ''` fallback can apply. -/
theorem C2_serialize_textNode (h : Heap) (n : Nat) (fuel : Nat)
    (hty : (h.get n).nodeType = XmlNodeType.Text)
    (hnm : (h.get n).nodeName = TEXT_NODE_NAME) :
    (∀ s, (h.get n).textContent = some s →
      serializeH (fuel + 1) h n = .ok (encodeValue s)) ∧
    ((h.get n).textContent = none →
      serializeH (fuel + 1) h n = .error (.missingArgument "str")) := by
  constructor
  · intro s hs
    simp only [serializeH, isTextNode_text hty hnm, hs, encodeValueOpt, orEmpty_eq]
  · intro hs
    simp only [serializeH, isTextNode_text hty hnm, hs, encodeValueOpt]

/-- Witness for C2: node `0` of `hC2` is `createTextNode()` (absent content):
`serialize` fails with the missing-argument error instead of returning `""`;
node `1` has content `"a<b"` and serializes to its escaped form. -/
theorem C2_serialize_textNode_witness :
    serializeH 1 hC2 0 = .error (.missingArgument "str") ∧
    serializeH 1 hC2 1 = .ok (encodeValue "a<b") :=
  ⟨(C2_serialize_textNode hC2 0 0 rfl rfl).2 rfl,
   (C2_serialize_textNode hC2 1 0 rfl rfl).1 "a<b" rfl⟩

/-! ## splitByChild machinery (claims C1 and C10) -/

/-- Summary of a successful `remove(node)` given the node's position in its
parent's child array (first occurrence). -/
theorem remove_spec (h : Heap) (x root : Nat) (pre suf : List Nat)
    (hpn : (h.get x).parentNode = some root)
    (hcn : (h.get root).childNodes = some (pre ++ x :: suf))
    (hxp : x ∉ pre) :
    (remove h (some x)).2 = .ok () ∧
    ((remove h (some x)).1.get root).childNodes = some (pre ++ suf) ∧
    ((remove h (some x)).1.get x).parentNode = none ∧
    (∀ y, y ≠ x → ((remove h (some x)).1.get y).parentNode = (h.get y).parentNode) ∧
    (∀ y, y ≠ root → ((remove h (some x)).1.get y).childNodes = (h.get y).childNodes) ∧
    (∀ y, ((remove h (some x)).1.get y).nodeType = (h.get y).nodeType ∧
      ((remove h (some x)).1.get y).nodeName = (h.get y).nodeName ∧
      ((remove h (some x)).1.get y).textContent = (h.get y).textContent ∧
      ((remove h (some x)).1.get y).attributes = (h.get y).attributes) ∧
    (remove h (some x)).1.nextId = h.nextId := by
  obtain ⟨hs1, hs2, hs3, -, hs5, hs6, hs7, hs8⟩ :=
    removeChild_byNode_spec h root x pre suf hcn hxp
  rw [remove_eq h x root hpn]
  rw [hs1]
  exact ⟨rfl, hs2, hs3, hs5, hs6, hs7, hs8⟩

/-- The after-marker move loop of `splitByChild`: starting from a child array
`pre ++ rem` with the loop index at `pre.length`, it detaches each element of
`rem` in order and appends it to the clone; the parent keeps `pre`, the clone
gains `rem`, and nodes outside `rem` keep their parent links. -/
theorem splitAfterLoop_spec (rem : List Nat) :
    ∀ (fuel : Nat) (h : Heap) (root clone : Nat) (pre : List Nat),
      rem.length < fuel →
      (h.get root).childNodes = some (pre ++ rem) →
      (pre ++ rem).Nodup →
      (∀ x ∈ rem, (h.get x).parentNode = some root) →
      root ≠ clone →
      isTextNode (h.get clone) = .ok false →
      (splitAfterLoop fuel h root clone ((pre.length : Nat) : Int)).2 = .ok () ∧
      (((splitAfterLoop fuel h root clone ((pre.length : Nat) : Int)).1.get root).childNodes =
        some pre) ∧
      (((splitAfterLoop fuel h root clone
          ((pre.length : Nat) : Int)).1.get clone).childNodes).getD [] =
        (((h.get clone).childNodes).getD []) ++ rem ∧
      (∀ y, y ∉ rem →
        ((splitAfterLoop fuel h root clone ((pre.length : Nat) : Int)).1.get y).parentNode =
          (h.get y).parentNode) ∧
      (splitAfterLoop fuel h root clone ((pre.length : Nat) : Int)).1.nextId = h.nextId := by
  induction rem with
  | nil =>
    intro fuel h root clone pre hfuel hcn hnd hpn hrc htext
    cases fuel with
    | zero => simp at hfuel
    | succ f =>
      have hstop : ¬ (((pre.length : Nat) : Int) < (((pre ++ ([] : List Nat)).length : Nat) : Int)) := by
        simp
      have hrun : splitAfterLoop (f + 1) h root clone ((pre.length : Nat) : Int) =
          (h, .ok ()) := by
        simp only [splitAfterLoop, hcn]
        rw [if_neg hstop]
      rw [hrun]
      refine ⟨rfl, by simpa using hcn, by simp, fun y _ => rfl, rfl⟩
  | cons x rem' ih =>
    intro fuel h root clone pre hfuel hcn hnd hpn hrc htext
    cases fuel with
    | zero => simp at hfuel
    | succ f =>
      have hgo : (((pre.length : Nat) : Int) < (((pre ++ x :: rem').length : Nat) : Int)) := by
        simp
      have hxpre : x ∉ pre := by
        intro hm
        obtain ⟨-, -, hdisj⟩ := List.nodup_append.mp hnd
        exact hdisj hm (List.mem_cons_self x rem')
      have hxrem : x ∉ rem' := by
        obtain ⟨-, hnd2, -⟩ := List.nodup_append.mp hnd
        exact (List.nodup_cons.mp hnd2).1
      have hjget : jsGetI (pre ++ x :: rem') ((pre.length : Nat) : Int) = some x := by
        rw [jsGetI_natCast]
        exact nth_append_cons pre rem' x
      obtain ⟨hr1, hr2, -, hr4, hr5, hr6, hr7⟩ :=
        remove_spec h x root pre rem' (hpn x (List.mem_cons_self x rem')) hcn hxpre
      rcases hrm : remove h (some x) with ⟨h1, rv⟩
      rw [hrm] at hr1 hr2 hr4 hr5 hr6 hr7
      have hv : rv = Except.ok () := hr1
      have hcn1 : (h1.get root).childNodes = some (pre ++ rem') := hr2
      have hpn1 : ∀ y, y ≠ x → (h1.get y).parentNode = (h.get y).parentNode := hr4
      have hcnf1 : ∀ y, y ≠ root → (h1.get y).childNodes = (h.get y).childNodes := hr5
      have hsh1 : ∀ y, (h1.get y).nodeType = (h.get y).nodeType ∧
          (h1.get y).nodeName = (h.get y).nodeName := fun y => ⟨(hr6 y).1, (hr6 y).2.1⟩
      have hid1 : h1.nextId = h.nextId := hr7
      subst hv
      have htext1 : isTextNode (h1.get clone) = .ok false := by
        rw [isTextNode_congr (hsh1 clone).1 (hsh1 clone).2]
        exact htext
      obtain ⟨ha1, ha2, ha3, -, ha5, ha6, ha7, ha8⟩ := append_spec h1 clone x htext1
      rcases hap : appendChild h1 (some clone) (some x) with ⟨h2, av⟩
      rw [hap] at ha1 ha2 ha3 ha5 ha6 ha7 ha8
      have hav : av = Except.ok () := ha1
      have hcnc2 : (h2.get clone).childNodes =
          some ((((h1.get clone).childNodes).getD []) ++ [x]) := ha2
      have hpnx2 : (h2.get x).parentNode = some clone := ha3
      have hpn2f : ∀ y, y ≠ x → (h2.get y).parentNode = (h1.get y).parentNode := ha5
      have hcnf2 : ∀ y, y ≠ clone → (h2.get y).childNodes = (h1.get y).childNodes := ha6
      have hsh2 : ∀ y, (h2.get y).nodeType = (h1.get y).nodeType ∧
          (h2.get y).nodeName = (h1.get y).nodeName := fun y => ⟨(ha7 y).1, (ha7 y).2.1⟩
      have hid2 : h2.nextId = h1.nextId := ha8
      subst hav
      have hcn2 : (h2.get root).childNodes = some (pre ++ rem') := by
        rw [hcnf2 root hrc]
        exact hcn1
      have hnd2 : (pre ++ rem').Nodup :=
        List.Nodup.sublist (List.Sublist.append_left (List.sublist_cons_self x rem') pre) hnd
      have hpn2 : ∀ y ∈ rem', (h2.get y).parentNode = some root := by
        intro y hy
        have hyx : y ≠ x := fun he => hxrem (he ▸ hy)
        rw [hpn2f y hyx, hpn1 y hyx]
        exact hpn y (List.mem_cons_of_mem x hy)
      have htext2 : isTextNode (h2.get clone) = .ok false := by
        rw [isTextNode_congr (hsh2 clone).1 (hsh2 clone).2]
        exact htext1
      obtain ⟨hi1, hi2, hi3, hi4, hi5⟩ :=
        ih f h2 root clone pre (by simpa using Nat.lt_of_succ_lt_succ hfuel)
          hcn2 hnd2 hpn2 hrc htext2
      have hrun : splitAfterLoop (f + 1) h root clone ((pre.length : Nat) : Int) =
          splitAfterLoop f h2 root clone ((pre.length : Nat) : Int) := by
        simp only [splitAfterLoop, hcn]
        rw [if_pos hgo, hjget, hrm]
        dsimp only
        rw [hap]
      rw [hrun]
      refine ⟨hi1, hi2, ?_, ?_, by rw [hi5, hid2, hid1]⟩
      · rw [hi3, hcnc2]
        simp
        rw [hcnf1 clone (Ne.symm hrc)]
      · intro y hy
        have hyx : y ≠ x := fun he => hy (he ▸ List.mem_cons_self x rem')
        have hyr : y ∉ rem' := fun hm => hy (List.mem_cons_of_mem x hm)
        rw [hi4 y hyr, hpn2f y hyx, hpn1 y hyx]

/-- The before-marker move loop of `splitByChild` with an `undefined` stop
child (marker at child index 0): it moves EVERY child into the clone and then
crashes in `remove(undefined)` with the missing-argument error, leaving the
parent with an empty child array. -/
theorem splitBeforeLoop_none_spec (rem : List Nat) :
    ∀ (fuel : Nat) (h : Heap) (root clone : Nat),
      rem.length < fuel →
      (h.get root).childNodes = some rem →
      rem.Nodup →
      (∀ x ∈ rem, (h.get x).parentNode = some root) →
      root ≠ clone →
      isTextNode (h.get clone) = .ok false →
      (splitBeforeLoop fuel h root clone none).2 = .error (.missingArgument "node") ∧
      ((splitBeforeLoop fuel h root clone none).1.get root).childNodes = some [] ∧
      (((splitBeforeLoop fuel h root clone none).1.get clone).childNodes).getD [] =
        (((h.get clone).childNodes).getD []) ++ rem := by
  induction rem with
  | nil =>
    intro fuel h root clone hfuel hcn hnd hpn hrc htext
    cases fuel with
    | zero => simp at hfuel
    | succ f =>
      have hrun : splitBeforeLoop (f + 1) h root clone none =
          (h, .error (.missingArgument "node")) := by
        simp only [splitBeforeLoop, hcn]
        simp [remove]
      rw [hrun]
      exact ⟨rfl, by simpa using hcn, by simp⟩
  | cons x rem' ih =>
    intro fuel h root clone hfuel hcn hnd hpn hrc htext
    cases fuel with
    | zero => simp at hfuel
    | succ f =>
      obtain ⟨hxrem, hnd'⟩ := List.nodup_cons.mp hnd
      obtain ⟨hr1, hr2, -, hr4, hr5, hr6, hr7⟩ :=
        remove_spec h x root [] rem' (hpn x (List.mem_cons_self x rem'))
          (by simpa using hcn) (List.not_mem_nil x)
      rcases hrm : remove h (some x) with ⟨h1, rv⟩
      rw [hrm] at hr1 hr2 hr4 hr5 hr6 hr7
      have hv : rv = Except.ok () := hr1
      have hcn1 : (h1.get root).childNodes = some rem' := by simpa using hr2
      have hpn1 : ∀ y, y ≠ x → (h1.get y).parentNode = (h.get y).parentNode := hr4
      have hcnf1 : ∀ y, y ≠ root → (h1.get y).childNodes = (h.get y).childNodes := hr5
      have hsh1 : ∀ y, (h1.get y).nodeType = (h.get y).nodeType ∧
          (h1.get y).nodeName = (h.get y).nodeName := fun y => ⟨(hr6 y).1, (hr6 y).2.1⟩
      subst hv
      have htext1 : isTextNode (h1.get clone) = .ok false := by
        rw [isTextNode_congr (hsh1 clone).1 (hsh1 clone).2]
        exact htext
      obtain ⟨ha1, ha2, -, -, ha5, ha6, ha7, -⟩ := append_spec h1 clone x htext1
      rcases hap : appendChild h1 (some clone) (some x) with ⟨h2, av⟩
      rw [hap] at ha1 ha2 ha5 ha6 ha7
      have hav : av = Except.ok () := ha1
      have hcnc2 : (h2.get clone).childNodes =
          some ((((h1.get clone).childNodes).getD []) ++ [x]) := ha2
      have hpn2f : ∀ y, y ≠ x → (h2.get y).parentNode = (h1.get y).parentNode := ha5
      have hcnf2 : ∀ y, y ≠ clone → (h2.get y).childNodes = (h1.get y).childNodes := ha6
      have hsh2 : ∀ y, (h2.get y).nodeType = (h1.get y).nodeType ∧
          (h2.get y).nodeName = (h1.get y).nodeName := fun y => ⟨(ha7 y).1, (ha7 y).2.1⟩
      subst hav
      have hcn2 : (h2.get root).childNodes = some rem' := by
        rw [hcnf2 root hrc]
        exact hcn1
      have hpn2 : ∀ y ∈ rem', (h2.get y).parentNode = some root := by
        intro y hy
        have hyx : y ≠ x := fun he => hxrem (he ▸ hy)
        rw [hpn2f y hyx, hpn1 y hyx]
        exact hpn y (List.mem_cons_of_mem x hy)
      have htext2 : isTextNode (h2.get clone) = .ok false := by
        rw [isTextNode_congr (hsh2 clone).1 (hsh2 clone).2]
        exact htext1
      obtain ⟨hi1, hi2, hi3⟩ :=
        ih f h2 root clone (by simpa using Nat.lt_of_succ_lt_succ hfuel)
          hcn2 hnd' hpn2 hrc htext2
      have hrun : splitBeforeLoop (f + 1) h root clone none =
          splitBeforeLoop f h2 root clone none := by
        simp only [splitBeforeLoop, hcn]
        simp only [List.head?_cons]
        rw [hrm]
        dsimp only
        rw [hap]
        dsimp only
        rw [if_neg (by simp)]
      rw [hrun]
      refine ⟨hi1, hi2, ?_⟩
      rw [hi3, hcnc2]
      simp
      rw [hcnf1 clone (Ne.symm hrc)]

/-- `take (k+1)` splits off the element at index `k`. -/
theorem take_succ_nth (cs : List Nat) :
    ∀ (k : Nat) (ch : Nat), nth cs k = some ch →
      cs.take (k + 1) = cs.take k ++ [ch] := by
  induction cs with
  | nil => intro k ch hch; exact Option.noConfusion hch
  | cons a rest ih =>
    intro k ch hch
    cases k with
    | zero =>
      have : a = ch := by injection hch
      simp [this]
    | succ k =>
      simp only [List.take_succ_cons]
      rw [ih k ch hch]
      rfl

/-- A list splits at index `k` into its prefix, the element there, and its
suffix. -/
theorem nth_take_drop (cs : List Nat) :
    ∀ (k : Nat) (ch : Nat), nth cs k = some ch →
      cs = cs.take k ++ ch :: cs.drop (k + 1) := by
  induction cs with
  | nil => intro k ch hch; exact Option.noConfusion hch
  | cons a rest ih =>
    intro k ch hch
    cases k with
    | zero =>
      have : a = ch := by injection hch
      simp [this]
    | succ k =>
      simp only [List.take_succ_cons, List.drop_succ_cons, List.cons_append]
      rw [← ih k ch hch]

/-- Shallow clone: a fresh node with the original's fields but no parent,
children or sibling. -/
theorem cloneNode_shallow (h : Heap) (n : Nat) (fuel : Nat) :
    cloneNode h (some n) false fuel =
      ((h.alloc { h.get n with
        parentNode := none
        childNodes := none
        nextSibling := none }).1, .ok h.nextId) := rfl

/-! ## Claim C3 -/

/-- `appendChild` of a genuinely new child re-establishes the sibling-link
invariant. -/
theorem sibinv_append (h : Heap) (p c : Nat)
    (htext : isTextNode (h.get p) = .ok false)
    (hinv : SibInv h p)
    (hcl : c ∉ ((h.get p).childNodes).getD []) :
    (appendChild h (some p) (some c)).2 = .ok () ∧
    SibInv (appendChild h (some p) (some c)).1 p := by
  rcases hcn : (h.get p).childNodes with _ | cs
  · rw [appendChild_none h p c htext hcn]
    exact ⟨rfl, by simp [SibInv, chainF]⟩
  · rcases hcs0 : cs with _ | ⟨a, rest⟩
    · rw [hcs0] at hcn
      rw [appendChild_nil h p c htext hcn]
      exact ⟨rfl, by simp [SibInv, chainF]⟩
    · rw [hcs0] at hcn
      rw [hcn] at hcl
      simp only [Option.getD_some] at hcl
      unfold SibInv at hinv
      rw [childList_def, hcn] at hinv
      simp only [Option.getD_some] at hinv
      obtain ⟨lst, hlst⟩ := nth_of_lt (l := a :: rest) (i := (a :: rest).length - 1) (by simp)
      have hglst : (a :: rest).getLast? = some lst := by
        rw [← nth_pred_last (a :: rest) (by simp)]
        exact hlst
      have hlc : lst ≠ c := fun he => hcl (he ▸ nth_mem hlst)
      rw [appendChild_cons h p c (a :: rest) lst htext hcn (by simp) hlst]
      refine ⟨rfl, ?_⟩
      unfold SibInv
      rw [childList_def]
      simp only [setCN_get_childNodes, if_pos rfl, Option.getD_some]
      apply chainF_snoc (fun x => h.ns x) _ (a :: rest) c hinv hcl
      · intro x hx
        have hxc : x ≠ c := fun he => hcl (he ▸ hx)
        by_cases hxl : x = lst
        · subst hxl
          rw [if_pos hglst]
          simp [hxc]
        · rw [if_neg (fun he => hxl (by
            rw [hglst] at he
            injection he with h3
            exact h3.symm))]
          simp [hxc, hxl]
      · simp
/-- `insertChild` of a genuinely new child at a valid index re-establishes
the sibling-link invariant. -/
theorem sibinv_insert (h : Heap) (p c i : Nat)
    (htext : isTextNode (h.get p) = .ok false)
    (hinv : SibInv h p)
    (hcl : c ∉ ((h.get p).childNodes).getD [])
    (hle : i ≤ (((h.get p).childNodes).getD []).length) :
    (insertChild h (some p) (some c) i).2 = .ok () ∧
    SibInv (insertChild h (some p) (some c) i).1 p := by
  rcases Nat.lt_or_ge i ((((h.get p).childNodes).getD []).length) with hlt | hge
  · rcases hcn : (h.get p).childNodes with _ | cs
    · rw [hcn] at hlt
      simp at hlt
    · rw [hcn] at hlt hcl
      simp only [Option.getD_some] at hlt hcl
      unfold SibInv at hinv
      rw [childList_def, hcn] at hinv
      simp only [Option.getD_some] at hinv
      obtain ⟨aft, haft⟩ := nth_of_lt hlt
      rcases Nat.eq_zero_or_pos i with h0 | hpos
      · subst h0
        rw [insertChild_mid_zero h p c cs aft htext hcn haft]
        refine ⟨rfl, ?_⟩
        unfold SibInv
        rw [childList_def]
        simp only [setCN_get_childNodes, if_pos rfl, Option.getD_some]
        rw [← insertAt_zero cs c]
        apply chainF_insertAt (fun x => h.ns x) _ cs c 0 aft hinv hcl haft
        · intro x hx
          have hxc : x ≠ c := fun he => hcl (he ▸ hx)
          rw [if_neg (by rintro ⟨h3, -⟩; exact absurd h3 (lt_irrefl 0))]
          simp [hxc]
        · simp
      · obtain ⟨bef, hbef⟩ := nth_of_lt (l := cs) (i := i - 1) (by omega)
        have hbc : bef ≠ c := fun he => hcl (he ▸ nth_mem hbef)
        rw [insertChild_mid_pos h p c cs i aft bef htext hcn hpos hlt haft hbef]
        refine ⟨rfl, ?_⟩
        unfold SibInv
        rw [childList_def]
        simp only [setCN_get_childNodes, if_pos rfl, Option.getD_some]
        apply chainF_insertAt (fun x => h.ns x) _ cs c i aft hinv hcl haft
        · intro x hx
          have hxc : x ≠ c := fun he => hcl (he ▸ hx)
          by_cases hxb : x = bef
          · subst hxb
            rw [if_pos ⟨hpos, hbef⟩]
            simp
          · rw [if_neg (by
              rintro ⟨-, hn⟩
              rw [hbef] at hn
              exact hxb (by injection hn with h3; exact h3.symm))]
            simp [hxc, hxb, fun he => hxb (Eq.symm he)]
        · simp [hbc.symm]
  · have hieq : i = (((h.get p).childNodes).getD []).length := le_antisymm hle hge
    rw [hieq, insertChild_eq_append]
    exact sibinv_append h p c htext hinv hcl

/-- `removeChild` by a valid index re-establishes the sibling-link
invariant. -/
theorem sibinv_removeIdx (h : Heap) (p i : Nat)
    (hinv : SibInv h p)
    (hlt : i < (((h.get p).childNodes).getD []).length) :
    (∃ ch, (removeChild h (some p) (some (ChildSel.byIndex i))).2 = .ok (some ch)) ∧
    SibInv (removeChild h (some p) (some (ChildSel.byIndex i))).1 p := by
  rcases hcn : (h.get p).childNodes with _ | cs
  · rw [hcn] at hlt
    simp at hlt
  · rw [hcn] at hlt
    simp only [Option.getD_some] at hlt
    unfold SibInv at hinv
    rw [childList_def, hcn] at hinv
    simp only [Option.getD_some] at hinv
    obtain ⟨ch, hch⟩ := nth_of_lt hlt
    rcases Nat.eq_zero_or_pos i with h0 | hpos
    · subst h0
      rw [removeChild_byIndex_zero h p cs ch hcn hch]
      refine ⟨⟨ch, rfl⟩, ?_⟩
      unfold SibInv
      rw [childList_def]
      simp only [setCN_get_childNodes, if_pos rfl, Option.getD_some]
      apply chainF_eraseAt (fun x => h.ns x) _ cs 0 ch hinv hch
      intro x hx hxch
      rw [if_neg (by rintro ⟨h3, -⟩; exact absurd h3 (lt_irrefl 0))]
      simp [hxch]
    · obtain ⟨bef, hbef⟩ := nth_of_lt (l := cs) (i := i - 1) (by omega)
      have hnd := chainF_nodup _ cs hinv
      have hbc : bef ≠ ch := nodup_nth_ne hnd hbef hch (by omega)
      rw [removeChild_byIndex_pos h p cs i ch bef hcn hpos hlt hch hbef]
      refine ⟨⟨ch, rfl⟩, ?_⟩
      unfold SibInv
      rw [childList_def]
      simp only [setCN_get_childNodes, if_pos rfl, Option.getD_some]
      apply chainF_eraseAt (fun x => h.ns x) _ cs i ch hinv hch
      intro x hx hxch
      by_cases hxb : x = bef
      · subst hxb
        rw [if_pos ⟨hpos, hbef⟩]
        simp [hxch]
      · rw [if_neg (by
          rintro ⟨-, hn⟩
          rw [hbef] at hn
          exact hxb (by injection hn with h3; exact h3.symm))]
        simp [hxch, hxb]

/-- `removeChild` by a node that is a child re-establishes the sibling-link
invariant. -/
theorem sibinv_removeNode (h : Heap) (p n : Nat)
    (hinv : SibInv h p)
    (hmem : n ∈ ((h.get p).childNodes).getD []) :
    (removeChild h (some p) (some (ChildSel.byNode n))).2 = .ok (some n) ∧
    SibInv (removeChild h (some p) (some (ChildSel.byNode n))).1 p := by
  rcases hcn : (h.get p).childNodes with _ | cs
  · rw [hcn] at hmem
    simp at hmem
  · rw [hcn] at hmem
    simp only [Option.getD_some] at hmem
    have hinv' : chainF (fun x => h.ns x) cs = true := by
      unfold SibInv at hinv
      rw [childList_def, hcn] at hinv
      simpa using hinv
    have hnd := chainF_nodup _ cs hinv'
    obtain ⟨t, s, rfl⟩ := List.append_of_mem hmem
    have hnth : nth (t ++ n :: s) t.length = some n := nth_append_cons t s n
    rw [removeChild_byNode_eq_byIndex h p n (t ++ n :: s) t.length hcn
      (idxOfI_of_nth hnd hnth)]
    obtain ⟨⟨ch, hch⟩, hsib⟩ := sibinv_removeIdx h p t.length
      (by unfold SibInv; rw [childList_def, hcn]; simpa using hinv')
      (by rw [hcn]; simp)
    refine ⟨?_, hsib⟩
    rcases Nat.eq_zero_or_pos t.length with h0 | hpos
    · rw [h0]
      rw [removeChild_byIndex_zero h p (t ++ n :: s) n hcn (by rw [← h0]; exact hnth)]
    · obtain ⟨bef, hbef⟩ := nth_of_lt (l := t ++ n :: s) (i := t.length - 1) (by simp; omega)
      rw [removeChild_byIndex_pos h p (t ++ n :: s) t.length n bef hcn hpos (by simp) hnth hbef]

/-- Counterexample for C3 as stated: `hC9`'s parent `0` satisfies the
sibling-link invariant with children `[1, 2]`, and `appendChild` of node `1`
— which is ALREADY a child — succeeds but breaks the invariant (the child
array becomes `[1, 2, 1]` while node `1`'s `nextSibling` is cleared). -/
theorem C3_sibling_invariant_cex :
    SibInv hC9 0 ∧
    (appendChild hC9 (some 0) (some 1)).2 = .ok () ∧
    ((appendChild hC9 (some 0) (some 1)).1.get 0).childNodes = some [1, 2, 1] ∧
    ¬ SibInv (appendChild hC9 (some 0) (some 1)).1 0 := by
  refine ⟨by decide, rfl, rfl, by decide⟩

/-- C3 (amended): each successful mutation re-establishes the sibling-link
invariant, PROVIDED the node being appended/inserted is not already among the
parent's children (for removal no extra condition is needed: a chain-linked
child array is automatically duplicate-free). -/
theorem C3_sibling_invariant_amended :
    (∀ (h : Heap) (p c : Nat),
      isTextNode (h.get p) = .ok false → SibInv h p →
      c ∉ ((h.get p).childNodes).getD [] →
      (appendChild h (some p) (some c)).2 = .ok () ∧
      SibInv (appendChild h (some p) (some c)).1 p) ∧
    (∀ (h : Heap) (p c i : Nat),
      isTextNode (h.get p) = .ok false → SibInv h p →
      c ∉ ((h.get p).childNodes).getD [] →
      i ≤ (((h.get p).childNodes).getD []).length →
      (insertChild h (some p) (some c) i).2 = .ok () ∧
      SibInv (insertChild h (some p) (some c) i).1 p) ∧
    (∀ (h : Heap) (p i : Nat),
      SibInv h p → i < (((h.get p).childNodes).getD []).length →
      (∃ ch, (removeChild h (some p) (some (ChildSel.byIndex i))).2 = .ok (some ch)) ∧
      SibInv (removeChild h (some p) (some (ChildSel.byIndex i))).1 p) ∧
    (∀ (h : Heap) (p n : Nat),
      SibInv h p → n ∈ ((h.get p).childNodes).getD [] →
      (removeChild h (some p) (some (ChildSel.byNode n))).2 = .ok (some n) ∧
      SibInv (removeChild h (some p) (some (ChildSel.byNode n))).1 p) :=
  ⟨sibinv_append, sibinv_insert, sibinv_removeIdx, sibinv_removeNode⟩

/-- Witness for C3: all four clauses on the concrete heap `hC9` (append the
fresh node `3`, insert it at 0, remove index 0, remove node 2). -/
theorem C3_sibling_invariant_witness :
    SibInv hC9 0 ∧
    ((appendChild hC9 (some 0) (some 3)).2 = .ok () ∧
      SibInv (appendChild hC9 (some 0) (some 3)).1 0) ∧
    ((insertChild hC9 (some 0) (some 3) 0).2 = .ok () ∧
      SibInv (insertChild hC9 (some 0) (some 3) 0).1 0) ∧
    ((∃ ch, (removeChild hC9 (some 0) (some (ChildSel.byIndex 0))).2 = .ok (some ch)) ∧
      SibInv (removeChild hC9 (some 0) (some (ChildSel.byIndex 0))).1 0) ∧
    ((removeChild hC9 (some 0) (some (ChildSel.byNode 2))).2 = .ok (some 2) ∧
      SibInv (removeChild hC9 (some 0) (some (ChildSel.byNode 2))).1 0) := by
  obtain ⟨h1, h2, h3, h4⟩ := C3_sibling_invariant_amended
  exact ⟨by decide,
    h1 hC9 0 3 rfl (by decide) (by decide),
    h2 hC9 0 3 0 rfl (by decide) (by decide) (by decide),
    h3 hC9 0 0 (by decide) (by decide),
    h4 hC9 0 2 (by decide) (by decide)⟩

/-! ## Claim C1 -/

/-- Counterexample for C1 as stated: in `hSplit`, marker node `1` is a direct
child of root `0` at index `k = 0`; the claim says every child at or after
index 0 — i.e. both children `1` and `2` — is moved into the clone, but the
code moves only the children strictly after the marker's ancestor: the root
keeps `[1]` and the clone (the fresh node `3`) receives only `[2]`. -/
theorem C1_splitByChild_after_cex :
    getDescendantPath 5 hSplit 0 1 = .ok [((0 : Nat) : Int)] ∧
    (splitByChild hSplit 0 1 true false 5).2 = .ok 3 ∧
    (((splitByChild hSplit 0 1 true false 5).1.get 0).childNodes).getD [] = [1] ∧
    (1 : Nat) ∉ (((splitByChild hSplit 0 1 true false 5).1.get 3).childNodes).getD [] := by
  exact ⟨rfl, rfl, rfl, by decide⟩

/-- C1 (amended): with `afterMarker = true`, `splitByChild` moves every child
of `root` STRICTLY AFTER the marker's top-level-ancestor index `k` into the
returned shallow clone (the fresh node `h.nextId`), preserving order;
`root` retains the children up to and including index `k` in place, except
that with `removeMarkerNode` set the marker's top-level ancestor — root's
last remaining child — is removed from `root` afterwards. -/
theorem C1_splitByChild_after_amended (h : Heap) (root marker : Nat) (k : Nat)
    (rest : List Int) (cs : List Nat) (rmm : Bool) (fuel : Nat)
    (hcn : (h.get root).childNodes = some cs)
    (hpath : getDescendantPath fuel h root marker = .ok (((k : Nat) : Int) :: rest))
    (hk : k < cs.length)
    (hnd : cs.Nodup)
    (hpn : ∀ x ∈ cs, (h.get x).parentNode = some root)
    (hty : (h.get root).nodeType = XmlNodeType.General)
    (hnm : (h.get root).nodeName ≠ TEXT_NODE_NAME)
    (hroot : root < h.nextId)
    (hbound : ∀ x ∈ cs, x < h.nextId)
    (hfuel : cs.length < fuel) :
    (splitByChild h root marker true rmm fuel).2 = .ok h.nextId ∧
    (((splitByChild h root marker true rmm fuel).1.get root).childNodes).getD [] =
      (if rmm then cs.take k else cs.take (k + 1)) ∧
    (((splitByChild h root marker true rmm fuel).1.get h.nextId).childNodes).getD [] =
      cs.drop (k + 1) := by
  obtain ⟨ch, hch⟩ := nth_of_lt (l := cs) (i := k) hk
  have hsplitcs : cs = cs.take k ++ ch :: cs.drop (k + 1) := nth_take_drop cs k ch hch
  have htk : cs.take (k + 1) = cs.take k ++ [ch] := take_succ_nth cs k ch hch
  have hner : root ≠ h.nextId := Nat.ne_of_lt hroot
  set d := ({ h.get root with
    parentNode := none
    childNodes := none
    nextSibling := none } : NodeData) with hd
  set h1 := (h.alloc d).1 with hh1
  have hg1 : ∀ y, h1.get y = if y = h.nextId then d else h.get y := fun y => alloc_fst_get h d y
  have hcn1 : (h1.get root).childNodes = some (cs.take (k + 1) ++ cs.drop (k + 1)) := by
    rw [hg1, if_neg hner, hcn, List.take_append_drop]
  have htext1 : isTextNode (h1.get h.nextId) = .ok false := by
    rw [hg1, if_pos rfl]
    exact isTextNode_general (by simpa [hd] using hty) (by simpa [hd] using hnm)
  have hnd1 : (cs.take (k + 1) ++ cs.drop (k + 1)).Nodup := by
    rw [List.take_append_drop]
    exact hnd
  have hpn1 : ∀ x ∈ cs.drop (k + 1), (h1.get x).parentNode = some root := by
    intro x hx
    have hxcs : x ∈ cs := List.drop_subset (k + 1) cs hx
    rw [hg1, if_neg (Nat.ne_of_lt (hbound x hxcs))]
    exact hpn x hxcs
  have hidx : ((((cs.take (k + 1)).length : Nat)) : Int) = ((k : Nat) : Int) + 1 := by
    rw [List.length_take, Nat.min_eq_left (Nat.succ_le_of_lt hk)]
    push_cast
    ring
  obtain ⟨hl1, hl2, hl3, hl4, hl5⟩ :=
    splitAfterLoop_spec (cs.drop (k + 1)) fuel h1 root h.nextId (cs.take (k + 1))
      (by rw [List.length_drop]; omega) hcn1 hnd1 hpn1 hner htext1
  have hcnc1 : ((h1.get h.nextId).childNodes).getD [] = [] := by
    rw [hg1, if_pos rfl]
    simp [hd]
  rw [hidx] at hl1 hl2 hl3 hl4 hl5
  rcases hloop : splitAfterLoop fuel h1 root h.nextId (((k : Nat) : Int) + 1) with ⟨h2, lv⟩
  rw [hloop] at hl1 hl2 hl3 hl4 hl5
  have hlv : lv = Except.ok () := hl1
  have hcn2 : (h2.get root).childNodes = some (cs.take (k + 1)) := hl2
  have hclone2 : ((h2.get h.nextId).childNodes).getD [] = cs.drop (k + 1) := by
    have h3 := hl3
    rw [hcnc1] at h3
    simpa using h3
  have hpn2 : ∀ y, y ∉ cs.drop (k + 1) → (h2.get y).parentNode = (h1.get y).parentNode := hl4
  subst hlv
  simp only [splitByChild, hpath]
  rw [cloneNode_shallow]
  dsimp only
  simp only [List.head?_cons]
  rw [← hd, ← hh1]
  simp only [if_pos (show True from trivial)]
  rw [hloop]
  try dsimp only
  cases rmm with
  | false =>
    refine ⟨rfl, ?_, ?_⟩
    · show ((h2.get root).childNodes).getD [] = cs.take (k + 1)
      rw [hcn2]
      simp
    · show ((h2.get h.nextId).childNodes).getD [] = cs.drop (k + 1)
      exact hclone2
  | true =>
    simp only [if_pos (show true = true from rfl)]
    rw [hcn2]
    dsimp only
    have hlast : jsLast (cs.take (k + 1)) = some ch := by
      rw [htk]
      simp [jsLast]
    rw [hlast]
    have hnds : (cs.take k ++ ch :: cs.drop (k + 1)).Nodup := by
      rw [← hsplitcs]
      exact hnd
    obtain ⟨-, hnd2, hdisj⟩ := List.nodup_append.mp hnds
    obtain ⟨hchdrop, -⟩ := List.nodup_cons.mp hnd2
    have hchtk : ch ∉ cs.take k := fun hm => hdisj hm (List.mem_cons_self _ _)
    have hpnch : (h2.get ch).parentNode = some root := by
      rw [hpn2 ch hchdrop, hg1, if_neg (Nat.ne_of_lt (hbound ch (nth_mem hch)))]
      exact hpn ch (nth_mem hch)
    have hcn2' : (h2.get root).childNodes = some (cs.take k ++ ch :: []) := by
      rw [hcn2, htk]
    obtain ⟨hr1, hr2, -, -, hr5, -, -⟩ := remove_spec h2 ch root (cs.take k) [] hpnch hcn2' hchtk
    rcases hrm : remove h2 (some ch) with ⟨h3, rv⟩
    rw [hrm] at hr1 hr2 hr5
    have hrv : rv = Except.ok () := hr1
    subst hrv
    try dsimp only
    refine ⟨rfl, ?_, ?_⟩
    · show ((h3.get root).childNodes).getD [] = cs.take k
      have hfin : (h3.get root).childNodes = some (cs.take k ++ []) := hr2
      rw [hfin]
      simp
    · show ((h3.get h.nextId).childNodes).getD [] = cs.drop (k + 1)
      have hfin : (h3.get h.nextId).childNodes = (h2.get h.nextId).childNodes :=
        hr5 h.nextId (Ne.symm hner)
      rw [hfin]
      exact hclone2

/-- Witness for C1: the amended split on `hNest` with the NESTED marker `3`
(index 1 inside its immediate parent `1`, which is root's child at index 0):
the descendant path is `[0, 1]` — top-level ancestor index first — so the
split happens at `k = 0`, root keeps `[1]` and only child `2` moves into the
clone. -/
theorem C1_splitByChild_after_witness :
    (hNest.get 0).childNodes = some [1, 2] ∧
    getDescendantPath 5 hNest 0 3 = .ok [((0 : Nat) : Int), 1] ∧
    ((splitByChild hNest 0 3 true false 5).2 = .ok 5 ∧
      (((splitByChild hNest 0 3 true false 5).1.get 0).childNodes).getD [] =
        (if false then ([1, 2] : List Nat).take 0 else ([1, 2] : List Nat).take 1) ∧
      (((splitByChild hNest 0 3 true false 5).1.get 5).childNodes).getD [] =
        ([1, 2] : List Nat).drop 1) :=
  ⟨rfl, rfl,
    C1_splitByChild_after_amended hNest 0 3 0 [1] [1, 2] false 5 rfl rfl
      (by decide) (by decide) (by decide) rfl (by decide) (by decide) (by decide) (by decide)⟩

/-! ## Claim C10 -/

/-- C10: with `afterMarker = false` and a marker whose top-level ancestor is
root's FIRST child (path head 0), `splitByChild` computes the stop child from
index `-1` (`undefined`), so the do/while loop drains every child of `root`
into the clone and then crashes in `remove(undefined)` with the
missing-argument error — a partial mutation surfaced as an exception. -/
theorem C10_splitByChild_before_zero (h : Heap) (root marker : Nat)
    (rest : List Int) (cs : List Nat) (rmm : Bool) (fuel : Nat)
    (hcn : (h.get root).childNodes = some cs)
    (hpath : getDescendantPath fuel h root marker = .ok ((0 : Int) :: rest))
    (_hne : cs ≠ [])
    (hnd : cs.Nodup)
    (hpn : ∀ x ∈ cs, (h.get x).parentNode = some root)
    (hty : (h.get root).nodeType = XmlNodeType.General)
    (hnm : (h.get root).nodeName ≠ TEXT_NODE_NAME)
    (hroot : root < h.nextId)
    (hbound : ∀ x ∈ cs, x < h.nextId)
    (hfuel : cs.length < fuel) :
    (splitByChild h root marker false rmm fuel).2 = .error (.missingArgument "node") ∧
    ((splitByChild h root marker false rmm fuel).1.get root).childNodes = some [] ∧
    (((splitByChild h root marker false rmm fuel).1.get h.nextId).childNodes).getD [] = cs := by
  have hner : root ≠ h.nextId := Nat.ne_of_lt hroot
  set d := ({ h.get root with
    parentNode := none
    childNodes := none
    nextSibling := none } : NodeData) with hd
  set h1 := (h.alloc d).1 with hh1
  have hg1 : ∀ y, h1.get y = if y = h.nextId then d else h.get y := fun y => alloc_fst_get h d y
  have hcn1 : (h1.get root).childNodes = some cs := by
    rw [hg1, if_neg hner]
    exact hcn
  have htext1 : isTextNode (h1.get h.nextId) = .ok false := by
    rw [hg1, if_pos rfl]
    exact isTextNode_general (by simpa [hd] using hty) (by simpa [hd] using hnm)
  have hpn1 : ∀ x ∈ cs, (h1.get x).parentNode = some root := by
    intro x hx
    rw [hg1, if_neg (Nat.ne_of_lt (hbound x hx))]
    exact hpn x hx
  have hcnc1 : ((h1.get h.nextId).childNodes).getD [] = [] := by
    rw [hg1, if_pos rfl]
    simp [hd]
  obtain ⟨hl1, hl2, hl3⟩ :=
    splitBeforeLoop_none_spec cs fuel h1 root h.nextId hfuel hcn1 hnd hpn1 hner htext1
  rcases hloop : splitBeforeLoop fuel h1 root h.nextId none with ⟨h2, lv⟩
  rw [hloop] at hl1 hl2 hl3
  have hlv : lv = Except.error (.missingArgument "node") := hl1
  subst hlv
  have hstop : jsGetI cs ((0 : Int) + -1) = none := by
    unfold jsGetI
    rw [if_pos (by omega)]
  simp only [splitByChild, hpath]
  rw [cloneNode_shallow]
  dsimp only
  simp only [List.head?_cons]
  rw [← hd, ← hh1]
  simp only [if_neg (show ¬ (false = true) from by decide)]
  rw [hcn1]
  dsimp only
  rw [hstop]
  try dsimp only
  rw [hloop]
  try dsimp only
  refine ⟨rfl, ?_, ?_⟩
  · show (h2.get root).childNodes = some []
    exact hl2
  · show ((h2.get h.nextId).childNodes).getD [] = cs
    have h4 := hl3
    rw [hcnc1] at h4
    simpa using h4

/-- Witness for C10: the before-marker split of `hNest` at the NESTED marker
`3`, whose top-level ancestor `1` is root's FIRST child (descendant path
`[0, 1]`, head `0` even though the marker sits at index 1 of its immediate
parent): the split crashes with the missing-argument error after draining
both children into the clone. -/
theorem C10_splitByChild_before_zero_witness :
    (hNest.get 0).childNodes = some [1, 2] ∧
    getDescendantPath 5 hNest 0 3 = .ok [(0 : Int), 1] ∧
    ((splitByChild hNest 0 3 false false 5).2 = .error (.missingArgument "node") ∧
      ((splitByChild hNest 0 3 false false 5).1.get 0).childNodes = some [] ∧
      (((splitByChild hNest 0 3 false false 5).1.get 5).childNodes).getD [] = [1, 2]) :=
  ⟨rfl, rfl,
    C10_splitByChild_before_zero hNest 0 3 [1] [1, 2] false 5 rfl rfl
      (by decide) (by decide) (by decide) rfl (by decide) (by decide) (by decide) (by decide)⟩

/-! ### Pure-tree basics for the deep-clone proof -/

theorem optList_cons_some {α β : Type} (f : α → Option β) (x : α) (xs : List α)
    (ys : List β) (hy : optList f (x :: xs) = some ys) :
    ∃ y ys', f x = some y ∧ optList f xs = some ys' ∧ ys = y :: ys' := by
  cases hfx : f x with
  | none =>
    simp only [optList, hfx] at hy
    cases optList f xs <;> simp at hy
  | some y =>
    cases hrest : optList f xs with
    | none =>
      simp only [optList, hfx, hrest] at hy
      exact Option.noConfusion hy
    | some ys' =>
      simp only [optList, hfx, hrest, Option.some.injEq] at hy
      exact ⟨y, ys', rfl, rfl, hy.symm⟩

theorem optList_cons_eq {α β : Type} (f : α → Option β) (x : α) (xs : List α)
    (y : β) (ys : List β) (hfx : f x = some y) (hrest : optList f xs = some ys) :
    optList f (x :: xs) = some (y :: ys) := by
  simp only [optList, hfx, hrest]

theorem optList_length {α β : Type} {f : α → Option β} :
    ∀ {xs : List α} {ys : List β}, optList f xs = some ys → ys.length = xs.length := by
  intro xs
  induction xs with
  | nil => intro ys hy; simp only [optList, Option.some.injEq] at hy; subst hy; rfl
  | cons x xs ih =>
    intro ys hy
    obtain ⟨y, ys', _, hrest, hys⟩ := optList_cons_some f x xs ys hy
    subst hys
    simp [ih hrest]

theorem optList_congr {α β : Type} {f g : α → Option β} :
    ∀ {xs : List α}, (∀ x ∈ xs, f x = g x) → optList f xs = optList g xs := by
  intro xs
  induction xs with
  | nil => intro _; rfl
  | cons x xs ih =>
    intro hall
    simp only [optList, hall x (by simp), ih (fun z hz => hall z (by simp [hz]))]

theorem optList_forall2 {α β : Type} {f : α → Option β} :
    ∀ {xs : List α} {ys : List β}, optList f xs = some ys →
      List.Forall₂ (fun x y => f x = some y) xs ys := by
  intro xs
  induction xs with
  | nil =>
    intro ys hy
    simp only [optList, Option.some.injEq] at hy
    subst hy
    exact List.Forall₂.nil
  | cons x xs ih =>
    intro ys hy
    obtain ⟨y, ys', hfx, hrest, hys⟩ := optList_cons_some f x xs ys hy
    subst hys
    exact List.Forall₂.cons hfx (ih hrest)

theorem ptIds_mk (id : Nat) (ty : XmlNodeType) (nm : String) (tx : Option String)
    (ats : Option (List XmlAttribute)) (kids : List PTree) :
    ptIds (PTree.mk id ty nm tx ats kids) = id :: ptIdsL kids := by
  simp [ptIds]

theorem ptIdsL_nil : ptIdsL [] = [] := by simp [ptIdsL]

theorem ptIdsL_cons (t : PTree) (ts : List PTree) :
    ptIdsL (t :: ts) = ptIds t ++ ptIdsL ts := by
  simp [ptIdsL]

theorem ptIdsL_append : ∀ (as_ bs : List PTree),
    ptIdsL (as_ ++ bs) = ptIdsL as_ ++ ptIdsL bs := by
  intro as_ bs
  induction as_ with
  | nil => simp [ptIdsL]
  | cons t ts ih => simp [ptIdsL_cons, ih]

theorem ptIds_sublist_of_mem : ∀ {ts : List PTree} {t : PTree}, t ∈ ts →
    (ptIds t).Sublist (ptIdsL ts) := by
  intro ts
  induction ts with
  | nil => intro t ht; cases ht
  | cons a ts ih =>
    intro t ht
    rw [ptIdsL_cons]
    rcases List.mem_cons.mp ht with h1 | h2
    · subst h1; exact List.sublist_append_left _ _
    · exact (ih h2).trans (List.sublist_append_right _ _)

theorem ptRoot_mem (t : PTree) : ptRoot t ∈ ptIds t := by
  cases t with
  | mk id ty nm tx ats kids => simp [ptRoot, ptIds_mk]

theorem stripIds_mk (id : Nat) (ty : XmlNodeType) (nm : String) (tx : Option String)
    (ats : Option (List XmlAttribute)) (kids : List PTree) :
    stripIds (PTree.mk id ty nm tx ats kids) = STree.mk ty nm tx ats (stripIdsL kids) := by
  simp [stripIds]

theorem stripIdsL_nil : stripIdsL [] = [] := by simp [stripIdsL]

theorem stripIdsL_cons (t : PTree) (ts : List PTree) :
    stripIdsL (t :: ts) = stripIds t :: stripIdsL ts := by
  simp [stripIdsL]

theorem stripIdsL_append : ∀ (as_ bs : List PTree),
    stripIdsL (as_ ++ bs) = stripIdsL as_ ++ stripIdsL bs := by
  intro as_ bs
  induction as_ with
  | nil => simp [stripIdsL]
  | cons t ts ih => simp [stripIdsL_cons, ih]

theorem readTree_succ_some {fuel : Nat} {h : Heap} {id : Nat} {t : PTree}
    (hr : readTree (fuel + 1) h id = some t) :
    ∃ b ks, isTextNode (h.get id) = .ok b ∧
      optList (fun c => readTree fuel h c) (((h.get id).childNodes).getD []) = some ks ∧
      t = PTree.mk id (h.get id).nodeType (h.get id).nodeName
        (if b then (h.get id).textContent else none)
        (if b then none else (h.get id).attributes) ks := by
  cases hitn : isTextNode (h.get id) with
  | error e =>
    simp only [readTree, hitn] at hr
    exact Option.noConfusion hr
  | ok b =>
    cases hks : optList (fun c => readTree fuel h c) (((h.get id).childNodes).getD []) with
    | none =>
      simp only [readTree, hitn, hks] at hr
      exact Option.noConfusion hr
    | some ks =>
      simp only [readTree, hitn, hks, Option.some.injEq] at hr
      exact ⟨b, ks, rfl, rfl, hr.symm⟩

theorem readTree_succ_eq {fuel : Nat} {h : Heap} {id : Nat} {b : Bool} {ks : List PTree}
    (hitn : isTextNode (h.get id) = .ok b)
    (hks : optList (fun c => readTree fuel h c) (((h.get id).childNodes).getD []) = some ks) :
    readTree (fuel + 1) h id =
      some (PTree.mk id (h.get id).nodeType (h.get id).nodeName
        (if b then (h.get id).textContent else none)
        (if b then none else (h.get id).attributes) ks) := by
  simp only [readTree, hitn, hks]

theorem stripIdsL_length : ∀ (ts : List PTree), (stripIdsL ts).length = ts.length := by
  intro ts
  induction ts with
  | nil => simp [stripIdsL]
  | cons t ts ih => simp [stripIdsL_cons, ih]

/-- `isTextNode` of the shell record `serP` matches on agrees with
`isTextNode` of the heap record it was read from. -/
theorem isTextNode_shell (d : NodeData) (tx : Option String)
    (ats : Option (List XmlAttribute)) :
    isTextNode { nodeType := d.nodeType
                 nodeName := d.nodeName
                 textContent := tx
                 attributes := ats
                 parentNode := blankNode.parentNode
                 childNodes := blankNode.childNodes
                 nextSibling := blankNode.nextSibling } = isTextNode d :=
  isTextNode_congr rfl rfl

/-- Serialization factors through the pure tree view: if the subtree under
`id` reads back as `t`, then `serialize` computes exactly the pure
serialization of the identity-free tree of `t`. -/
theorem serialize_factor : ∀ (fuel : Nat) (h : Heap) (id : Nat) (t : PTree),
    readTree fuel h id = some t → serializeH fuel h id = serP (stripIds t) := by
  intro fuel
  induction fuel with
  | zero => intro h id t hr; simp [readTree] at hr
  | succ fuel ih =>
    intro h id t hr
    obtain ⟨b, ks, hitn, hks, ht⟩ := readTree_succ_some hr
    subst ht
    rw [stripIds_mk]
    have hlist : ∀ (cs : List Nat) (us : List PTree),
        optList (fun c => readTree fuel h c) cs = some us →
        seqStrings (cs.map (fun c => serializeH fuel h c)) = serPL (stripIdsL us) := by
      intro cs
      induction cs with
      | nil =>
        intro us hus
        simp only [optList, Option.some.injEq] at hus
        subst hus
        rw [stripIdsL_nil]
        rfl
      | cons c cs ihc =>
        intro us hus
        obtain ⟨u, us', hu, hrest, hus'⟩ := optList_cons_some _ c cs us hus
        subst hus'
        rw [stripIdsL_cons]
        have hhead : serializeH fuel h c = serP (stripIds u) := ih h c u hu
        have htail : seqStrings (cs.map (fun c2 => serializeH fuel h c2)) =
            serPL (stripIdsL us') := ihc us' hrest
        simp only [List.map_cons, seqStrings, serPL, hhead, htail]
    cases b with
    | true =>
      simp only [serializeH, serP, isTextNode_shell, hitn, eq_self_iff_true, if_true]
    | false =>
      have hlen2 : (stripIdsL ks).length = (((h.get id).childNodes).getD []).length := by
        rw [stripIdsL_length]
        exact optList_length hks
      by_cases hlen : (((h.get id).childNodes).getD []).length ≠ 0
      · have hlen' : (stripIdsL ks).length ≠ 0 := by rw [hlen2]; exact hlen
        simp only [serializeH, serP, isTextNode_shell, hitn, if_pos hlen, if_pos hlen',
          if_neg (show ¬ (false = true) from by decide), hlist _ ks hks]
      · have hlen' : ¬ ((stripIdsL ks).length ≠ 0) := by rw [hlen2]; exact hlen
        simp only [serializeH, serP, isTextNode_shell, hitn, if_neg hlen, if_neg hlen',
          if_neg (show ¬ (false = true) from by decide)]

theorem readTree_root {fuel : Nat} {h : Heap} {id : Nat} {t : PTree}
    (hr : readTree fuel h id = some t) : ptRoot t = id := by
  cases fuel with
  | zero => simp [readTree] at hr
  | succ fuel =>
    obtain ⟨b, ks, _, _, ht⟩ := readTree_succ_some hr
    subst ht
    rfl

theorem optList_mem_ex {α β : Type} {f : α → Option β} :
    ∀ {xs : List α} {ys : List β}, optList f xs = some ys →
      ∀ x ∈ xs, ∃ y ∈ ys, f x = some y := by
  intro xs
  induction xs with
  | nil => intro ys _ x hx; cases hx
  | cons c cs ihc =>
    intro ys hy x hx
    obtain ⟨y, ys', hc, hrest, hys⟩ := optList_cons_some f c cs ys hy
    subst hys
    rcases List.mem_cons.mp hx with h1 | h2
    · subst h1; exact ⟨y, by simp, hc⟩
    · obtain ⟨y', hy', hfy'⟩ := ihc hrest x h2
      exact ⟨y', List.mem_cons_of_mem _ hy', hfy'⟩

/-- The entries of a child list all occur among the identities of the trees
read from them. -/
theorem mem_ptIdsL_of_optList {fuel : Nat} {h : Heap} {cs : List Nat} {ks : List PTree}
    (hks : optList (fun c => readTree fuel h c) cs = some ks) :
    ∀ x ∈ cs, x ∈ ptIdsL ks := by
  intro x hx
  obtain ⟨u, huks, hru⟩ := optList_mem_ex hks x hx
  have hroot : ptRoot u = x := readTree_root hru
  exact (ptIds_sublist_of_mem huks).mem (hroot ▸ ptRoot_mem u)

/-- `readTree` reads only the `sdata` fields of the identities it returns:
any heap agreeing there reads back the same tree. -/
theorem readTree_stable : ∀ (fuel : Nat) (h1 h2 : Heap) (id : Nat) (t : PTree),
    readTree fuel h1 id = some t →
    (∀ i ∈ ptIds t, sdata (h2.get i) = sdata (h1.get i)) →
    readTree fuel h2 id = some t := by
  intro fuel
  induction fuel with
  | zero => intro h1 h2 id t hr _; simp [readTree] at hr
  | succ fuel ih =>
    intro h1 h2 id t hr hag
    obtain ⟨b, ks, hitn, hks, ht⟩ := readTree_succ_some hr
    have hid : id ∈ ptIds t := by rw [ht, ptIds_mk]; exact List.mem_cons_self _ _
    have hsd := hag id hid
    simp only [sdata, Prod.mk.injEq] at hsd
    obtain ⟨hty, hnm, htx, hats, hcn⟩ := hsd
    have hitn2 : isTextNode (h2.get id) = .ok b := (isTextNode_congr hty hnm).trans hitn
    have hagk : ∀ i ∈ ptIdsL ks, sdata (h2.get i) = sdata (h1.get i) := by
      intro i hi
      exact hag i (by rw [ht, ptIds_mk]; exact List.mem_cons_of_mem _ hi)
    have hlist : ∀ (cs : List Nat) (us : List PTree),
        optList (fun c => readTree fuel h1 c) cs = some us →
        (∀ i ∈ ptIdsL us, sdata (h2.get i) = sdata (h1.get i)) →
        optList (fun c => readTree fuel h2 c) cs = some us := by
      intro cs
      induction cs with
      | nil =>
        intro us hus _
        simp only [optList, Option.some.injEq] at hus ⊢
        exact hus
      | cons c cs ihc =>
        intro us hus hag2
        obtain ⟨u, us', hu, hrest, hus'⟩ := optList_cons_some _ c cs us hus
        subst hus'
        have hu2 := ih h1 h2 c u hu
          (fun i hi => hag2 i (by rw [ptIdsL_cons]; exact List.mem_append_left _ hi))
        have hrest2 := ihc us' hrest
          (fun i hi => hag2 i (by rw [ptIdsL_cons]; exact List.mem_append_right _ hi))
        exact optList_cons_eq _ c cs u us' hu2 hrest2
    have hks2 : optList (fun c => readTree fuel h2 c) (((h2.get id).childNodes).getD []) =
        some ks := by
      rw [hcn]
      exact hlist _ ks hks hagk
    have hr2 := readTree_succ_eq hitn2 hks2
    rw [ht]
    rw [← hty, ← hnm, ← htx, ← hats]
    exact hr2

/-- `linkedTree` reads only the child containers of the subtree and the
parent/sibling links of its non-root members. -/
theorem linkedTree_stable : ∀ (fuel : Nat) (lo hi : Nat) (h1 h2 : Heap) (n : Nat) (t : PTree),
    readTree fuel h1 n = some t →
    (ptIds t).Nodup →
    linkedTree fuel lo hi h1 n = true →
    (∀ i ∈ ptIds t, (h2.get i).childNodes = (h1.get i).childNodes) →
    (∀ i ∈ ptIds t, i ≠ ptRoot t → h2.data i = h1.data i) →
    linkedTree fuel lo hi h2 n = true := by
  intro fuel
  induction fuel with
  | zero => intro lo hi h1 h2 n t hr _ _ _ _; simp [readTree] at hr
  | succ fuel ih =>
    intro lo hi h1 h2 n t hr hnd hl hcn hag
    obtain ⟨b, ks, hitn, hks, ht⟩ := readTree_succ_some hr
    have hroot : ptRoot t = n := readTree_root hr
    have hnmem : n ∈ ptIds t := hroot ▸ ptRoot_mem t
    have hnnotk : n ∉ ptIdsL ks := by
      rw [ht, ptIds_mk] at hnd
      exact (List.nodup_cons.mp hnd).1
    have hkmem : ∀ i ∈ ptIdsL ks, i ∈ ptIds t := by
      intro i hi
      rw [ht, ptIds_mk]
      exact List.mem_cons_of_mem _ hi
    simp only [linkedTree, Bool.and_eq_true, decide_eq_true_eq] at hl ⊢
    obtain ⟨hbounds, hm⟩ := hl
    refine ⟨hbounds, ?_⟩
    rw [hcn n hnmem]
    cases hcase : (h1.get n).childNodes with
    | none => rfl
    | some ds =>
      rw [hcase] at hm hks
      simp only [Option.getD_some] at hks
      simp only [Bool.and_eq_true, List.all_eq_true, decide_eq_true_eq] at hm ⊢
      obtain ⟨⟨hchain, hpn⟩, hlink⟩ := hm
      have hdsk : ∀ x ∈ ds, x ∈ ptIdsL ks := mem_ptIdsL_of_optList hks
      refine ⟨⟨?_, ?_⟩, ?_⟩
      · rw [chainF_congr (fun x => (h2.get x).nextSibling) (fun x => (h1.get x).nextSibling)
          ds ?_]
        · exact hchain
        · intro x hx
          have hxa := hag x (hkmem x (hdsk x hx)) (by rw [hroot]; intro he; exact hnnotk (he ▸ hdsk x hx))
          show (h2.data x).nextSibling = (h1.data x).nextSibling
          rw [hxa]
      · intro d_ hd
        have hxa := hag d_ (hkmem d_ (hdsk d_ hd))
          (by rw [hroot]; intro he; exact hnnotk (he ▸ hdsk d_ hd))
        have := hpn d_ hd
        show (h2.data d_).parentNode = some n
        rw [hxa]
        exact this
      · intro d_ hd
        obtain ⟨u, huks, hru⟩ := optList_mem_ex hks d_ hd
        refine ih lo hi h1 h2 d_ u hru ?_ (hlink d_ hd) ?_ ?_
        · refine List.Nodup.sublist ?_ hnd
          refine ((ptIds_sublist_of_mem huks).trans ?_)
          rw [ht, ptIds_mk]
          exact List.sublist_cons_self _ _
        · intro i hi
          exact hcn i (hkmem i ((ptIds_sublist_of_mem huks).mem hi))
        · intro i hi hine
          have hik : i ∈ ptIdsL ks := (ptIds_sublist_of_mem huks).mem hi
          exact hag i (hkmem i hik) (by rw [hroot]; intro he; exact hnnotk (he ▸ hik))

/-- Widening the identity bounds preserves `linkedTree`. -/
theorem linkedTree_mono : ∀ (fuel : Nat) (lo hi lo' hi' : Nat) (h : Heap) (n : Nat),
    lo' ≤ lo → hi ≤ hi' → linkedTree fuel lo hi h n = true →
    linkedTree fuel lo' hi' h n = true := by
  intro fuel
  induction fuel with
  | zero => intro lo hi lo' hi' h n _ _ hl; simp [linkedTree] at hl
  | succ fuel ih =>
    intro lo hi lo' hi' h n hlo hhi hl
    simp only [linkedTree, Bool.and_eq_true, decide_eq_true_eq] at hl ⊢
    obtain ⟨⟨h1, h2⟩, hm⟩ := hl
    refine ⟨⟨by omega, by omega⟩, ?_⟩
    cases hcase : (h.get n).childNodes with
    | none => simp
    | some ds =>
      rw [hcase] at hm
      simp only [Bool.and_eq_true, List.all_eq_true] at hm ⊢
      obtain ⟨hcp, hlink⟩ := hm
      exact ⟨hcp, fun d_ hd => ih lo hi lo' hi' h d_ hlo hhi (hlink d_ hd)⟩

theorem setNS_data_ne (h : Heap) (i j : Nat) (v : Option Nat) (hne : j ≠ i) :
    (h.setNS i v).data j = h.data j := by
  unfold Heap.setNS
  simp [hne]

theorem setPN_data_ne (h : Heap) (i j : Nat) (v : Option Nat) (hne : j ≠ i) :
    (h.setPN i v).data j = h.data j := by
  unfold Heap.setPN
  simp [hne]

theorem setCN_data_ne (h : Heap) (i j : Nat) (v : Option (List Nat)) (hne : j ≠ i) :
    (h.setCN i v).data j = h.data j := by
  unfold Heap.setCN
  simp [hne]

theorem setTX_data_ne (h : Heap) (i j : Nat) (v : Option String) (hne : j ≠ i) :
    (h.setTX i v).data j = h.data j := by
  unfold Heap.setTX
  simp [hne]

theorem setAT_data_ne (h : Heap) (i j : Nat) (v : Option (List XmlAttribute)) (hne : j ≠ i) :
    (h.setAT i v).data j = h.data j := by
  unfold Heap.setAT
  simp [hne]

theorem alloc_data_ne (h : Heap) (d : NodeData) (j : Nat) (hne : j ≠ h.nextId) :
    ((h.alloc d).1).data j = h.data j := by
  unfold Heap.alloc
  simp [hne]

theorem disjoint_of_bounds {l1 l2 : List Nat} {m : Nat}
    (h1 : ∀ a ∈ l1, a < m) (h2 : ∀ b ∈ l2, m ≤ b) : l1.Disjoint l2 := by
  intro a ha hb
  exact absurd (h2 a hb) (Nat.not_le.mpr (h1 a ha))

/-- One iteration of the child-cloning loop, characterized: after a successful
child clone the loop appends the clone to the accumulating child array, sets
its parent link, points the previous sibling clone at it, and recurses with it
as the new previous sibling.  Everything else in the heap is untouched. -/
theorem cloneKidsStep (F : Heap → Nat → Heap × Except XmlError Nat) (clone : Nat)
    (h h1 : Heap) (prev : Option Nat) (c cc : Nat) (cs' : List Nat) (ds0 : List Nat)
    (heq1 : F h c = (h1, .ok cc))
    (hd : (h1.get clone).childNodes = some ds0)
    (hccclone : cc ≠ clone)
    (hprevne : ∀ pv, prev = some pv → pv ≠ clone ∧ pv ≠ cc) :
    ∃ h4,
      cloneKidsLoop F clone h prev (c :: cs') = cloneKidsLoop F clone h4 (some cc) cs' ∧
      h4.nextId = h1.nextId ∧
      (h4.get clone).childNodes = some (ds0 ++ [cc]) ∧
      (∀ j, j ≠ clone → (h4.get j).childNodes = (h1.get j).childNodes) ∧
      (h4.get cc).parentNode = some clone ∧
      (∀ j, j ≠ cc → (h4.get j).parentNode = (h1.get j).parentNode) ∧
      (∀ pv, prev = some pv → (h4.get pv).nextSibling = some cc) ∧
      (∀ j, (∀ pv, prev = some pv → j ≠ pv) → (h4.get j).nextSibling = (h1.get j).nextSibling) ∧
      (∀ j, j ≠ clone → sdata (h4.get j) = sdata (h1.get j)) ∧
      (h4.get clone).nodeType = (h1.get clone).nodeType ∧
      (h4.get clone).nodeName = (h1.get clone).nodeName ∧
      (h4.get clone).textContent = (h1.get clone).textContent ∧
      (h4.get clone).attributes = (h1.get clone).attributes ∧
      (h4.get clone).parentNode = (h1.get clone).parentNode ∧
      (h4.get clone).nextSibling = (h1.get clone).nextSibling ∧
      (∀ j, j ≠ clone → j ≠ cc → (∀ pv, prev = some pv → j ≠ pv) → h4.data j = h1.data j) := by
  cases prev with
  | none =>
    refine ⟨(h1.setCN clone (some (ds0 ++ [cc]))).setPN cc (some clone), ?_, ?_, ?_, ?_, ?_,
      ?_, ?_, ?_, ?_, ?_, ?_, ?_, ?_, ?_, ?_, ?_⟩
    · simp only [cloneKidsLoop, heq1, hd, Option.getD_some]
    · simp
    · simp [Ne.symm hccclone]
    · intro j hj; simp [hj]
    · simp [hccclone]
    · intro j hj; simp [hj]
    · intro pv hpv; exact Option.noConfusion hpv
    · intro j _; simp
    · intro j hj; simp [sdata, hj]
    · simp [Ne.symm hccclone]
    · simp [Ne.symm hccclone]
    · simp [Ne.symm hccclone]
    · simp [Ne.symm hccclone]
    · simp [Ne.symm hccclone]
    · simp [Ne.symm hccclone]
    · intro j hj1 hj2 _
      rw [setPN_data_ne _ _ _ _ hj2, setCN_data_ne _ _ _ _ hj1]
  | some pv =>
    obtain ⟨hpc, hpcc⟩ := hprevne pv rfl
    refine ⟨((h1.setCN clone (some (ds0 ++ [cc]))).setPN cc (some clone)).setNS pv (some cc),
      ?_, ?_, ?_, ?_, ?_, ?_, ?_, ?_, ?_, ?_, ?_, ?_, ?_, ?_, ?_, ?_⟩
    · simp only [cloneKidsLoop, heq1, hd, Option.getD_some]
    · simp
    · simp [Ne.symm hccclone]
    · intro j hj; simp [hj]
    · simp [hccclone]
    · intro j hj; simp [hj]
    · intro pv' hpv'
      injection hpv' with hpv'
      subst hpv'
      simp
    · intro j hjp
      have := hjp pv rfl
      simp [this]
    · intro j hj; simp [sdata, hj]
    · simp [Ne.symm hccclone, Ne.symm hpc]
    · simp [Ne.symm hccclone, Ne.symm hpc]
    · simp [Ne.symm hccclone, Ne.symm hpc]
    · simp [Ne.symm hccclone, Ne.symm hpc]
    · simp [Ne.symm hccclone, Ne.symm hpc]
    · simp [Ne.symm hccclone, Ne.symm hpc]
    · intro j hj1 hj2 hjp
      rw [setNS_data_ne _ _ _ _ (hjp pv rfl), setPN_data_ne _ _ _ _ hj2,
        setCN_data_ne _ _ _ _ hj1]

/-- List-level version of `readTree_stable`. -/
theorem optList_readTree_stable {fuel : Nat} {h1 h2 : Heap} :
    ∀ {cs : List Nat} {us : List PTree},
      optList (fun c => readTree fuel h1 c) cs = some us →
      (∀ i ∈ ptIdsL us, sdata (h2.get i) = sdata (h1.get i)) →
      optList (fun c => readTree fuel h2 c) cs = some us := by
  intro cs
  induction cs with
  | nil =>
    intro us hus _
    simp only [optList, Option.some.injEq] at hus ⊢
    exact hus
  | cons c cs ihc =>
    intro us hus hag
    obtain ⟨u, us', hu, hrest, hus'⟩ := optList_cons_some _ c cs us hus
    subst hus'
    refine optList_cons_eq _ c cs u us' ?_ ?_
    · exact readTree_stable fuel h1 h2 c u hu
        (fun i hi => hag i (by rw [ptIdsL_cons]; exact List.mem_append_left _ hi))
    · exact ihc hrest
        (fun i hi => hag i (by rw [ptIdsL_cons]; exact List.mem_append_right _ hi))

theorem optList_append {α β : Type} {f : α → Option β} :
    ∀ {xs xs' : List α} {ys ys' : List β},
      optList f xs = some ys → optList f xs' = some ys' →
      optList f (xs ++ xs') = some (ys ++ ys') := by
  intro xs
  induction xs with
  | nil =>
    intro xs' ys ys' hy hy'
    simp only [optList, Option.some.injEq] at hy
    subst hy
    simpa using hy'
  | cons x xs ihx =>
    intro xs' ys ys' hy hy'
    obtain ⟨y, ys0, hx, hrest, hys⟩ := optList_cons_some _ x xs ys hy
    subst hys
    rw [List.cons_append, List.cons_append]
    exact optList_cons_eq _ x (xs ++ xs') y (ys0 ++ ys') hx (ihx hrest hy')

/-- Identities occurring strictly inside one of the trees read from a
duplicate-free batch do not occur in the list of roots. -/
theorem optList_nonroot_not_in {fuel : Nat} {h : Heap} :
    ∀ {ds : List Nat} {us : List PTree},
      optList (fun d_ => readTree fuel h d_) ds = some us →
      (ptIdsL us).Nodup →
      ∀ d_ ∈ ds, ∀ u, readTree fuel h d_ = some u →
      ∀ i ∈ ptIds u, i ≠ d_ → i ∉ ds := by
  intro ds
  induction ds with
  | nil => intro us _ _ d_ hd; cases hd
  | cons a ds' ihd =>
    intro us hus hnd d_ hd u hru i hi hine
    obtain ⟨ua, us', hra, hrest, hus'⟩ := optList_cons_some _ a ds' us hus
    subst hus'
    rw [ptIdsL_cons, List.nodup_append] at hnd
    obtain ⟨hnda, hndus', hdisj⟩ := hnd
    rcases List.mem_cons.mp hd with hda | hdds'
    · subst hda
      have hueq : u = ua := Option.some.inj (hru.symm.trans hra)
      subst hueq
      intro hmem
      rcases List.mem_cons.mp hmem with h1 | h2
      · exact hine h1
      · exact hdisj hi (mem_ptIdsL_of_optList hrest i h2)
    · intro hmem
      have hius' : i ∈ ptIdsL us' := by
        obtain ⟨u', hu', hru'⟩ := optList_mem_ex hrest d_ hdds'
        have : u = u' := Option.some.inj (hru.symm.trans hru')
        subst this
        exact (ptIds_sublist_of_mem hu').mem hi
      rcases List.mem_cons.mp hmem with h1 | h2
      · subst h1
        have haroot : ptRoot ua = i := readTree_root hra
        exact hdisj (haroot ▸ ptRoot_mem ua) hius'
      · exact ihd hrest hndus' d_ hdds' u hru i hi hine h2

/-- Specification of the child-cloning loop of `cloneNodeDeep`, by induction
along the remaining source children `cs`.  `clone` is the object being
populated, `ds0`/`us` are the child clones already produced (with their pure
trees), `prev` the last of them.  The hypothesis `hCD` is the specification of
the recursive clone call at the same depth budget, supplied by the main
induction of `cloneNodeDeep_spec`.  On success the loop extends `clone`'s
child array with fresh, correctly linked copies of the sources and touches
nothing else below the allocation frontier except `clone`'s array and `prev`'s
sibling link. -/
theorem cloneKidsLoop_spec (fuel : Nat)
    (hCD : ∀ (h : Heap) (n : Nat) (t : PTree),
      readTree fuel h n = some t →
      (∀ i ∈ ptIds t, i < h.nextId) →
      ∃ h' t',
        cloneNodeDeep fuel h n = (h', .ok h.nextId) ∧
        h.nextId < h'.nextId ∧
        (∀ i, i < h.nextId → h'.data i = h.data i) ∧
        readTree fuel h' h.nextId = some t' ∧
        stripIds t' = stripIds t ∧
        (∀ i ∈ ptIds t', h.nextId ≤ i ∧ i < h'.nextId) ∧
        (ptIds t').Nodup ∧
        (h'.get h.nextId).parentNode = none ∧
        (h'.get h.nextId).nextSibling = none ∧
        linkedTree fuel h.nextId h'.nextId h' h.nextId = true) :
    ∀ (cs : List Nat) (h : Heap) (ts : List PTree) (clone : Nat) (prev : Option Nat)
      (ds0 : List Nat) (us : List PTree),
      optList (fun c => readTree fuel h c) cs = some ts →
      (∀ i ∈ ptIdsL ts, i < clone) →
      clone < h.nextId →
      (h.get clone).childNodes = some ds0 →
      ds0.getLast? = prev →
      optList (fun d_ => readTree fuel h d_) ds0 = some us →
      (∀ i ∈ ptIdsL us, clone < i ∧ i < h.nextId) →
      (ptIdsL us).Nodup →
      chainF (fun x => (h.get x).nextSibling) ds0 = true →
      (∀ d_ ∈ ds0, (h.get d_).parentNode = some clone) →
      (∀ d_ ∈ ds0, linkedTree fuel clone h.nextId h d_ = true) →
      ∃ h' ds1 us1,
        cloneKidsLoop (fun hh nn => cloneNodeDeep fuel hh nn) clone h prev cs =
          (h', .ok ()) ∧
        h.nextId ≤ h'.nextId ∧
        (∀ i, i < h.nextId → i ≠ clone → (∀ pv, prev = some pv → i ≠ pv) →
          h'.data i = h.data i) ∧
        (h'.get clone).nodeType = (h.get clone).nodeType ∧
        (h'.get clone).nodeName = (h.get clone).nodeName ∧
        (h'.get clone).textContent = (h.get clone).textContent ∧
        (h'.get clone).attributes = (h.get clone).attributes ∧
        (h'.get clone).parentNode = (h.get clone).parentNode ∧
        (h'.get clone).nextSibling = (h.get clone).nextSibling ∧
        (h'.get clone).childNodes = some (ds0 ++ ds1) ∧
        optList (fun d_ => readTree fuel h' d_) (ds0 ++ ds1) = some (us ++ us1) ∧
        stripIdsL us1 = stripIdsL ts ∧
        (∀ i ∈ ptIdsL (us ++ us1), clone < i ∧ i < h'.nextId) ∧
        (ptIdsL (us ++ us1)).Nodup ∧
        chainF (fun x => (h'.get x).nextSibling) (ds0 ++ ds1) = true ∧
        (∀ d_ ∈ ds0 ++ ds1, (h'.get d_).parentNode = some clone) ∧
        (∀ d_ ∈ ds0 ++ ds1, linkedTree fuel clone h'.nextId h' d_ = true) := by
  intro cs
  induction cs with
  | nil =>
    intro h ts clone prev ds0 us hts htsb hclone hcn0 hprev hus husb husnd hchain hpn hlink
    simp only [optList, Option.some.injEq] at hts
    subst hts
    exact ⟨h, [], [], rfl, le_refl _, fun i _ _ _ => rfl, rfl, rfl, rfl, rfl, rfl, rfl,
      by simp [hcn0], by simpa using hus, by rw [stripIdsL_nil], by simpa using husb,
      by simpa using husnd, by simpa using hchain, by simpa using hpn,
      by simpa using hlink⟩
  | cons c cs' ih =>
    intro h ts clone prev ds0 us hts htsb hclone hcn0 hprev hus husb husnd hchain hpn hlink
    obtain ⟨tc, ts', hc, hts', hts_eq⟩ := optList_cons_some _ c cs' ts hts
    subst hts_eq
    have htsb_head : ∀ i ∈ ptIds tc, i < clone := by
      intro i hi
      exact htsb i (by rw [ptIdsL_cons]; exact List.mem_append_left _ hi)
    have htsb_tail : ∀ i ∈ ptIdsL ts', i < clone := by
      intro i hi
      exact htsb i (by rw [ptIdsL_cons]; exact List.mem_append_right _ hi)
    have htcb : ∀ i ∈ ptIds tc, i < h.nextId := fun i hi =>
      Nat.lt_trans (htsb_head i hi) hclone
    obtain ⟨h1, t'c, heq1, hlt1, hfr1, hrt1, hstrip1, hids1, hnd1, hpn1, hns1, hlk1⟩ :=
      hCD h c tc hc htcb
    have hds0mem : ∀ x ∈ ds0, x ∈ ptIdsL us := mem_ptIdsL_of_optList hus
    have hccclone : h.nextId ≠ clone := fun he => absurd (he ▸ hclone) (Nat.lt_irrefl _)
    have hd : (h1.get clone).childNodes = some ds0 := by
      show (h1.data clone).childNodes = some ds0
      rw [hfr1 clone hclone]
      exact hcn0
    have hprevne : ∀ pv, prev = some pv → pv ≠ clone ∧ pv ≠ h.nextId := by
      intro pv hpv
      have hpvmem : pv ∈ ds0 := mem_of_getLast? (by rw [hprev, hpv])
      obtain ⟨hl, hr⟩ := husb pv (hds0mem pv hpvmem)
      constructor
      · intro he; subst he; exact absurd hl (Nat.lt_irrefl _)
      · intro he; subst he; exact absurd hr (Nat.lt_irrefl _)
    obtain ⟨h4, hstep, h4nid, h4cnclone, h4cn, h4pncc, h4pn, h4nsprev, h4ns, h4sdata,
      h4ty, h4nm, h4tx, h4at, h4pnclone, h4nsclone, h4data⟩ :=
      cloneKidsStep _ clone h h1 prev c h.nextId cs' ds0 heq1 hd hccclone hprevne
    -- sdata of everything below the old frontier other than `clone` is intact
    have hsd_low : ∀ i, i < h.nextId → i ≠ clone → sdata (h4.get i) = sdata (h.get i) := by
      intro i hilt hine
      rw [h4sdata i hine]
      show sdata (h1.data i) = sdata (h.data i)
      rw [hfr1 i hilt]
    -- the already produced clones read back unchanged
    have hus4 : optList (fun d_ => readTree fuel h4 d_) ds0 = some us := by
      refine optList_readTree_stable hus ?_
      intro i hi
      obtain ⟨hl, hr⟩ := husb i hi
      exact hsd_low i hr (fun he => absurd (he ▸ hl) (Nat.lt_irrefl _))
    -- the fresh child clone reads back unchanged
    have hrt4 : readTree fuel h4 h.nextId = some t'c := by
      refine readTree_stable fuel h1 h4 _ t'c hrt1 ?_
      intro i hi
      obtain ⟨hl, hr⟩ := hids1 i hi
      exact h4sdata i (fun he => absurd (he ▸ Nat.lt_of_lt_of_le hclone hl) (Nat.lt_irrefl _))
    -- new accumulated state
    have hcn4 : (h4.get clone).childNodes = some (ds0 ++ [h.nextId]) := h4cnclone
    have hprev4 : (ds0 ++ [h.nextId]).getLast? = some h.nextId := by
      simp
    have husall4 : optList (fun d_ => readTree fuel h4 d_) (ds0 ++ [h.nextId]) =
        some (us ++ [t'c]) :=
      optList_append hus4 (optList_cons_eq _ _ [] _ [] hrt4 rfl)
    have husb4 : ∀ i ∈ ptIdsL (us ++ [t'c]), clone < i ∧ i < h4.nextId := by
      intro i hi
      rw [ptIdsL_append] at hi
      rcases List.mem_append.mp hi with h1' | h2'
      · obtain ⟨hl, hr⟩ := husb i h1'
        exact ⟨hl, by rw [h4nid]; omega⟩
      · rw [ptIdsL_cons, ptIdsL_nil, List.append_nil] at h2'
        obtain ⟨hl, hr⟩ := hids1 i h2'
        exact ⟨Nat.lt_of_lt_of_le hclone hl, by rw [h4nid]; omega⟩
    have husnd4 : (ptIdsL (us ++ [t'c])).Nodup := by
      rw [ptIdsL_append, ptIdsL_cons, ptIdsL_nil, List.append_nil]
      refine List.Nodup.append husnd hnd1 ?_
      exact disjoint_of_bounds (fun a ha => (husb a ha).2) (fun b hb => (hids1 b hb).1)
    have hds0_lt : ∀ x ∈ ds0, x < h.nextId := fun x hx => (husb x (hds0mem x hx)).2
    have hchain4 : chainF (fun x => (h4.get x).nextSibling) (ds0 ++ [h.nextId]) = true := by
      refine chainF_snoc (fun x => (h.get x).nextSibling) _ ds0 h.nextId hchain ?_ ?_ ?_
      · intro hmem
        exact absurd (hds0_lt _ hmem) (Nat.lt_irrefl _)
      · intro x hx
        by_cases hgl : ds0.getLast? = some x
        · rw [if_pos hgl]
          exact h4nsprev x (by rw [← hprev, hgl])
        · rw [if_neg hgl]
          have hxnp : ∀ pv, prev = some pv → x ≠ pv := by
            intro pv hpv he
            subst he
            exact hgl (by rw [hprev, hpv])
          rw [h4ns x hxnp]
          show (h1.data x).nextSibling = (h.data x).nextSibling
          rw [hfr1 x (hds0_lt x hx)]
      · have hccnp : ∀ pv, prev = some pv → h.nextId ≠ pv := by
          intro pv hpv he
          exact (hprevne pv hpv).2 he.symm
        rw [h4ns _ hccnp]
        exact hns1
    have hpn4 : ∀ d_ ∈ ds0 ++ [h.nextId], (h4.get d_).parentNode = some clone := by
      intro d_ hd_
      rcases List.mem_append.mp hd_ with h1' | h2'
      · have hdne : d_ ≠ h.nextId := fun he =>
          absurd (he ▸ hds0_lt d_ h1') (Nat.lt_irrefl _)
        rw [h4pn d_ hdne]
        show (h1.data d_).parentNode = some clone
        rw [hfr1 d_ (hds0_lt d_ h1')]
        exact hpn d_ h1'
      · rw [List.mem_singleton.mp h2']
        exact h4pncc
    have hlink4 : ∀ d_ ∈ ds0 ++ [h.nextId],
        linkedTree fuel clone h4.nextId h4 d_ = true := by
      intro d_ hd_
      rcases List.mem_append.mp hd_ with h1' | h2'
      · obtain ⟨u, humem, hru⟩ := optList_mem_ex hus d_ h1'
        have hnd_u : (ptIds u).Nodup := List.Nodup.sublist (ptIds_sublist_of_mem humem) husnd
        have hmono : linkedTree fuel clone h4.nextId h d_ = true := by
          refine linkedTree_mono fuel clone h.nextId clone h4.nextId h d_ (le_refl _)
            (by rw [h4nid]; omega) (hlink d_ h1')
        refine linkedTree_stable fuel clone h4.nextId h h4 d_ u hru hnd_u hmono ?_ ?_
        · intro i hi
          have hius : i ∈ ptIdsL us := (ptIds_sublist_of_mem humem).mem hi
          obtain ⟨hl, hr⟩ := husb i hius
          have := hsd_low i hr (fun he => absurd (he ▸ hl) (Nat.lt_irrefl _))
          simp only [sdata, Prod.mk.injEq] at this
          exact this.2.2.2.2
        · intro i hi hine
          have hroot_u : ptRoot u = d_ := readTree_root hru
          have hine' : i ≠ d_ := by rw [← hroot_u]; exact hine
          have hinotds : i ∉ ds0 :=
            optList_nonroot_not_in hus husnd d_ h1' u hru i hi hine'
          have hius : i ∈ ptIdsL us := (ptIds_sublist_of_mem humem).mem hi
          obtain ⟨hl, hr⟩ := husb i hius
          refine h4data i (fun he => absurd (he ▸ hl) (Nat.lt_irrefl _))
            (fun he => absurd (he ▸ hr) (Nat.lt_irrefl _)) ?_ |>.trans (hfr1 i hr)
          intro pv hpv he
          subst he
          exact hinotds (mem_of_getLast? (by rw [hprev, hpv]))
      · rw [List.mem_singleton.mp h2']
        have hmono : linkedTree fuel clone h4.nextId h1 h.nextId = true :=
          linkedTree_mono fuel h.nextId h1.nextId clone h4.nextId h1 h.nextId
            (Nat.le_of_lt hclone) (by rw [h4nid]) hlk1
        refine linkedTree_stable fuel clone h4.nextId h1 h4 h.nextId t'c hrt1 hnd1 hmono ?_ ?_
        · intro i hi
          obtain ⟨hl, hr⟩ := hids1 i hi
          exact h4cn i (fun he => absurd (he ▸ Nat.lt_of_lt_of_le hclone hl) (Nat.lt_irrefl _))
        · intro i hi hine
          have hroot' : ptRoot t'c = h.nextId := readTree_root hrt1
          have hine' : i ≠ h.nextId := by rw [← hroot']; exact hine
          obtain ⟨hl, hr⟩ := hids1 i hi
          refine h4data i (fun he => absurd (he ▸ Nat.lt_of_lt_of_le hclone hl) (Nat.lt_irrefl _))
            hine' ?_
          intro pv hpv he
          have hpvlt : pv < h.nextId :=
            (husb pv (hds0mem pv (mem_of_getLast? (by rw [hprev, hpv])))).2
          omega
      -- the recursive call
    have hts4 : optList (fun c2 => readTree fuel h4 c2) cs' = some ts' := by
      refine optList_readTree_stable hts' ?_
      intro i hi
      have hic : i < clone := htsb_tail i hi
      exact hsd_low i (Nat.lt_trans hic hclone) (fun he => absurd (he ▸ hic) (Nat.lt_irrefl _))
    have hclone4 : clone < h4.nextId := by rw [h4nid]; omega
    obtain ⟨h', ds1', us1', hloop, hnle, hfr, hty', hnm', htx', hat', hpn', hns', hcn',
      husall', hstrip', husb', husnd', hchain', hpnall', hlinkall'⟩ :=
      ih h4 ts' clone (some h.nextId) (ds0 ++ [h.nextId]) (us ++ [t'c]) hts4 htsb_tail
        hclone4 hcn4 hprev4 husall4 husb4 husnd4 hchain4 hpn4 hlink4
    refine ⟨h', h.nextId :: ds1', t'c :: us1', ?_, ?_, ?_, ?_, ?_, ?_, ?_, ?_, ?_, ?_,
      ?_, ?_, ?_, ?_, ?_, ?_, ?_⟩
    · rw [hstep]
      exact hloop
    · omega
    · intro i hilt hine hiprev
      have hicc : i ≠ h.nextId := fun he => absurd (he ▸ hilt) (Nat.lt_irrefl _)
      rw [hfr i (by omega) hine (fun pv hpv => by injection hpv with hpv; exact hpv ▸ hicc)]
      exact (h4data i hine hicc hiprev).trans (hfr1 i hilt)
    · rw [hty', h4ty]
      show (h1.data clone).nodeType = (h.data clone).nodeType
      rw [hfr1 clone hclone]
    · rw [hnm', h4nm]
      show (h1.data clone).nodeName = (h.data clone).nodeName
      rw [hfr1 clone hclone]
    · rw [htx', h4tx]
      show (h1.data clone).textContent = (h.data clone).textContent
      rw [hfr1 clone hclone]
    · rw [hat', h4at]
      show (h1.data clone).attributes = (h.data clone).attributes
      rw [hfr1 clone hclone]
    · rw [hpn', h4pnclone]
      show (h1.data clone).parentNode = (h.data clone).parentNode
      rw [hfr1 clone hclone]
    · rw [hns', h4nsclone]
      show (h1.data clone).nextSibling = (h.data clone).nextSibling
      rw [hfr1 clone hclone]
    · rw [hcn']
      rw [List.append_assoc, List.singleton_append]
    · rw [← List.singleton_append, ← List.append_assoc]
      rw [husall']
      rw [List.append_assoc, List.singleton_append]
    · rw [stripIdsL_cons, hstrip', stripIdsL_cons]
      rw [hstrip1]
    · intro i hi
      refine husb' i ?_
      rw [ptIdsL_append]
      rw [ptIdsL_append, ptIdsL_cons] at hi
      rcases List.mem_append.mp hi with h1' | h2'
      · exact List.mem_append_left _ (by rw [ptIdsL_append, ptIdsL_cons, ptIdsL_nil]; exact List.mem_append_left _ h1')
      · rcases List.mem_append.mp h2' with h3' | h4'
        · exact List.mem_append_left _ (by rw [ptIdsL_append, ptIdsL_cons, ptIdsL_nil]; exact List.mem_append_right _ (by simpa using h3'))
        · exact List.mem_append_right _ h4'
    · have := husnd'
      rw [ptIdsL_append] at this ⊢
      rw [ptIdsL_append, ptIdsL_cons, ptIdsL_nil, List.append_nil] at this
      rw [ptIdsL_cons]
      rw [List.append_assoc] at this
      exact this
    · rw [← List.singleton_append, ← List.append_assoc]
      exact hchain'
    · intro d_ hd_
      exact hpnall' d_ (by simpa using hd_)
    · intro d_ hd_
      exact hlinkall' d_ (by simpa using hd_)

theorem xmlAttr_eta_map : ∀ (l : List XmlAttribute),
    l.map (fun a => ({ name := a.name, value := a.value } : XmlAttribute)) = l := by
  intro l
  induction l with
  | nil => rfl
  | cons a l ih =>
    show _ :: l.map _ = a :: l
    rw [ih]

/-- Main specification of `cloneNodeDeep`, by induction on the depth budget:
on a readable subtree whose identities are all allocated, the deep clone
succeeds, returns the next fresh identity, leaves every old object untouched,
and the clone reads back as a tree with fresh, duplicate-free identities, the
same identity-free shape (hence the same serialization), no parent or sibling
link on its root, and correctly rebuilt internal links. -/
theorem cloneNodeDeep_spec : ∀ (fuel : Nat) (h : Heap) (n : Nat) (t : PTree),
    readTree fuel h n = some t →
    (∀ i ∈ ptIds t, i < h.nextId) →
    ∃ h' t',
      cloneNodeDeep fuel h n = (h', .ok h.nextId) ∧
      h.nextId < h'.nextId ∧
      (∀ i, i < h.nextId → h'.data i = h.data i) ∧
      readTree fuel h' h.nextId = some t' ∧
      stripIds t' = stripIds t ∧
      (∀ i ∈ ptIds t', h.nextId ≤ i ∧ i < h'.nextId) ∧
      (ptIds t').Nodup ∧
      (h'.get h.nextId).parentNode = none ∧
      (h'.get h.nextId).nextSibling = none ∧
      linkedTree fuel h.nextId h'.nextId h' h.nextId = true := by
  intro fuel
  induction fuel with
  | zero => intro h n t hr _; simp [readTree] at hr
  | succ fuel ih =>
    intro h n t hr hb
    obtain ⟨b, ks, hitn, hks, ht⟩ := readTree_succ_some hr
    have hnlt : n < h.nextId := hb n (by rw [ht, ptIds_mk]; exact List.mem_cons_self _ _)
    have hksb : ∀ i ∈ ptIdsL ks, i < h.nextId := by
      intro i hi
      exact hb i (by rw [ht, ptIds_mk]; exact List.mem_cons_of_mem _ hi)
    obtain ⟨h2, hsh_eq, hsh_nid, hsh_fr, hsh_ty, hsh_nm, hsh_tx, hsh_at, hsh_pn, hsh_cn,
        hsh_ns⟩ :
      ∃ h2,
        cloneNodeDeep (fuel + 1) h n =
          (match (h.get n).childNodes with
           | none => (h2, .ok h.nextId)
           | some cs =>
             match cloneKidsLoop (fun hh nn => cloneNodeDeep fuel hh nn) h.nextId
                 (h2.setCN h.nextId (some [])) none cs with
             | (h4, .error e) => (h4, .error e)
             | (h4, .ok _) => (h4, .ok h.nextId)) ∧
        h2.nextId = h.nextId + 1 ∧
        (∀ j, j ≠ h.nextId → h2.data j = h.data j) ∧
        (h2.get h.nextId).nodeType = (h.get n).nodeType ∧
        (h2.get h.nextId).nodeName = (h.get n).nodeName ∧
        (h2.get h.nextId).textContent = (if b then (h.get n).textContent else none) ∧
        (h2.get h.nextId).attributes = (if b then none else (h.get n).attributes) ∧
        (h2.get h.nextId).parentNode = none ∧
        (h2.get h.nextId).childNodes = none ∧
        (h2.get h.nextId).nextSibling = none := by
      cases b with
      | true =>
        refine ⟨(h.alloc { blankNode with
            nodeType := (h.get n).nodeType
            nodeName := (h.get n).nodeName }).1.setTX h.nextId (h.get n).textContent,
          ?_, ?_, ?_, ?_, ?_, ?_, ?_, ?_, ?_, ?_⟩
        · simp only [cloneNodeDeep, Heap.alloc, hitn, eq_self_iff_true, if_true]
          try rfl
        · simp
        · intro j hj
          rw [setTX_data_ne _ _ _ _ hj, alloc_data_ne _ _ _ hj]
        · simp [blankNode]
        · simp [blankNode]
        · simp [blankNode]
        · simp [blankNode]
        · simp [blankNode]
        · simp [blankNode]
        · simp [blankNode]
      | false =>
        cases hats : (h.get n).attributes with
        | none =>
          refine ⟨(h.alloc { blankNode with
              nodeType := (h.get n).nodeType
              nodeName := (h.get n).nodeName }).1,
            ?_, ?_, ?_, ?_, ?_, ?_, ?_, ?_, ?_, ?_⟩
          · simp only [cloneNodeDeep, Heap.alloc, hitn, Bool.false_eq_true, if_false, hats]
            try rfl
          · simp
          · intro j hj
            rw [alloc_data_ne _ _ _ hj]
          · simp [blankNode]
          · simp [blankNode]
          · simp [blankNode]
          · simp [blankNode, hats]
          · simp [blankNode]
          · simp [blankNode]
          · simp [blankNode]
        | some attrs =>
          refine ⟨(h.alloc { blankNode with
              nodeType := (h.get n).nodeType
              nodeName := (h.get n).nodeName }).1.setAT h.nextId
              (some (attrs.map (fun a => { name := a.name, value := a.value }))),
            ?_, ?_, ?_, ?_, ?_, ?_, ?_, ?_, ?_, ?_⟩
          · simp only [cloneNodeDeep, Heap.alloc, hitn, Bool.false_eq_true, if_false, hats]
            try rfl
          · simp
          · intro j hj
            rw [setAT_data_ne _ _ _ _ hj, alloc_data_ne _ _ _ hj]
          · simp [blankNode]
          · simp [blankNode]
          · simp [blankNode]
          · simp [blankNode, hats, xmlAttr_eta_map]
          · simp [blankNode]
          · simp [blankNode]
          · simp [blankNode]
    have hitn2 : isTextNode (h2.get h.nextId) = .ok b :=
      (isTextNode_congr hsh_ty hsh_nm).trans hitn
    cases hcase : (h.get n).childNodes with
    | none =>
      rw [hcase] at hsh_eq hks
      simp only [Option.getD_none] at hks
      have hks0 : ks = [] := by
        simp only [optList, Option.some.injEq] at hks
        exact hks.symm
      subst hks0
      have hrt2 : readTree (fuel + 1) h2 h.nextId =
          some (PTree.mk h.nextId (h2.get h.nextId).nodeType (h2.get h.nextId).nodeName
            (if b then (h2.get h.nextId).textContent else none)
            (if b then none else (h2.get h.nextId).attributes) []) :=
        readTree_succ_eq hitn2 (by rw [hsh_cn]; rfl)
      refine ⟨h2, _, hsh_eq, by omega, fun i hi => hsh_fr i (by omega), hrt2, ?_, ?_, ?_,
        hsh_pn, hsh_ns, ?_⟩
      · rw [stripIds_mk, ht, stripIds_mk]
        cases b with
        | true => simp [hsh_ty, hsh_nm, hsh_tx, hsh_at]
        | false => simp [hsh_ty, hsh_nm, hsh_tx, hsh_at]
      · intro i hi
        rw [ptIds_mk, ptIdsL_nil] at hi
        rcases List.mem_cons.mp hi with h1' | h2'
        · subst h1'; omega
        · cases h2'
      · rw [ptIds_mk, ptIdsL_nil]
        simp
      · simp only [linkedTree, hsh_cn, Bool.and_eq_true, decide_eq_true_eq]
        exact ⟨⟨le_refl _, by omega⟩, trivial⟩
    | some cs0 =>
      rw [hcase] at hsh_eq hks
      simp only [Option.getD_some] at hks
      -- the heap entering the loop
      have h3fr : ∀ j, j ≠ h.nextId → (h2.setCN h.nextId (some [])).data j = h.data j := by
        intro j hj
        rw [setCN_data_ne _ _ _ _ hj]
        exact hsh_fr j hj
      have hts3 : optList (fun c => readTree fuel (h2.setCN h.nextId (some [])) c) cs0 =
          some ks := by
        refine optList_readTree_stable hks ?_
        intro i hi
        have hilt : i < h.nextId := hksb i hi
        show sdata ((h2.setCN h.nextId (some [])).data i) = sdata (h.data i)
        rw [h3fr i (by omega)]
      obtain ⟨h', ds1, us1, hloop, hnle, hfr, hty', hnm', htx', hat', hpn', hns', hcn',
        husall', hstrip', husb', husnd', hchain', hpnall', hlinkall'⟩ :=
        cloneKidsLoop_spec fuel ih cs0 (h2.setCN h.nextId (some [])) ks h.nextId none [] []
          hts3 hksb (by simp [hsh_nid]) (by simp) rfl rfl
          (by intro i hi; rw [ptIdsL_nil] at hi; cases hi)
          (by rw [ptIdsL_nil]; exact List.nodup_nil)
          (chainF_nil _)
          (by intro d_ hd_; cases hd_)
          (by intro d_ hd_; cases hd_)
      have heq : cloneNodeDeep (fuel + 1) h n = (h', .ok h.nextId) := by
        rw [hsh_eq]
        dsimp only
        rw [hloop]
      have hnid' : h.nextId < h'.nextId := by
        have : (h2.setCN h.nextId (some [])).nextId ≤ h'.nextId := hnle
        simp [hsh_nid] at this
        omega
      have hfrall : ∀ i, i < h.nextId → h'.data i = h.data i := by
        intro i hi
        rw [hfr i (by simp [hsh_nid]; omega) (by omega)
          (fun pv hpv => Option.noConfusion hpv)]
        exact h3fr i (by omega)
      -- the clone reads back
      have hcnN : (h'.get h.nextId).childNodes = some ds1 := by
        rw [hcn']
        simp
      have hityN : isTextNode (h'.get h.nextId) = .ok b := by
        refine (isTextNode_congr ?_ ?_).trans hitn2 <;>
          [rw [hty']; rw [hnm']] <;> simp
      have husN : optList (fun d_ => readTree fuel h' d_) ds1 = some us1 := by
        have := husall'
        simpa using this
      have hrtN : readTree (fuel + 1) h' h.nextId =
          some (PTree.mk h.nextId (h'.get h.nextId).nodeType (h'.get h.nextId).nodeName
            (if b then (h'.get h.nextId).textContent else none)
            (if b then none else (h'.get h.nextId).attributes) us1) :=
        readTree_succ_eq hityN (by rw [hcnN]; simpa using husN)
      have husb1 : ∀ i ∈ ptIdsL us1, h.nextId < i ∧ i < h'.nextId := by
        intro i hi
        exact husb' i (by simpa using hi)
      refine ⟨h', _, heq, hnid', hfrall, hrtN, ?_, ?_, ?_, ?_, ?_, ?_⟩
      · rw [stripIds_mk, ht, stripIds_mk]
        have hty2 : (h'.get h.nextId).nodeType = (h.get n).nodeType := by
          rw [hty']; simpa using hsh_ty
        have hnm2 : (h'.get h.nextId).nodeName = (h.get n).nodeName := by
          rw [hnm']; simpa using hsh_nm
        have htx2 : (h'.get h.nextId).textContent =
            (if b then (h.get n).textContent else none) := by
          rw [htx']; simpa using hsh_tx
        have hat2 : (h'.get h.nextId).attributes =
            (if b then none else (h.get n).attributes) := by
          rw [hat']; simpa using hsh_at
        have hkstrip : stripIdsL us1 = stripIdsL ks := hstrip'
        cases b with
        | true => simp [hty2, hnm2, htx2, hat2, hkstrip]
        | false => simp [hty2, hnm2, htx2, hat2, hkstrip]
      · intro i hi
        rw [ptIds_mk] at hi
        rcases List.mem_cons.mp hi with h1' | h2'
        · subst h1'; exact ⟨le_refl _, hnid'⟩
        · obtain ⟨hl, hr⟩ := husb1 i h2'
          exact ⟨by omega, hr⟩
      · rw [ptIds_mk]
        refine List.nodup_cons.mpr ⟨?_, ?_⟩
        · intro hmem
          exact absurd (husb1 _ hmem).1 (Nat.lt_irrefl _)
        · have := husnd'
          simpa using this
      · rw [hpn']
        simpa using hsh_pn
      · rw [hns']
        simpa using hsh_ns
      · simp only [linkedTree, hcnN, Bool.and_eq_true, decide_eq_true_eq,
          List.all_eq_true]
        refine ⟨⟨le_refl _, by omega⟩, ⟨?_, ?_⟩, ?_⟩
        · have := hchain'
          simpa using this
        · intro d_ hd_
          exact hpnall' d_ (by simpa using hd_)
        · intro d_ hd_
          exact hlinkall' d_ (by simpa using hd_)

/-- C7: for every node `n` (read back as the pure tree `t`, with all its
identities allocated), `cloneNode(n, true)` succeeds and returns a deep clone
whose serialized output equals `serialize(n)` (which itself is unchanged), in
which the root and every descendant is a fresh, pairwise distinct object
(every pre-existing object is untouched), with the parent/child/sibling links
rebuilt consistently inside the clone per spec §3 invariants 3–4, and with the
top-level clone's parent link cleared. -/
theorem C7_cloneNode_deep (h : Heap) (n : Nat) (t : PTree) (fuel : Nat)
    (hrt : readTree fuel h n = some t)
    (hb : ∀ i ∈ ptIds t, i < h.nextId) :
    ∃ hf c t',
      cloneNode h (some n) true fuel = (hf, .ok c) ∧
      c = h.nextId ∧
      (∀ i, i < h.nextId → hf.data i = h.data i) ∧
      readTree fuel hf c = some t' ∧
      (∀ i ∈ ptIds t', h.nextId ≤ i ∧ i < hf.nextId) ∧
      (ptIds t').Nodup ∧
      serializeH fuel hf c = serializeH fuel h n ∧
      serializeH fuel hf n = serializeH fuel h n ∧
      linkedTree fuel h.nextId hf.nextId hf c = true ∧
      (hf.get c).parentNode = none := by
  obtain ⟨h1, t', heq, hlt, hfr, hrt1, hstrip, hids, hnd, hpn1, hns1, hlk⟩ :=
    cloneNodeDeep_spec fuel h n t hrt hb
  have hcne : cloneNode h (some n) true fuel = (h1.setPN h.nextId none, .ok h.nextId) := by
    simp only [cloneNode, Bool.not_true, Bool.false_eq_true, if_false, heq]
  have hfnid : (h1.setPN h.nextId none).nextId = h1.nextId := rfl
  have hsd1 : ∀ i, sdata ((h1.setPN h.nextId none).get i) = sdata (h1.get i) := by
    intro i
    simp [sdata]
  have hrtf : readTree fuel (h1.setPN h.nextId none) h.nextId = some t' :=
    readTree_stable fuel h1 _ h.nextId t' hrt1 (fun i _ => hsd1 i)
  have hffr : ∀ i, i < h.nextId → (h1.setPN h.nextId none).data i = h.data i := by
    intro i hi
    rw [setPN_data_ne _ _ _ _ (fun he => absurd (he ▸ hi) (Nat.lt_irrefl _))]
    exact hfr i hi
  have hrtn : readTree fuel (h1.setPN h.nextId none) n = some t := by
    refine readTree_stable fuel h _ n t hrt ?_
    intro i hi
    show sdata ((h1.setPN h.nextId none).data i) = sdata (h.data i)
    rw [hffr i (hb i hi)]
  have hroot' : ptRoot t' = h.nextId := readTree_root hrt1
  have hlkf : linkedTree fuel h.nextId (h1.setPN h.nextId none).nextId
      (h1.setPN h.nextId none) h.nextId = true := by
    rw [hfnid]
    refine linkedTree_stable fuel h.nextId h1.nextId h1 _ h.nextId t' hrt1 hnd hlk ?_ ?_
    · intro i _
      simp
    · intro i _ hine
      exact setPN_data_ne _ _ _ _ (by rw [← hroot']; exact hine)
  refine ⟨h1.setPN h.nextId none, h.nextId, t', hcne, rfl, hffr, hrtf, ?_, hnd, ?_, ?_,
    hlkf, by simp⟩
  · intro i hi
    rw [hfnid]
    exact hids i hi
  · rw [serialize_factor fuel _ _ t' hrtf, serialize_factor fuel h n t hrt, hstrip]
  · rw [serialize_factor fuel _ _ t hrtn, serialize_factor fuel h n t hrt]

/-- Witness for C7: deep-cloning the two-child tree of `hSplit` from its
root. -/
theorem C7_cloneNode_deep_witness :
    readTree 3 hSplit 0 = some (PTree.mk 0 XmlNodeType.General "r" none none
      [PTree.mk 1 XmlNodeType.General "a" none none [],
       PTree.mk 2 XmlNodeType.General "b" none none []]) ∧
    (∃ hf c t',
      cloneNode hSplit (some 0) true 3 = (hf, .ok c) ∧
      c = hSplit.nextId ∧
      (∀ i, i < hSplit.nextId → hf.data i = hSplit.data i) ∧
      readTree 3 hf c = some t' ∧
      (∀ i ∈ ptIds t', hSplit.nextId ≤ i ∧ i < hf.nextId) ∧
      (ptIds t').Nodup ∧
      serializeH 3 hf c = serializeH 3 hSplit 0 ∧
      serializeH 3 hf 0 = serializeH 3 hSplit 0 ∧
      linkedTree 3 hSplit.nextId hf.nextId hf c = true ∧
      (hf.get c).parentNode = none) :=
  ⟨rfl,
    C7_cloneNode_deep hSplit 0
      (PTree.mk 0 XmlNodeType.General "r" none none
        [PTree.mk 1 XmlNodeType.General "a" none none [],
         PTree.mk 2 XmlNodeType.General "b" none none []]) 3 rfl
      (by
        intro i hi
        simp only [ptIds_mk, ptIdsL_cons, ptIdsL_nil, List.append_nil, List.nil_append,
          List.cons_append, List.mem_cons, List.not_mem_nil, or_false] at hi
        show i < 3
        rcases hi with rfl | rfl | rfl <;> decide)⟩

end XN
